import Mathlib

/-!
Verification of the client-side media/posts caching subsystem of
`src/lib/cache.ts`: `PostsCacheService`, `ImageCacheService` and
`VideoCacheService`.

The JavaScript classes are shallowly embedded as explicit state records with
pure step functions.  A JavaScript `Map` is modelled as an association list
with insertion-order semantics: `mapSet` replaces an existing binding in
place (keeping its position, as `Map.prototype.set` does) and otherwise
appends at the end; `mapDelete` removes the binding for a key; `mapGet`
returns the first binding.  Timestamps (`Date.now()`) are an `Int` clock
carried in the state and advanced by an explicit `tick` event.  Promises are
modelled by identifiers: each started fetch gets a fresh identifier, the set
of in-flight fetches is recorded in an `inflight` list (instrumentation that
does not influence behaviour), and a `complete` event with the fetch
identifier plays the role of the asynchronous `onload`/`onerror`/`fetch`
continuation, which in the browser runs as a single synchronous task.
-/

namespace Spec2Proof

/-- JS `Map.get`: first binding of the key, if any. -/
def mapGet {α : Type} : List (String × α) → String → Option α
  | [], _ => none
  | p :: rest, k => if p.1 = k then some p.2 else mapGet rest k

/-- JS `Map.set`: replace an existing binding in place, else append. -/
def mapSet {α : Type} : List (String × α) → String → α → List (String × α)
  | [], k, v => [(k, v)]
  | p :: rest, k, v => if p.1 = k then (k, v) :: rest else p :: mapSet rest k v

/-- JS `Map.delete`: remove the binding of the key (keys are unique in a `Map`). -/
def mapDelete {α : Type} (m : List (String × α)) (k : String) : List (String × α) :=
  m.filter (fun p => p.1 ≠ k)

-- ==================== Posts Cache (`PostsCacheService`) ====================

/-- An opaque post record; only identity matters to the cache. -/
abbrev Post := Nat

/-- `PostsCacheEntry` of `cache.ts` (`lastDoc` is an opaque pagination cursor). -/
structure PostsCacheEntry where
  posts : List Post
  lastDoc : Nat
  timestamp : Int
  stale : Bool
deriving DecidableEq, Repr

/-- `CACHE_TTL = 3 * 60 * 1000` (3 minutes fresh). -/
def POSTS_CACHE_TTL : Int := 3 * 60 * 1000

/-- `STALE_TTL = 10 * 60 * 1000` (10 minutes stale-while-revalidate). -/
def POSTS_STALE_TTL : Int := 10 * 60 * 1000

/-- Result record of `PostsCacheService.get`. -/
structure PostsGetResult where
  posts : List Post
  lastDoc : Nat
  needsRefresh : Bool
deriving DecidableEq, Repr

/-- `PostsCacheService.get`, returning the result together with the updated
map (the completely-expired branch deletes the entry). -/
def postsGet (cache : List (String × PostsCacheEntry)) (key : String) (now : Int) :
    Option PostsGetResult × List (String × PostsCacheEntry) :=
  match mapGet cache key with
  | none => (none, cache)
  | some entry =>
    let age := now - entry.timestamp
    if age > POSTS_STALE_TTL then
      (none, mapDelete cache key)
    else if age > POSTS_CACHE_TTL ∨ entry.stale then
      (some ⟨entry.posts, entry.lastDoc, true⟩, cache)
    else
      (some ⟨entry.posts, entry.lastDoc, false⟩, cache)

/-- `PostsCacheService.set` (stores with `stale := false` and the current time;
the session-storage persistence is outside the in-memory model). -/
def postsSet (cache : List (String × PostsCacheEntry)) (key : String)
    (posts : List Post) (lastDoc : Nat) (now : Int) :
    List (String × PostsCacheEntry) :=
  mapSet cache key ⟨posts, lastDoc, now, false⟩

/-- Claim C7: `PostsCacheService.get` has exactly the three-way outcome: `none`
when no entry exists or its age exceeds `STALE_TTL`; the stored posts and
cursor with `needsRefresh = true` when the age exceeds `CACHE_TTL` but is at
most `STALE_TTL` or the entry is flagged stale; and the stored posts and
cursor with `needsRefresh = false` when the age is at most `CACHE_TTL` and the
entry is not flagged stale. -/
theorem C7_posts_get_trichotomy (cache : List (String × PostsCacheEntry))
    (key : String) (now : Int) :
    (mapGet cache key = none → (postsGet cache key now).1 = none) ∧
    (∀ e, mapGet cache key = some e → now - e.timestamp > POSTS_STALE_TTL →
      (postsGet cache key now).1 = none) ∧
    (∀ e, mapGet cache key = some e → now - e.timestamp ≤ POSTS_STALE_TTL →
      (now - e.timestamp > POSTS_CACHE_TTL ∨ e.stale = true) →
      (postsGet cache key now).1 = some ⟨e.posts, e.lastDoc, true⟩) ∧
    (∀ e, mapGet cache key = some e → now - e.timestamp ≤ POSTS_CACHE_TTL →
      e.stale = false →
      (postsGet cache key now).1 = some ⟨e.posts, e.lastDoc, false⟩) := by
  refine ⟨fun h => by simp [postsGet, h], fun e he hage => ?_, fun e he hle hmid => ?_,
    fun e he hfresh hstale => ?_⟩
  · simp [postsGet, he, if_pos hage]
  · have hnot : ¬ (now - e.timestamp > POSTS_STALE_TTL) := not_lt.mpr hle
    have hmid' : now - e.timestamp > POSTS_CACHE_TTL ∨ e.stale := by
      rcases hmid with h | h
      · exact Or.inl h
      · exact Or.inr (by simp [h])
    simp [postsGet, he, hnot, hmid']
  · have hle' : now - e.timestamp ≤ POSTS_STALE_TTL := by
      refine le_trans hfresh ?_
      simp [POSTS_CACHE_TTL, POSTS_STALE_TTL]
    have hnot : ¬ (now - e.timestamp > POSTS_STALE_TTL) := not_lt.mpr hle'
    have hnot2 : ¬ (now - e.timestamp > POSTS_CACHE_TTL ∨ e.stale) := by
      rintro (h | h)
      · exact absurd hfresh (not_le.mpr h)
      · simp [hstale] at h
    simp [postsGet, he, hnot, hnot2]

/-- Witness for C7 at a concrete fresh entry, a stale-window entry and an
expired entry. -/
theorem C7_witness :
    (postsGet [("k", ⟨[1, 2], 7, 0, false⟩)] "k" 1000).1 = some ⟨[1, 2], 7, false⟩ ∧
    (postsGet [("k", ⟨[1, 2], 7, 0, false⟩)] "k" 200000).1 = some ⟨[1, 2], 7, true⟩ ∧
    (postsGet [("k", ⟨[1, 2], 7, 0, false⟩)] "k" 700000).1 = none := by
  refine ⟨?_, ?_, ?_⟩
  · exact (C7_posts_get_trichotomy [("k", ⟨[1, 2], 7, 0, false⟩)] "k" 1000).2.2.2
      ⟨[1, 2], 7, 0, false⟩ (by decide) (by decide) rfl
  · exact (C7_posts_get_trichotomy [("k", ⟨[1, 2], 7, 0, false⟩)] "k" 200000).2.2.1
      ⟨[1, 2], 7, 0, false⟩ (by decide) (by decide) (Or.inl (by decide))
  · exact (C7_posts_get_trichotomy [("k", ⟨[1, 2], 7, 0, false⟩)] "k" 700000).2.1
      ⟨[1, 2], 7, 0, false⟩ (by decide) (by decide)

-- ==================== Image Cache (`ImageCacheService`) ====================

/-- `CachedImage` of `cache.ts`. -/
structure CachedImage where
  loaded : Bool
  loading : Bool
  error : Bool
  timestamp : Int
deriving DecidableEq, Repr

/-- `CACHE_TTL = 30 * 60 * 1000` (30 minutes). -/
def IMG_CACHE_TTL : Int := 30 * 60 * 1000

/-- `MAX_CACHE_SIZE = 300`. -/
def IMG_MAX_CACHE_SIZE : Nat := 300

/-- `CONCURRENT_LOADS = 6`. -/
def IMG_CONCURRENT_LOADS : Int := 6

/-- The comparator `(a, b) => a[1].timestamp - b[1].timestamp` used by
`ImageCacheService.cleanup`, as a relation. -/
def tsLe (a b : String × CachedImage) : Prop := a.2.timestamp ≤ b.2.timestamp

instance : DecidableRel tsLe :=
  fun a b => inferInstanceAs (Decidable (a.2.timestamp ≤ b.2.timestamp))

instance : IsTotal (String × CachedImage) tsLe :=
  ⟨fun a b => le_total a.2.timestamp b.2.timestamp⟩

instance : IsTrans (String × CachedImage) tsLe :=
  ⟨fun _ _ _ h h2 => le_trans h h2⟩

/-- The TTL sweep of `ImageCacheService.cleanup`: delete every entry with
`now - timestamp > CACHE_TTL`. -/
def imgSweep (now : Int) (c : List (String × CachedImage)) :
    List (String × CachedImage) :=
  c.filter (fun p => ¬ (now - p.2.timestamp > IMG_CACHE_TTL))

/-- `ImageCacheService.cleanup` on the cache map: TTL sweep, then, if more
than `MAX_CACHE_SIZE` entries remain, removal of the oldest
`size - MAX_CACHE_SIZE` entries (a stable sort by timestamp of the snapshot
restricted to surviving keys, exactly as the source).  Returns the new map
together with the `toRemove` list of the size trim. -/
def cleanupImgAux (now : Int) (c : List (String × CachedImage)) :
    List (String × CachedImage) × List (String × CachedImage) :=
  let afterSweep := imgSweep now c
  if afterSweep.length > IMG_MAX_CACHE_SIZE then
    let sorted := List.insertionSort tsLe
      (c.filter (fun p => (mapGet afterSweep p.1).isSome))
    let toRemove := sorted.take (afterSweep.length - IMG_MAX_CACHE_SIZE)
    (toRemove.foldl (fun m p => mapDelete m p.1) afterSweep, toRemove)
  else (afterSweep, [])

/-- The cache map after `ImageCacheService.cleanup`. -/
def cleanupImg (now : Int) (c : List (String × CachedImage)) :
    List (String × CachedImage) :=
  (cleanupImgAux now c).1

/-- State of `ImageCacheService`.  `inflight` and `nextId` instrument the
pending `Image` fetches (promise identities); `now` is the `Date.now()`
clock. -/
structure ImageState where
  cache : List (String × CachedImage)
  loadPromises : List (String × Nat)
  preloadQueue : List String
  isProcessing : Bool
  activeLoads : Int
  inflight : List (Nat × String)
  nextId : Nat
  now : Int
deriving DecidableEq, Repr

def initImg : ImageState := ⟨[], [], [], false, 0, [], 0, 0⟩

/-- `ImageCacheService.isLoaded`: `cached?.loaded === true`. -/
def isLoadedImg (st : ImageState) (url : String) : Bool :=
  match mapGet st.cache url with
  | some c => c.loaded
  | none => false

/-- Synchronous effect of `ImageCacheService.loadImage`: starts a fetch with a
fresh promise identifier, increments `activeLoads`, registers the promise. -/
def loadImage (url : String) (st : ImageState) : ImageState :=
  { st with
    activeLoads := st.activeLoads + 1
    inflight := st.inflight ++ [(st.nextId, url)]
    loadPromises := mapSet st.loadPromises url st.nextId
    nextId := st.nextId + 1 }

/-- The `while` loop of `ImageCacheService.processQueue`, structurally
recursive on the queue (the loop body never modifies the queue except by
`shift`). -/
def drainImg : List String → ImageState → ImageState
  | [], st => { st with preloadQueue := [] }
  | u :: rest, st =>
    if st.activeLoads < IMG_CONCURRENT_LOADS then
      let st1 := { st with preloadQueue := rest }
      if u ≠ "" ∧ isLoadedImg st1 u = false then drainImg rest (loadImage u st1)
      else drainImg rest st1
    else { st with preloadQueue := u :: rest }

/-- `ImageCacheService.processQueue` (the `isProcessing` flag is kept for
fidelity; in the single-threaded event model a drain never re-enters). -/
def processQueueImg (st : ImageState) : ImageState :=
  if st.isProcessing then st else drainImg st.preloadQueue st

/-- A value returned by `preload`: either an already-resolved boolean or the
promise of a (possibly shared) in-flight fetch. -/
inductive ImgRes where
  | resolvedB (b : Bool)
  | attachedP (id : Nat)
deriving DecidableEq, Repr

/-- `ImageCacheService.preload`. -/
def preloadImg (url : String) (high : Bool) (st : ImageState) : ImgRes × ImageState :=
  if url = "" then (.resolvedB false, st)
  else if isLoadedImg st url then (.resolvedB true, st)
  else match mapGet st.loadPromises url with
  | some pid => (.attachedP pid, st)
  | none =>
    let st1 := { st with cache := mapSet st.cache url ⟨false, true, false, st.now⟩ }
    if high then (.attachedP st1.nextId, loadImage url st1)
    else
      let st2 := if st1.preloadQueue.contains url then st1
                 else { st1 with preloadQueue := st1.preloadQueue ++ [url] }
      (.resolvedB false, processQueueImg st2)

/-- The `onload` (`ok = true`) / `onerror` (`ok = false`) continuation of a
fetch started by `loadImage`, which runs as one synchronous task: update the
cache entry, then `cleanup()` (decrement `activeLoads`, drop the promise,
drain the queue), then resolve the promise with `ok`.  Returns the value the
promise resolves with (`none` if no such fetch is in flight). -/
def completeImg (id : Nat) (ok : Bool) (st : ImageState) : Option Bool × ImageState :=
  match st.inflight.find? (fun p => p.1 == id) with
  | none => (none, st)
  | some fl =>
    let url := fl.2
    let cache1 :=
      match mapGet st.cache url with
      | some c =>
        if ok then
          mapSet st.cache url { c with loaded := true, loading := false, timestamp := st.now }
        else
          mapSet st.cache url { c with error := true, loading := false }
      | none => st.cache
    let st1 := { st with
      cache := cache1
      activeLoads := st.activeLoads - 1
      loadPromises := mapDelete st.loadPromises url
      inflight := st.inflight.eraseP (fun p => p.1 == id) }
    (some ok, processQueueImg st1)

/-- `ImageCacheService.prioritize`. -/
def prioritizeImg (url : String) (st : ImageState) : ImageState :=
  if isLoadedImg st url then st
  else
    let st1 := { st with preloadQueue := st.preloadQueue.erase url }
    (preloadImg url true st1).2

/-- `ImageCacheService.cleanup` acting on the service state. -/
def cleanupImgState (st : ImageState) : ImageState :=
  { st with cache := cleanupImg st.now st.cache }

/-- `ImageCacheService.clear`. -/
def clearImg (st : ImageState) : ImageState :=
  { st with cache := [], preloadQueue := [], loadPromises := [] }

/-- Events of the image-cache model: the public operations plus fetch
completions and clock advance. -/
inductive ImgEvent where
  | preload (url : String) (high : Bool)
  | complete (id : Nat) (ok : Bool)
  | prioritize (url : String)
  | cleanup
  | clear
  | tick (d : Nat)
deriving DecidableEq, Repr

def stepImg (st : ImageState) (e : ImgEvent) : ImageState :=
  match e with
  | .preload u h => (preloadImg u h st).2
  | .complete id ok => (completeImg id ok st).2
  | .prioritize u => prioritizeImg u st
  | .cleanup => cleanupImgState st
  | .clear => clearImg st
  | .tick d => { st with now := st.now + d }

def runImg (evs : List ImgEvent) : ImageState := evs.foldl stepImg initImg

-- ==================== Video Cache (`VideoCacheService`) ====================

/-- `CachedVideo` of `cache.ts`; the blob URL handle is modelled by the
identifier of the fetch that created it. -/
structure CachedVideo where
  blobUrl : Nat
  originalUrl : String
  timestamp : Int
  size : Nat
deriving DecidableEq, Repr

/-- `MAX_CACHE_SIZE = 50 * 1024 * 1024` (50MB). -/
def VID_MAX_CACHE_SIZE : Int := 50 * 1024 * 1024

/-- `MAX_CONCURRENT_LOADS = 2`. -/
def VID_MAX_CONCURRENT_LOADS : Int := 2

/-- `CACHE_TTL = 60 * 60 * 1000` (1 hour). -/
def VID_CACHE_TTL : Int := 60 * 60 * 1000

/-- A node of the video preload queue; `seq` instruments the enqueue order
(strictly increasing counter) and does not influence behaviour. -/
structure QItem where
  url : String
  high : Bool
  seq : Nat
deriving DecidableEq, Repr

/-- State of `VideoCacheService`.  `inflight`, `nextId`, `nextSeq` and
`revoked` (the handles passed to `URL.revokeObjectURL`) are instrumentation;
`now` is the `Date.now()` clock. -/
structure VideoState where
  cache : List (String × CachedVideo)
  loadPromises : List (String × Nat)
  preloadQueue : List QItem
  isProcessing : Bool
  activeLoads : Int
  currentCacheSize : Int
  inflight : List (Nat × String)
  nextId : Nat
  nextSeq : Nat
  revoked : List Nat
  now : Int
deriving DecidableEq, Repr

def initVid : VideoState := ⟨[], [], [], false, 0, 0, [], 0, 0, [], 0⟩

/-- `VideoCacheService.removeFromCache`: revoke the blob URL, subtract the
entry's size, delete the entry. -/
def removeFromCache (url : String) (st : VideoState) : VideoState :=
  match mapGet st.cache url with
  | none => st
  | some c =>
    { st with
      revoked := st.revoked ++ [c.blobUrl]
      currentCacheSize := st.currentCacheSize - c.size
      cache := mapDelete st.cache url }

/-- `VideoCacheService.isCached`; an expired entry is removed as a side
effect. -/
def isCachedVid (url : String) (st : VideoState) : Bool × VideoState :=
  match mapGet st.cache url with
  | none => (false, st)
  | some c =>
    if st.now - c.timestamp > VID_CACHE_TTL then (false, removeFromCache url st)
    else (true, st)

/-- `VideoCacheService.getCachedUrl`; bumps the timestamp on access. -/
def getCachedUrlVid (url : String) (st : VideoState) : Option Nat × VideoState :=
  match mapGet st.cache url with
  | none => (none, st)
  | some c =>
    (some c.blobUrl, { st with cache := mapSet st.cache url { c with timestamp := st.now } })

/-- The `forEach` scan of `ensureSpace` that finds the first entry with the
minimal timestamp (strict `<` keeps the earliest-iterated minimum). -/
def oldestGo : Option (String × Int) → List (String × CachedVideo) → Option (String × Int)
  | acc, [] => acc
  | none, p :: rest => oldestGo (some (p.1, p.2.timestamp)) rest
  | some (u, t), p :: rest =>
    if p.2.timestamp < t then oldestGo (some (p.1, p.2.timestamp)) rest
    else oldestGo (some (u, t)) rest

def oldestVid (c : List (String × CachedVideo)) : Option (String × Int) :=
  oldestGo none c

/-- The eviction loop of `VideoCacheService.ensureSpace`, with fuel equal to
the cache size (each iteration removes one resident entry, so this fuel is
never exhausted before the loop condition turns false).  Also returns the
timestamps of the removed entries in removal order.  Note the source's
`if (oldestUrl)` is falsy for the empty string, which breaks the loop. -/
def ensureSpaceAux : Nat → Nat → VideoState → VideoState × List Int
  | 0, _, st => (st, [])
  | fuel + 1, needed, st =>
    if st.currentCacheSize + (needed : Int) > VID_MAX_CACHE_SIZE ∧ 0 < st.cache.length then
      match oldestVid st.cache with
      | some ut =>
        if ut.1 = "" then (st, [])
        else
          let r := ensureSpaceAux fuel needed (removeFromCache ut.1 st)
          (r.1, ut.2 :: r.2)
      | none => (st, [])
    else (st, [])

/-- `VideoCacheService.ensureSpace`. -/
def ensureSpace (needed : Nat) (st : VideoState) : VideoState :=
  (ensureSpaceAux st.cache.length needed st).1

/-- Synchronous effect of `VideoCacheService.loadVideo`: increments
`activeLoads`, starts the fetch (fresh identifier), registers the promise. -/
def loadVideo (url : String) (st : VideoState) : VideoState :=
  { st with
    activeLoads := st.activeLoads + 1
    inflight := st.inflight ++ [(st.nextId, url)]
    loadPromises := mapSet st.loadPromises url st.nextId
    nextId := st.nextId + 1 }

/-- The `while` loop of `VideoCacheService.processQueue`. -/
def drainVid : List QItem → VideoState → VideoState
  | [], st => { st with preloadQueue := [] }
  | it :: rest, st =>
    if st.activeLoads < VID_MAX_CONCURRENT_LOADS then
      let st1 := { st with preloadQueue := rest }
      let c := isCachedVid it.url st1
      if c.1 then drainVid rest c.2 else drainVid rest (loadVideo it.url c.2)
    else { st with preloadQueue := it :: rest }

/-- `VideoCacheService.processQueue`. -/
def processQueueVid (st : VideoState) : VideoState :=
  if st.isProcessing then st else drainVid st.preloadQueue st

/-- A value returned by `VideoCacheService.preload`: a resolved
`string | null` (blob handle or `null`) or the promise of an in-flight
fetch. -/
inductive VidRes where
  | resolvedU (b : Option Nat)
  | attachedP (id : Nat)
deriving DecidableEq, Repr

/-- `VideoCacheService.preload`. -/
def preloadVid (url : String) (high : Bool) (st : VideoState) : VidRes × VideoState :=
  if url = "" then (.resolvedU none, st)
  else
    let c := isCachedVid url st
    if c.1 then
      let g := getCachedUrlVid url c.2
      (.resolvedU g.1, g.2)
    else match mapGet c.2.loadPromises url with
    | some pid => (.attachedP pid, c.2)
    | none =>
      if high ∧ c.2.activeLoads < VID_MAX_CONCURRENT_LOADS then
        (.attachedP c.2.nextId, loadVideo url c.2)
      else
        let st2 :=
          if (c.2.preloadQueue.find? (fun it => it.url == url)).isSome then c.2
          else if high then
            { c.2 with
              preloadQueue := ⟨url, true, c.2.nextSeq⟩ :: c.2.preloadQueue
              nextSeq := c.2.nextSeq + 1 }
          else
            { c.2 with
              preloadQueue := c.2.preloadQueue ++ [⟨url, false, c.2.nextSeq⟩]
              nextSeq := c.2.nextSeq + 1 }
        (.resolvedU none, processQueueVid st2)

/-- The continuation of a fetch started by `loadVideo`.  `res = some size`
plays the successful `fetch`/`blob` path (ensure space, insert the entry, add
its size); `res = none` plays the `catch` path.  Both then run the `finally`
block (decrement `activeLoads`, drop the promise, drain the queue).  Returns
the value the promise resolves with (`none` if no such fetch is in
flight). -/
def completeVid (id : Nat) (res : Option Nat) (st : VideoState) :
    Option (Option Nat) × VideoState :=
  match st.inflight.find? (fun p => p.1 == id) with
  | none => (none, st)
  | some fl =>
    let url := fl.2
    let stBody :=
      match res with
      | some size =>
        let st1 := ensureSpace size st
        { st1 with
          cache := mapSet st1.cache url ⟨id, url, st1.now, size⟩
          currentCacheSize := st1.currentCacheSize + (size : Int) }
      | none => st
    let st2 := { stBody with
      activeLoads := stBody.activeLoads - 1
      loadPromises := mapDelete stBody.loadPromises url
      inflight := stBody.inflight.eraseP (fun p => p.1 == id) }
    (some (res.map (fun _ => id)), processQueueVid st2)

/-- `VideoCacheService.prioritize`. -/
def prioritizeVid (url : String) (st : VideoState) : VideoState :=
  let c := isCachedVid url st
  if c.1 then c.2
  else
    let st1 := { c.2 with preloadQueue := c.2.preloadQueue.eraseP (fun it => it.url == url) }
    (preloadVid url true st1).2

/-- `VideoCacheService.cleanup`: collect the expired keys, then
`removeFromCache` each. -/
def cleanupVid (st : VideoState) : VideoState :=
  let toRemove := (st.cache.filter (fun p => st.now - p.2.timestamp > VID_CACHE_TTL)).map (·.1)
  toRemove.foldl (fun s u => removeFromCache u s) st

/-- `VideoCacheService.clear`: revoke all handles, empty everything, reset
the size counter (`activeLoads` and the in-flight fetches are untouched by
the source). -/
def clearVid (st : VideoState) : VideoState :=
  { st with
    revoked := st.revoked ++ st.cache.map (fun p => p.2.blobUrl)
    cache := []
    preloadQueue := []
    loadPromises := []
    currentCacheSize := 0 }

/-- Events of the video-cache model. -/
inductive VidEvent where
  | preload (url : String) (high : Bool)
  | complete (id : Nat) (res : Option Nat)
  | prioritize (url : String)
  | isCachedQ (url : String)
  | getUrl (url : String)
  | cleanup
  | clear
  | tick (d : Nat)
deriving DecidableEq, Repr

def stepVid (st : VideoState) (e : VidEvent) : VideoState :=
  match e with
  | .preload u h => (preloadVid u h st).2
  | .complete id res => (completeVid id res st).2
  | .prioritize u => prioritizeVid u st
  | .isCachedQ u => (isCachedVid u st).2
  | .getUrl u => (getCachedUrlVid u st).2
  | .cleanup => cleanupVid st
  | .clear => clearVid st
  | .tick d => { st with now := st.now + d }

def runVid (evs : List VidEvent) : VideoState := evs.foldl stepVid initVid

-- ==================== Association-map lemmas ====================

theorem mapGet_eq_none_iff {α : Type} (m : List (String × α)) (k : String) :
    mapGet m k = none ↔ k ∉ m.map Prod.fst := by
  induction m with
  | nil => simp [mapGet]
  | cons p rest ih =>
    by_cases h : p.1 = k
    · simp [mapGet, h]
    · simp [mapGet, h, ih, Ne.symm h]

theorem mem_of_mapGet_eq_some {α : Type} : ∀ {m : List (String × α)} {k : String} {v : α},
    mapGet m k = some v → (k, v) ∈ m
  | [], _, _, h => by simp [mapGet] at h
  | p :: rest, k, v, h => by
    by_cases hp : p.1 = k
    · rw [mapGet, if_pos hp] at h
      have hv : p.2 = v := Option.some_injective _ h
      have hpe : p = (k, v) := by
        obtain ⟨a, b⟩ := p
        simp only [Prod.mk.injEq]
        exact ⟨hp, hv⟩
      rw [← hpe]
      exact List.mem_cons_self _ _
    · rw [mapGet, if_neg hp] at h
      exact List.mem_cons_of_mem _ (mem_of_mapGet_eq_some h)

theorem mapGet_isSome_of_mem {α : Type} {m : List (String × α)} {k : String} {v : α}
    (h : (k, v) ∈ m) : (mapGet m k).isSome := by
  cases he : mapGet m k with
  | some w => rfl
  | none =>
    rw [mapGet_eq_none_iff] at he
    exact absurd (List.mem_map.2 ⟨(k, v), h, rfl⟩) he

theorem mapGet_of_nodup_mem {α : Type} : ∀ {m : List (String × α)} {k : String} {v : α},
    (m.map Prod.fst).Nodup → (k, v) ∈ m → mapGet m k = some v
  | [], _, _, _, h => by simp at h
  | p :: rest, k, v, hn, h => by
    rcases List.mem_cons.1 h with h1 | h1
    · rw [← h1]
      simp [mapGet]
    · have hk : k ∈ rest.map Prod.fst := List.mem_map.2 ⟨(k, v), h1, rfl⟩
      have hp : p.1 ≠ k := fun he => (List.nodup_cons.1 hn).1 (by rw [he]; exact hk)
      rw [mapGet, if_neg hp]
      exact mapGet_of_nodup_mem (List.nodup_cons.1 hn).2 h1

theorem nodup_values_of_nodup_keys {α : Type} {m : List (String × α)} {k : String}
    {v w : α} (hn : (m.map Prod.fst).Nodup) (hv : (k, v) ∈ m) (hw : (k, w) ∈ m) :
    v = w := by
  have h1 := mapGet_of_nodup_mem hn hv
  have h2 := mapGet_of_nodup_mem hn hw
  rw [h1] at h2
  exact Option.some_injective _ h2

theorem mapGet_mapDelete_self {α : Type} (m : List (String × α)) (k : String) :
    mapGet (mapDelete m k) k = none := by
  rw [mapGet_eq_none_iff]
  intro h
  obtain ⟨q, hq, hk⟩ := List.mem_map.1 h
  have h2 := List.of_mem_filter hq
  simp [hk] at h2

theorem mapDelete_cons_of_eq {α : Type} {p : String × α} {k : String}
    (rest : List (String × α)) (hp : p.1 = k) :
    mapDelete (p :: rest) k = mapDelete rest k := by
  simp [mapDelete, List.filter, hp]

theorem mapDelete_cons_of_ne {α : Type} {p : String × α} {k : String}
    (rest : List (String × α)) (hp : p.1 ≠ k) :
    mapDelete (p :: rest) k = p :: mapDelete rest k := by
  simp [mapDelete, List.filter, hp]

theorem mapGet_mapDelete_ne {α : Type} : ∀ (m : List (String × α)) {j k : String},
    j ≠ k → mapGet (mapDelete m k) j = mapGet m j
  | [], _, _, _ => rfl
  | p :: rest, j, k, h => by
    by_cases hp : p.1 = k
    · have hpj : p.1 ≠ j := by rw [hp]; exact fun he => h he.symm
      rw [mapDelete_cons_of_eq rest hp, mapGet, if_neg hpj]
      exact mapGet_mapDelete_ne rest h
    · rw [mapDelete_cons_of_ne rest hp]
      by_cases hj : p.1 = j
      · rw [mapGet, if_pos hj, mapGet, if_pos hj]
      · rw [mapGet, if_neg hj, mapGet, if_neg hj]
        exact mapGet_mapDelete_ne rest h

theorem mapGet_mapSet_self {α : Type} (m : List (String × α)) (k : String) (v : α) :
    mapGet (mapSet m k v) k = some v := by
  induction m with
  | nil => simp [mapSet, mapGet]
  | cons p rest ih =>
    by_cases hp : p.1 = k
    · simp [mapSet, mapGet, hp]
    · simp [mapSet, mapGet, hp, ih]

theorem mapGet_mapSet_ne {α : Type} : ∀ (m : List (String × α)) {j k : String} (v : α),
    j ≠ k → mapGet (mapSet m k v) j = mapGet m j
  | [], j, k, v, h => by simp [mapSet, mapGet, Ne.symm h]
  | p :: rest, j, k, v, h => by
    by_cases hp : p.1 = k
    · rw [mapSet, if_pos hp]
      have h1 : ¬ ((k, v).1 = j) := fun he => h (by simpa using he.symm)
      have hpj : p.1 ≠ j := by rw [hp]; exact fun he => h he.symm
      rw [mapGet, if_neg h1, mapGet, if_neg hpj]
    · rw [mapSet, if_neg hp]
      by_cases hj : p.1 = j
      · rw [mapGet, if_pos hj, mapGet, if_pos hj]
      · rw [mapGet, if_neg hj, mapGet, if_neg hj]
        exact mapGet_mapSet_ne rest v h

theorem keys_mapSet_of_none {α : Type} : ∀ {m : List (String × α)} {k : String},
    mapGet m k = none → ∀ v : α, (mapSet m k v).map Prod.fst = m.map Prod.fst ++ [k]
  | [], _, _, _ => by simp [mapSet]
  | p :: rest, k, h, v => by
    rw [mapGet] at h
    by_cases hp : p.1 = k
    · simp [hp] at h
    · rw [if_neg hp] at h
      simp [mapSet, hp, keys_mapSet_of_none h v]

theorem keys_mapSet_of_some {α : Type} : ∀ {m : List (String × α)} {k : String} {w : α},
    mapGet m k = some w → ∀ v : α, (mapSet m k v).map Prod.fst = m.map Prod.fst
  | [], _, _, h, _ => by simp [mapGet] at h
  | p :: rest, k, w, h, v => by
    rw [mapGet] at h
    by_cases hp : p.1 = k
    · simp [mapSet, hp]
    · rw [if_neg hp] at h
      simp [mapSet, hp, keys_mapSet_of_some h v]

theorem mapDelete_sublist {α : Type} (m : List (String × α)) (k : String) :
    (mapDelete m k).Sublist m :=
  List.filter_sublist m

theorem nodup_keys_mapDelete {α : Type} {m : List (String × α)}
    (hn : (m.map Prod.fst).Nodup) (k : String) :
    ((mapDelete m k).map Prod.fst).Nodup :=
  List.Nodup.sublist (List.Sublist.map _ (mapDelete_sublist m k)) hn

theorem length_mapDelete_add_one {α : Type} : ∀ (m : List (String × α)) {k : String} {v : α},
    (m.map Prod.fst).Nodup → mapGet m k = some v → (mapDelete m k).length + 1 = m.length
  | [], _, _, _, h => by simp [mapGet] at h
  | p :: rest, k, v, hn, h => by
    by_cases hp : p.1 = k
    · have hk : k ∉ rest.map Prod.fst := by
        rw [← hp]
        exact (List.nodup_cons.1 hn).1
      have hall : mapDelete rest k = rest := by
        refine List.filter_eq_self.2 ?_
        intro a ha
        have hak : a.1 ≠ k := fun he => hk (List.mem_map.2 ⟨a, ha, he⟩)
        simpa using hak
      rw [mapDelete_cons_of_eq rest hp, hall]
      simp
    · rw [mapGet, if_neg hp] at h
      rw [mapDelete_cons_of_ne rest hp]
      simp only [List.length_cons]
      rw [length_mapDelete_add_one rest (List.nodup_cons.1 hn).2 h]

theorem mapGet_filter_of_nodup {α : Type} {m : List (String × α)} {k : String} {v : α}
    (hn : (m.map Prod.fst).Nodup) (f : String × α → Bool)
    (h : mapGet m k = some v) (hf : f (k, v) = true) :
    mapGet (m.filter f) k = some v := by
  have hm : (k, v) ∈ m.filter f := List.mem_filter.2 ⟨mem_of_mapGet_eq_some h, hf⟩
  exact mapGet_of_nodup_mem
    (List.Nodup.sublist (List.Sublist.map _ (List.filter_sublist m)) hn) hm

theorem mapGet_filter_of_not {α : Type} {m : List (String × α)} {k : String} {v : α}
    (hn : (m.map Prod.fst).Nodup) (f : String × α → Bool)
    (h : mapGet m k = some v) (hf : f (k, v) = false) :
    mapGet (m.filter f) k = none := by
  rw [mapGet_eq_none_iff]
  intro hmem
  obtain ⟨p, hp, hk⟩ := List.mem_map.1 hmem
  have hpm : p ∈ m := List.mem_of_mem_filter hp
  have hpf : f p = true := List.of_mem_filter hp
  obtain ⟨a, b⟩ := p
  simp only at hk
  subst hk
  have hb : b = v := nodup_values_of_nodup_keys hn hpm (mem_of_mapGet_eq_some h)
  subst hb
  rw [hf] at hpf
  exact Bool.false_ne_true hpf

theorem mapGet_none_of_sub {α : Type} {m : List (String × α)} {k : String}
    (sub : List (String × α)) (hs : sub.Sublist m) (h : mapGet m k = none) :
    mapGet sub k = none := by
  rw [mapGet_eq_none_iff] at h ⊢
  intro hmem
  exact h (List.Sublist.mem hmem (List.Sublist.map _ hs))

theorem mapGet_foldl_mapDelete_none {α : Type} {k : String}
    (l : List (String × α)) : ∀ {m : List (String × α)}, mapGet m k = none →
    mapGet (l.foldl (fun acc p => mapDelete acc p.1) m) k = none := by
  induction l with
  | nil => intro m h; exact h
  | cons p rest ih =>
    intro m h
    refine ih ?_
    by_cases hp : k = p.1
    · rw [hp]
      exact mapGet_mapDelete_self _ _
    · rw [mapGet_mapDelete_ne _ hp]
      exact h

-- ==================== Image cleanup lemmas ====================

theorem imgSweep_get_fresh {c : List (String × CachedImage)} {u : String} {e : CachedImage}
    {now : Int} (hn : (c.map Prod.fst).Nodup) (h : mapGet c u = some e)
    (hts : ¬ (now - e.timestamp > IMG_CACHE_TTL)) :
    mapGet (imgSweep now c) u = some e := by
  refine mapGet_filter_of_nodup hn _ h ?_
  exact decide_eq_true hts

theorem imgSweep_get_expired {c : List (String × CachedImage)} {u : String} {e : CachedImage}
    {now : Int} (hn : (c.map Prod.fst).Nodup) (h : mapGet c u = some e)
    (hts : now - e.timestamp > IMG_CACHE_TTL) :
    mapGet (imgSweep now c) u = none := by
  refine mapGet_filter_of_not hn _ h ?_
  exact decide_eq_false (not_not_intro hts)

theorem imgSweep_nodup {c : List (String × CachedImage)} {now : Int}
    (hn : (c.map Prod.fst).Nodup) : ((imgSweep now c).map Prod.fst).Nodup :=
  List.Nodup.sublist (List.Sublist.map _ (List.filter_sublist c)) hn

theorem imgSweep_length_le (now : Int) (c : List (String × CachedImage)) :
    (imgSweep now c).length ≤ c.length :=
  List.length_filter_le _ c

theorem cleanupImg_keeps_fresh {c : List (String × CachedImage)} {u : String}
    {e : CachedImage} {now : Int} (hn : (c.map Prod.fst).Nodup)
    (h : mapGet c u = some e) (hts : now - e.timestamp ≤ IMG_CACHE_TTL)
    (hc : c.length ≤ IMG_MAX_CACHE_SIZE) :
    mapGet (cleanupImg now c) u = some e := by
  have hsw := imgSweep_get_fresh hn h (not_lt.mpr hts)
  have hlen : ¬ ((imgSweep now c).length > IMG_MAX_CACHE_SIZE) :=
    not_lt.mpr (le_trans (imgSweep_length_le now c) hc)
  simp only [cleanupImg, cleanupImgAux]
  rw [if_neg hlen]
  exact hsw

theorem cleanupImg_removes_expired {c : List (String × CachedImage)} {u : String}
    {e : CachedImage} {now : Int} (hn : (c.map Prod.fst).Nodup)
    (h : mapGet c u = some e) (hts : now - e.timestamp > IMG_CACHE_TTL) :
    mapGet (cleanupImg now c) u = none := by
  have hsw := imgSweep_get_expired hn h hts
  by_cases hlen : (imgSweep now c).length > IMG_MAX_CACHE_SIZE
  · have hres : cleanupImg now c =
        ((List.insertionSort tsLe
          (c.filter (fun p => (mapGet (imgSweep now c) p.1).isSome))).take
          ((imgSweep now c).length - IMG_MAX_CACHE_SIZE)).foldl
          (fun m p => mapDelete m p.1) (imgSweep now c) := by
      simp only [cleanupImg, cleanupImgAux]
      rw [if_pos hlen]
    rw [hres]
    exact mapGet_foldl_mapDelete_none _ hsw
  · have hres : cleanupImg now c = imgSweep now c := by
      simp only [cleanupImg, cleanupImgAux]
      rw [if_neg hlen]
    rw [hres]
    exact hsw

theorem filter_isSome_eq_imgSweep {c : List (String × CachedImage)} {now : Int}
    (hn : (c.map Prod.fst).Nodup) :
    c.filter (fun p => (mapGet (imgSweep now c) p.1).isSome) = imgSweep now c := by
  have hcongr : ∀ p ∈ c, (mapGet (imgSweep now c) p.1).isSome =
      (decide (¬ (now - p.2.timestamp > IMG_CACHE_TTL))) := by
    intro p hp
    have hget : mapGet c p.1 = some p.2 := mapGet_of_nodup_mem hn (by simpa using hp)
    by_cases hfresh : now - p.2.timestamp > IMG_CACHE_TTL
    · rw [imgSweep_get_expired hn hget hfresh]
      exact (decide_eq_false (not_not_intro hfresh)).symm
    · rw [imgSweep_get_fresh hn hget hfresh]
      exact (decide_eq_true hfresh).symm
  calc c.filter (fun p => (mapGet (imgSweep now c) p.1).isSome)
      = c.filter (fun p => decide (¬ (now - p.2.timestamp > IMG_CACHE_TTL))) :=
        List.filter_congr hcongr
    _ = imgSweep now c := rfl

theorem length_foldl_mapDelete {α : Type} :
    ∀ (l : List (String × α)) (m : List (String × α)),
    ((l.map Prod.fst).Nodup) → ((m.map Prod.fst).Nodup) →
    (∀ p ∈ l, (mapGet m p.1).isSome) →
    (l.foldl (fun acc p => mapDelete acc p.1) m).length + l.length = m.length
  | [], m, _, _, _ => by simp
  | p :: rest, m, hln, hmn, hpres => by
    obtain ⟨w, hw⟩ : ∃ w, mapGet m p.1 = some w := by
      have := hpres p (List.mem_cons_self _ _)
      cases he : mapGet m p.1 with
      | some w => exact ⟨w, rfl⟩
      | none => rw [he] at this; simp at this
    have hlen1 := length_mapDelete_add_one m hmn hw
    have hrest : ∀ q ∈ rest, (mapGet (mapDelete m p.1) q.1).isSome := by
      intro q hq
      have hne : q.1 ≠ p.1 := by
        intro he
        have h1 : p.1 ∈ rest.map Prod.fst := List.mem_map.2 ⟨q, hq, he⟩
        exact (List.nodup_cons.1 hln).1 h1
      rw [mapGet_mapDelete_ne _ hne]
      exact hpres q (List.mem_cons_of_mem _ hq)
    have ih := length_foldl_mapDelete rest (mapDelete m p.1)
      (List.nodup_cons.1 hln).2 (nodup_keys_mapDelete hmn p.1) hrest
    simp only [List.foldl_cons, List.length_cons]
    omega

theorem cleanupImg_trim_length {c : List (String × CachedImage)} {now : Int}
    (hn : (c.map Prod.fst).Nodup)
    (hlen : (imgSweep now c).length > IMG_MAX_CACHE_SIZE) :
    (cleanupImg now c).length = IMG_MAX_CACHE_SIZE := by
  have hfe := @filter_isSome_eq_imgSweep c now hn
  have hres : cleanupImg now c =
      ((List.insertionSort tsLe (imgSweep now c)).take
        ((imgSweep now c).length - IMG_MAX_CACHE_SIZE)).foldl
        (fun m p => mapDelete m p.1) (imgSweep now c) := by
    simp only [cleanupImg, cleanupImgAux]
    rw [if_pos hlen, hfe]
  have hperm : List.Perm (List.insertionSort tsLe (imgSweep now c)) (imgSweep now c) :=
    List.perm_insertionSort tsLe _
  have hsortedNodup : ((List.insertionSort tsLe (imgSweep now c)).map Prod.fst).Nodup :=
    ((hperm.map Prod.fst).nodup_iff).2 (imgSweep_nodup hn)
  have htrLen : ((List.insertionSort tsLe (imgSweep now c)).take
      ((imgSweep now c).length - IMG_MAX_CACHE_SIZE)).length
      = (imgSweep now c).length - IMG_MAX_CACHE_SIZE := by
    rw [List.length_take, hperm.length_eq]
    omega
  have htrNodup : (((List.insertionSort tsLe (imgSweep now c)).take
      ((imgSweep now c).length - IMG_MAX_CACHE_SIZE)).map Prod.fst).Nodup :=
    List.Nodup.sublist (List.Sublist.map _ (List.take_sublist _ _)) hsortedNodup
  have htrPres : ∀ p ∈ (List.insertionSort tsLe (imgSweep now c)).take
      ((imgSweep now c).length - IMG_MAX_CACHE_SIZE),
      (mapGet (imgSweep now c) p.1).isSome := by
    intro p hp
    have hps : p ∈ List.insertionSort tsLe (imgSweep now c) :=
      List.Sublist.mem hp (List.take_sublist _ _)
    have hpa : p ∈ imgSweep now c := hperm.mem_iff.1 hps
    exact mapGet_isSome_of_mem (by simpa using hpa)
  have hfold := length_foldl_mapDelete _ _ htrNodup (imgSweep_nodup hn) htrPres
  rw [hres]
  omega

theorem cleanupImg_length_le {c : List (String × CachedImage)} {now : Int}
    (hn : (c.map Prod.fst).Nodup) :
    (cleanupImg now c).length ≤ IMG_MAX_CACHE_SIZE := by
  by_cases hlen : (imgSweep now c).length > IMG_MAX_CACHE_SIZE
  · exact le_of_eq (cleanupImg_trim_length hn hlen)
  · have : (cleanupImg now c) = imgSweep now c := by
      simp only [cleanupImg, cleanupImgAux]
      rw [if_neg hlen]
    rw [this]
    omega

theorem cleanupImg_removed_sorted (now : Int) (c : List (String × CachedImage)) :
    ((cleanupImgAux now c).2.map (fun p => p.2.timestamp)).Sorted (· ≤ ·) := by
  by_cases hlen : (imgSweep now c).length > IMG_MAX_CACHE_SIZE
  · have h2 : (cleanupImgAux now c).2 = (List.insertionSort tsLe
        (c.filter (fun p => (mapGet (imgSweep now c) p.1).isSome))).take
        ((imgSweep now c).length - IMG_MAX_CACHE_SIZE) := by
      simp only [cleanupImgAux]
      rw [if_pos hlen]
    rw [h2]
    have hsorted : List.Sorted tsLe (List.insertionSort tsLe
        (c.filter (fun p => (mapGet (imgSweep now c) p.1).isSome))) :=
      List.sorted_insertionSort tsLe _
    have htake : List.Sorted tsLe ((List.insertionSort tsLe
        (c.filter (fun p => (mapGet (imgSweep now c) p.1).isSome))).take
        ((imgSweep now c).length - IMG_MAX_CACHE_SIZE)) :=
      List.Pairwise.sublist (List.take_sublist _ _) hsorted
    exact (List.pairwise_map).2 htake
  · have h2 : (cleanupImgAux now c).2 = [] := by
      simp only [cleanupImgAux]
      rw [if_neg hlen]
    rw [h2]
    simp [List.Sorted]

-- ==================== Video cache lemmas ====================

/-- Total size of the resident video entries (the intended meaning of
`currentCacheSize`). -/
def vidSum (c : List (String × CachedVideo)) : Int :=
  (c.map (fun p => (p.2.size : Int))).sum

theorem vidSum_nil : vidSum [] = 0 := rfl

theorem vidSum_cons (p : String × CachedVideo) (rest : List (String × CachedVideo)) :
    vidSum (p :: rest) = (p.2.size : Int) + vidSum rest := by
  simp [vidSum]

theorem vidSum_mapDelete : ∀ (c : List (String × CachedVideo)) {u : String} {e : CachedVideo},
    (c.map Prod.fst).Nodup → mapGet c u = some e →
    vidSum (mapDelete c u) = vidSum c - (e.size : Int)
  | [], _, _, _, h => by simp [mapGet] at h
  | p :: rest, u, e, hn, h => by
    by_cases hp : p.1 = u
    · rw [mapGet, if_pos hp] at h
      have he : p.2 = e := Option.some_injective _ h
      have hu : u ∉ rest.map Prod.fst := by
        rw [← hp]
        exact (List.nodup_cons.1 hn).1
      have hall : mapDelete rest u = rest := by
        refine List.filter_eq_self.2 ?_
        intro a ha
        have hau : a.1 ≠ u := fun hx => hu (List.mem_map.2 ⟨a, ha, hx⟩)
        simpa using hau
      rw [mapDelete_cons_of_eq rest hp, hall, vidSum_cons, he]
      ring
    · rw [mapGet, if_neg hp] at h
      rw [mapDelete_cons_of_ne rest hp, vidSum_cons, vidSum_cons,
        vidSum_mapDelete rest (List.nodup_cons.1 hn).2 h]
      ring

theorem vidSum_mapSet_fresh : ∀ (c : List (String × CachedVideo)) {u : String}
    (v : CachedVideo), mapGet c u = none →
    vidSum (mapSet c u v) = vidSum c + (v.size : Int)
  | [], u, v, _ => by simp [mapSet, vidSum]
  | p :: rest, u, v, h => by
    rw [mapGet] at h
    by_cases hp : p.1 = u
    · rw [if_pos hp] at h
      exact absurd h (by simp)
    · rw [if_neg hp] at h
      rw [mapSet, if_neg hp, vidSum_cons, vidSum_cons, vidSum_mapSet_fresh rest v h]
      ring

theorem vidSum_mapSet_same : ∀ (c : List (String × CachedVideo)) {u : String}
    {e : CachedVideo} (v : CachedVideo), mapGet c u = some e → v.size = e.size →
    vidSum (mapSet c u v) = vidSum c
  | [], _, _, _, h, _ => by simp [mapGet] at h
  | p :: rest, u, e, v, h, hs => by
    rw [mapGet] at h
    by_cases hp : p.1 = u
    · rw [if_pos hp] at h
      have he : p.2 = e := Option.some_injective _ h
      rw [mapSet, if_pos hp, vidSum_cons, vidSum_cons, he, hs]
    · rw [if_neg hp] at h
      rw [mapSet, if_neg hp, vidSum_cons, vidSum_cons, vidSum_mapSet_same rest v h hs]

theorem oldestGo_acc_isSome (c : List (String × CachedVideo)) :
    ∀ (s : String × Int), (oldestGo (some s) c).isSome := by
  induction c with
  | nil => intro s; rfl
  | cons p rest ih =>
    intro s
    obtain ⟨u, t⟩ := s
    by_cases hp : p.2.timestamp < t
    · simpa [oldestGo, hp] using ih _
    · simpa [oldestGo, hp] using ih _

theorem oldestVid_isSome {c : List (String × CachedVideo)} (h : c ≠ []) :
    (oldestVid c).isSome := by
  cases c with
  | nil => exact absurd rfl h
  | cons p rest =>
    show (oldestGo (some (p.1, p.2.timestamp)) rest).isSome
    exact oldestGo_acc_isSome rest _

theorem oldestGo_min (c : List (String × CachedVideo)) :
    ∀ (acc : Option (String × Int)) (u : String) (t : Int),
    oldestGo acc c = some (u, t) →
    (∀ p ∈ c, t ≤ p.2.timestamp) ∧ (∀ a b, acc = some (a, b) → t ≤ b) := by
  induction c with
  | nil =>
    intro acc u t h
    refine ⟨by simp, fun a b hab => ?_⟩
    rw [hab] at h
    obtain ⟨h1, h2⟩ : a = u ∧ b = t := by
      have := Option.some_injective _ h
      exact ⟨congrArg Prod.fst this, congrArg Prod.snd this⟩
    omega
  | cons p rest ih =>
    intro acc u t h
    cases acc with
    | none =>
      have h2 : oldestGo (some (p.1, p.2.timestamp)) rest = some (u, t) := h
      obtain ⟨hmin, hacc⟩ := ih _ u t h2
      have hpt : t ≤ p.2.timestamp := hacc _ _ rfl
      refine ⟨fun q hq => ?_, fun a b hab => by simp at hab⟩
      rcases List.mem_cons.1 hq with h1 | h1
      · rw [h1]; exact hpt
      · exact hmin q h1
    | some s =>
      obtain ⟨a, b⟩ := s
      by_cases hp : p.2.timestamp < b
      · have h2 : oldestGo (some (p.1, p.2.timestamp)) rest = some (u, t) := by
          simpa [oldestGo, hp] using h
        obtain ⟨hmin, hacc⟩ := ih _ u t h2
        have hpt : t ≤ p.2.timestamp := hacc _ _ rfl
        refine ⟨fun q hq => ?_, fun x y hxy => ?_⟩
        · rcases List.mem_cons.1 hq with h1 | h1
          · rw [h1]; exact hpt
          · exact hmin q h1
        · obtain ⟨h1, h2⟩ : a = x ∧ b = y := by
            have := Option.some_injective _ hxy
            exact ⟨congrArg Prod.fst this, congrArg Prod.snd this⟩
          omega
      · have h2 : oldestGo (some (a, b)) rest = some (u, t) := by
          simpa [oldestGo, hp] using h
        obtain ⟨hmin, hacc⟩ := ih _ u t h2
        have hbt : t ≤ b := hacc _ _ rfl
        refine ⟨fun q hq => ?_, fun x y hxy => ?_⟩
        · rcases List.mem_cons.1 hq with h1 | h1
          · rw [h1]; omega
          · exact hmin q h1
        · obtain ⟨h1, h2⟩ : a = x ∧ b = y := by
            have := Option.some_injective _ hxy
            exact ⟨congrArg Prod.fst this, congrArg Prod.snd this⟩
          omega

theorem oldestGo_mem (c : List (String × CachedVideo)) :
    ∀ (acc : Option (String × Int)) (u : String) (t : Int),
    oldestGo acc c = some (u, t) →
    acc = some (u, t) ∨ ∃ e, (u, e) ∈ c ∧ e.timestamp = t := by
  induction c with
  | nil =>
    intro acc u t h
    cases acc with
    | none => simp [oldestGo] at h
    | some s => exact Or.inl (by simpa [oldestGo] using h)
  | cons p rest ih =>
    intro acc u t h
    cases acc with
    | none =>
      have h2 : oldestGo (some (p.1, p.2.timestamp)) rest = some (u, t) := h
      rcases ih _ u t h2 with h3 | h3
      · right
        obtain ⟨h4, h5⟩ : p.1 = u ∧ p.2.timestamp = t := by
          have := Option.some_injective _ h3
          exact ⟨congrArg Prod.fst this, congrArg Prod.snd this⟩
        exact ⟨p.2, by rw [← h4]; exact List.mem_cons_self _ _, h5⟩
      · obtain ⟨e, he, ht⟩ := h3
        exact Or.inr ⟨e, List.mem_cons_of_mem _ he, ht⟩
    | some s =>
      obtain ⟨a, b⟩ := s
      by_cases hp : p.2.timestamp < b
      · have h2 : oldestGo (some (p.1, p.2.timestamp)) rest = some (u, t) := by
          simpa [oldestGo, hp] using h
        rcases ih _ u t h2 with h3 | h3
        · right
          obtain ⟨h4, h5⟩ : p.1 = u ∧ p.2.timestamp = t := by
            have := Option.some_injective _ h3
            exact ⟨congrArg Prod.fst this, congrArg Prod.snd this⟩
          exact ⟨p.2, by rw [← h4]; exact List.mem_cons_self _ _, h5⟩
        · obtain ⟨e, he, ht⟩ := h3
          exact Or.inr ⟨e, List.mem_cons_of_mem _ he, ht⟩
      · have h2 : oldestGo (some (a, b)) rest = some (u, t) := by
          simpa [oldestGo, hp] using h
        rcases ih _ u t h2 with h3 | h3
        · exact Or.inl h3
        · obtain ⟨e, he, ht⟩ := h3
          exact Or.inr ⟨e, List.mem_cons_of_mem _ he, ht⟩

theorem oldestVid_mem {c : List (String × CachedVideo)} {u : String} {t : Int}
    (h : oldestVid c = some (u, t)) : ∃ e, (u, e) ∈ c ∧ e.timestamp = t := by
  rcases oldestGo_mem c none u t h with h1 | h1
  · simp at h1
  · exact h1

theorem oldestVid_min {c : List (String × CachedVideo)} {u : String} {t : Int}
    (h : oldestVid c = some (u, t)) : ∀ p ∈ c, t ≤ p.2.timestamp :=
  (oldestGo_min c none u t h).1

theorem removeFromCache_queue (u : String) (st : VideoState) :
    (removeFromCache u st).preloadQueue = st.preloadQueue := by
  unfold removeFromCache
  cases mapGet st.cache u <;> rfl

theorem removeFromCache_inflight (u : String) (st : VideoState) :
    (removeFromCache u st).inflight = st.inflight := by
  unfold removeFromCache
  cases mapGet st.cache u <;> rfl

theorem removeFromCache_promises (u : String) (st : VideoState) :
    (removeFromCache u st).loadPromises = st.loadPromises := by
  unfold removeFromCache
  cases mapGet st.cache u <;> rfl

theorem removeFromCache_activeLoads (u : String) (st : VideoState) :
    (removeFromCache u st).activeLoads = st.activeLoads := by
  unfold removeFromCache
  cases mapGet st.cache u <;> rfl

theorem removeFromCache_isProcessing (u : String) (st : VideoState) :
    (removeFromCache u st).isProcessing = st.isProcessing := by
  unfold removeFromCache
  cases mapGet st.cache u <;> rfl

theorem removeFromCache_now (u : String) (st : VideoState) :
    (removeFromCache u st).now = st.now := by
  unfold removeFromCache
  cases mapGet st.cache u <;> rfl

theorem removeFromCache_nextId (u : String) (st : VideoState) :
    (removeFromCache u st).nextId = st.nextId := by
  unfold removeFromCache
  cases mapGet st.cache u <;> rfl

theorem removeFromCache_nextSeq (u : String) (st : VideoState) :
    (removeFromCache u st).nextSeq = st.nextSeq := by
  unfold removeFromCache
  cases mapGet st.cache u <;> rfl

theorem removeFromCache_cache_sublist (u : String) (st : VideoState) :
    (removeFromCache u st).cache.Sublist st.cache := by
  unfold removeFromCache
  cases mapGet st.cache u with
  | none => exact List.Sublist.refl _
  | some c => exact mapDelete_sublist _ _

theorem mapGet_removeFromCache_self (u : String) (st : VideoState) :
    mapGet (removeFromCache u st).cache u = none := by
  unfold removeFromCache
  cases h : mapGet st.cache u with
  | none => exact h
  | some c => exact mapGet_mapDelete_self _ _

theorem removeFromCache_sizeEq {st : VideoState} (u : String)
    (hn : (st.cache.map Prod.fst).Nodup) (hs : st.currentCacheSize = vidSum st.cache) :
    (removeFromCache u st).currentCacheSize = vidSum (removeFromCache u st).cache := by
  unfold removeFromCache
  cases h : mapGet st.cache u with
  | none => exact hs
  | some c =>
    show st.currentCacheSize - (c.size : Int) = vidSum (mapDelete st.cache u)
    rw [vidSum_mapDelete st.cache hn h, hs]

theorem removeFromCache_nodup {st : VideoState} (u : String)
    (hn : (st.cache.map Prod.fst).Nodup) :
    ((removeFromCache u st).cache.map Prod.fst).Nodup :=
  List.Nodup.sublist (List.Sublist.map _ (removeFromCache_cache_sublist u st)) hn

theorem removeFromCache_length {st : VideoState} {u : String} {e : CachedVideo}
    (hn : (st.cache.map Prod.fst).Nodup) (h : mapGet st.cache u = some e) :
    (removeFromCache u st).cache.length + 1 = st.cache.length := by
  unfold removeFromCache
  rw [h]
  exact length_mapDelete_add_one st.cache hn h

theorem ensureSpaceAux_queue (fuel needed : Nat) (st : VideoState) :
    (ensureSpaceAux fuel needed st).1.preloadQueue = st.preloadQueue := by
  induction fuel generalizing st with
  | zero => rfl
  | succ n ih =>
    unfold ensureSpaceAux
    by_cases hc : st.currentCacheSize + (needed : Int) > VID_MAX_CACHE_SIZE ∧ 0 < st.cache.length
    · rw [if_pos hc]
      cases ho : oldestVid st.cache with
      | none => rfl
      | some ut =>
        dsimp only
        by_cases hu : ut.1 = ""
        · rw [if_pos hu]
        · rw [if_neg hu]
          show (ensureSpaceAux n needed (removeFromCache ut.1 st)).1.preloadQueue = _
          rw [ih, removeFromCache_queue]
    · rw [if_neg hc]

theorem ensureSpaceAux_inflight (fuel needed : Nat) (st : VideoState) :
    (ensureSpaceAux fuel needed st).1.inflight = st.inflight := by
  induction fuel generalizing st with
  | zero => rfl
  | succ n ih =>
    unfold ensureSpaceAux
    by_cases hc : st.currentCacheSize + (needed : Int) > VID_MAX_CACHE_SIZE ∧ 0 < st.cache.length
    · rw [if_pos hc]
      cases ho : oldestVid st.cache with
      | none => rfl
      | some ut =>
        dsimp only
        by_cases hu : ut.1 = ""
        · rw [if_pos hu]
        · rw [if_neg hu]
          show (ensureSpaceAux n needed (removeFromCache ut.1 st)).1.inflight = _
          rw [ih, removeFromCache_inflight]
    · rw [if_neg hc]

theorem ensureSpaceAux_promises (fuel needed : Nat) (st : VideoState) :
    (ensureSpaceAux fuel needed st).1.loadPromises = st.loadPromises := by
  induction fuel generalizing st with
  | zero => rfl
  | succ n ih =>
    unfold ensureSpaceAux
    by_cases hc : st.currentCacheSize + (needed : Int) > VID_MAX_CACHE_SIZE ∧ 0 < st.cache.length
    · rw [if_pos hc]
      cases ho : oldestVid st.cache with
      | none => rfl
      | some ut =>
        dsimp only
        by_cases hu : ut.1 = ""
        · rw [if_pos hu]
        · rw [if_neg hu]
          show (ensureSpaceAux n needed (removeFromCache ut.1 st)).1.loadPromises = _
          rw [ih, removeFromCache_promises]
    · rw [if_neg hc]

theorem ensureSpaceAux_activeLoads (fuel needed : Nat) (st : VideoState) :
    (ensureSpaceAux fuel needed st).1.activeLoads = st.activeLoads := by
  induction fuel generalizing st with
  | zero => rfl
  | succ n ih =>
    unfold ensureSpaceAux
    by_cases hc : st.currentCacheSize + (needed : Int) > VID_MAX_CACHE_SIZE ∧ 0 < st.cache.length
    · rw [if_pos hc]
      cases ho : oldestVid st.cache with
      | none => rfl
      | some ut =>
        dsimp only
        by_cases hu : ut.1 = ""
        · rw [if_pos hu]
        · rw [if_neg hu]
          show (ensureSpaceAux n needed (removeFromCache ut.1 st)).1.activeLoads = _
          rw [ih, removeFromCache_activeLoads]
    · rw [if_neg hc]

theorem ensureSpaceAux_isProcessing (fuel needed : Nat) (st : VideoState) :
    (ensureSpaceAux fuel needed st).1.isProcessing = st.isProcessing := by
  induction fuel generalizing st with
  | zero => rfl
  | succ n ih =>
    unfold ensureSpaceAux
    by_cases hc : st.currentCacheSize + (needed : Int) > VID_MAX_CACHE_SIZE ∧ 0 < st.cache.length
    · rw [if_pos hc]
      cases ho : oldestVid st.cache with
      | none => rfl
      | some ut =>
        dsimp only
        by_cases hu : ut.1 = ""
        · rw [if_pos hu]
        · rw [if_neg hu]
          show (ensureSpaceAux n needed (removeFromCache ut.1 st)).1.isProcessing = _
          rw [ih, removeFromCache_isProcessing]
    · rw [if_neg hc]

theorem ensureSpaceAux_now (fuel needed : Nat) (st : VideoState) :
    (ensureSpaceAux fuel needed st).1.now = st.now := by
  induction fuel generalizing st with
  | zero => rfl
  | succ n ih =>
    unfold ensureSpaceAux
    by_cases hc : st.currentCacheSize + (needed : Int) > VID_MAX_CACHE_SIZE ∧ 0 < st.cache.length
    · rw [if_pos hc]
      cases ho : oldestVid st.cache with
      | none => rfl
      | some ut =>
        dsimp only
        by_cases hu : ut.1 = ""
        · rw [if_pos hu]
        · rw [if_neg hu]
          show (ensureSpaceAux n needed (removeFromCache ut.1 st)).1.now = _
          rw [ih, removeFromCache_now]
    · rw [if_neg hc]

theorem ensureSpaceAux_nextId (fuel needed : Nat) (st : VideoState) :
    (ensureSpaceAux fuel needed st).1.nextId = st.nextId := by
  induction fuel generalizing st with
  | zero => rfl
  | succ n ih =>
    unfold ensureSpaceAux
    by_cases hc : st.currentCacheSize + (needed : Int) > VID_MAX_CACHE_SIZE ∧ 0 < st.cache.length
    · rw [if_pos hc]
      cases ho : oldestVid st.cache with
      | none => rfl
      | some ut =>
        dsimp only
        by_cases hu : ut.1 = ""
        · rw [if_pos hu]
        · rw [if_neg hu]
          show (ensureSpaceAux n needed (removeFromCache ut.1 st)).1.nextId = _
          rw [ih, removeFromCache_nextId]
    · rw [if_neg hc]

theorem ensureSpaceAux_nextSeq (fuel needed : Nat) (st : VideoState) :
    (ensureSpaceAux fuel needed st).1.nextSeq = st.nextSeq := by
  induction fuel generalizing st with
  | zero => rfl
  | succ n ih =>
    unfold ensureSpaceAux
    by_cases hc : st.currentCacheSize + (needed : Int) > VID_MAX_CACHE_SIZE ∧ 0 < st.cache.length
    · rw [if_pos hc]
      cases ho : oldestVid st.cache with
      | none => rfl
      | some ut =>
        dsimp only
        by_cases hu : ut.1 = ""
        · rw [if_pos hu]
        · rw [if_neg hu]
          show (ensureSpaceAux n needed (removeFromCache ut.1 st)).1.nextSeq = _
          rw [ih, removeFromCache_nextSeq]
    · rw [if_neg hc]

theorem ensureSpaceAux_cache_sublist (fuel needed : Nat) (st : VideoState) :
    (ensureSpaceAux fuel needed st).1.cache.Sublist st.cache := by
  induction fuel generalizing st with
  | zero => exact List.Sublist.refl _
  | succ n ih =>
    unfold ensureSpaceAux
    by_cases hc : st.currentCacheSize + (needed : Int) > VID_MAX_CACHE_SIZE ∧ 0 < st.cache.length
    · rw [if_pos hc]
      cases ho : oldestVid st.cache with
      | none => exact List.Sublist.refl _
      | some ut =>
        dsimp only
        by_cases hu : ut.1 = ""
        · rw [if_pos hu]
        · rw [if_neg hu]
          show (ensureSpaceAux n needed (removeFromCache ut.1 st)).1.cache.Sublist _
          exact List.Sublist.trans (ih _) (removeFromCache_cache_sublist ut.1 st)
    · rw [if_neg hc]

theorem ensureSpaceAux_sizeEq (fuel needed : Nat) (st : VideoState)
    (hn : (st.cache.map Prod.fst).Nodup) (hs : st.currentCacheSize = vidSum st.cache) :
    (ensureSpaceAux fuel needed st).1.currentCacheSize =
      vidSum (ensureSpaceAux fuel needed st).1.cache := by
  induction fuel generalizing st with
  | zero => exact hs
  | succ n ih =>
    unfold ensureSpaceAux
    by_cases hc : st.currentCacheSize + (needed : Int) > VID_MAX_CACHE_SIZE ∧ 0 < st.cache.length
    · rw [if_pos hc]
      cases ho : oldestVid st.cache with
      | none => exact hs
      | some ut =>
        dsimp only
        by_cases hu : ut.1 = ""
        · rw [if_pos hu]
          exact hs
        · rw [if_neg hu]
          show (ensureSpaceAux n needed (removeFromCache ut.1 st)).1.currentCacheSize = _
          exact ih _ (removeFromCache_nodup _ hn) (removeFromCache_sizeEq _ hn hs)
    · rw [if_neg hc]
      exact hs

/-- The `ensureSpace` loop exits only with the space condition satisfied or an
empty cache, provided the fuel covers the cache size and no key is the empty
string (the source falsy-check). -/
theorem ensureSpaceAux_post (fuel : Nat) (needed : Nat) (st : VideoState)
    (hn : (st.cache.map Prod.fst).Nodup)
    (hne : "" ∉ st.cache.map Prod.fst)
    (hfuel : st.cache.length ≤ fuel) :
    (ensureSpaceAux fuel needed st).1.currentCacheSize + (needed : Int) ≤ VID_MAX_CACHE_SIZE ∨
      (ensureSpaceAux fuel needed st).1.cache = [] := by
  induction fuel generalizing st with
  | zero =>
    have : st.cache = [] := List.length_eq_zero.1 (Nat.le_zero.1 hfuel)
    exact Or.inr this
  | succ n ih =>
    unfold ensureSpaceAux
    by_cases hc : st.currentCacheSize + (needed : Int) > VID_MAX_CACHE_SIZE ∧ 0 < st.cache.length
    · rw [if_pos hc]
      have hnonnil : st.cache ≠ [] := by
        intro he
        rw [he] at hc
        simp at hc
      cases ho : oldestVid st.cache with
      | none =>
        exact absurd (congrArg Option.isSome ho) (by simp [oldestVid_isSome hnonnil])
      | some ut =>
        dsimp only
        obtain ⟨e, hmem, hts⟩ := oldestVid_mem ho
        have hu : ut.1 ≠ "" := by
          intro he
          exact hne (List.mem_map.2 ⟨(ut.1, e), hmem, he⟩)
        rw [if_neg hu]
        have hget : mapGet st.cache ut.1 = some e := mapGet_of_nodup_mem hn hmem
        have hlen := removeFromCache_length hn hget
        refine ih (removeFromCache ut.1 st) (removeFromCache_nodup _ hn) ?_ (by omega)
        intro hmem2
        exact hne (List.Sublist.mem hmem2
          (List.Sublist.map _ (removeFromCache_cache_sublist ut.1 st)))
    · rw [if_neg hc]
      push_neg at hc
      by_cases hgt : st.currentCacheSize + (needed : Int) > VID_MAX_CACHE_SIZE
      · have h0 := hc hgt
        have : st.cache = [] := List.length_eq_zero.1 (by omega)
        exact Or.inr this
      · exact Or.inl (not_lt.1 hgt)

/-- The timestamps removed by the `ensureSpace` loop are nondecreasing: each
removed entry is the oldest resident one at its removal time. -/
theorem ensureSpaceAux_removed_sorted (fuel needed : Nat) (st : VideoState) :
    ((ensureSpaceAux fuel needed st).2.Sorted (· ≤ ·)) ∧
    (∀ x ∈ (ensureSpaceAux fuel needed st).2, ∃ p ∈ st.cache, x = p.2.timestamp) := by
  induction fuel generalizing st with
  | zero => exact ⟨List.sorted_nil, by simp [ensureSpaceAux]⟩
  | succ n ih =>
    unfold ensureSpaceAux
    by_cases hc : st.currentCacheSize + (needed : Int) > VID_MAX_CACHE_SIZE ∧ 0 < st.cache.length
    · rw [if_pos hc]
      cases ho : oldestVid st.cache with
      | none => exact ⟨List.sorted_nil, by simp⟩
      | some ut =>
        dsimp only
        by_cases hu : ut.1 = ""
        · rw [if_pos hu]
          exact ⟨List.sorted_nil, by simp⟩
        · rw [if_neg hu]
          obtain ⟨hsorted, hmem⟩ := ih (removeFromCache ut.1 st)
          have hmin := oldestVid_min (u := ut.1) (t := ut.2) (by rw [ho])
          have hsub := removeFromCache_cache_sublist ut.1 st
          refine ⟨?_, ?_⟩
          · show List.Sorted _ (ut.2 :: _)
            rw [List.sorted_cons]
            refine ⟨fun b hb => ?_, hsorted⟩
            obtain ⟨p, hp, hx⟩ := hmem b hb
            rw [hx]
            exact hmin p (List.Sublist.mem hp hsub)
          · intro x hx
            rcases List.mem_cons.1 hx with h1 | h1
            · obtain ⟨e, hmem2, hts⟩ := oldestVid_mem (by rw [ho])
              exact ⟨(ut.1, e), hmem2, by rw [h1, hts]⟩
            · obtain ⟨p, hp, hxp⟩ := hmem x h1
              exact ⟨p, List.Sublist.mem hp hsub, hxp⟩
    · rw [if_neg hc]
      exact ⟨List.sorted_nil, by simp⟩

theorem removeFromCache_revoked {st : VideoState} {u : String} {e : CachedVideo}
    (h : mapGet st.cache u = some e) :
    (removeFromCache u st).revoked = st.revoked ++ [e.blobUrl] := by
  unfold removeFromCache
  rw [h]

theorem removeFromCache_revoked_mono (u : String) (st : VideoState) {x : Nat}
    (h : x ∈ st.revoked) : x ∈ (removeFromCache u st).revoked := by
  unfold removeFromCache
  cases mapGet st.cache u with
  | none => exact h
  | some c => simp [h]

theorem foldl_removeFromCache_get_notin (l : List String) :
    ∀ (st : VideoState) {u : String}, u ∉ l →
    mapGet (l.foldl (fun s k => removeFromCache k s) st).cache u = mapGet st.cache u := by
  induction l with
  | nil => intro st u _; rfl
  | cons k rest ih =>
    intro st u hu
    have hk : u ≠ k := fun he => hu (by rw [he]; exact List.mem_cons_self _ _)
    have hrest : u ∉ rest := fun he => hu (List.mem_cons_of_mem _ he)
    rw [List.foldl_cons, ih _ hrest]
    unfold removeFromCache
    cases h : mapGet st.cache k with
    | none => rfl
    | some c => exact mapGet_mapDelete_ne _ hk

theorem foldl_removeFromCache_revoked_mono (l : List String) :
    ∀ (st : VideoState) {x : Nat}, x ∈ st.revoked →
    x ∈ (l.foldl (fun s k => removeFromCache k s) st).revoked := by
  induction l with
  | nil => intro st x h; exact h
  | cons k rest ih =>
    intro st x h
    rw [List.foldl_cons]
    exact ih _ (removeFromCache_revoked_mono k st h)

/-- Keys listed for removal by `VideoCacheService.cleanup`. -/
def cleanupVidKeys (st : VideoState) : List String :=
  (st.cache.filter (fun p => st.now - p.2.timestamp > VID_CACHE_TTL)).map (·.1)

theorem cleanupVid_eq_foldl (st : VideoState) :
    cleanupVid st = (cleanupVidKeys st).foldl (fun s k => removeFromCache k s) st := rfl

theorem cleanupVidKeys_nodup {st : VideoState} (hn : (st.cache.map Prod.fst).Nodup) :
    (cleanupVidKeys st).Nodup := by
  have hsub : ((st.cache.filter
      (fun p => st.now - p.2.timestamp > VID_CACHE_TTL)).map (·.1)).Sublist
      (st.cache.map Prod.fst) :=
    List.Sublist.map _ (List.filter_sublist st.cache)
  exact List.Nodup.sublist hsub hn

theorem mem_cleanupVidKeys {st : VideoState} {u : String} {e : CachedVideo}
    (hmem : (u, e) ∈ st.cache) (hexp : st.now - e.timestamp > VID_CACHE_TTL) :
    u ∈ cleanupVidKeys st := by
  refine List.mem_map.2 ⟨(u, e), ?_, rfl⟩
  exact List.mem_filter.2 ⟨hmem, decide_eq_true hexp⟩

theorem not_mem_cleanupVidKeys {st : VideoState} {u : String} {e : CachedVideo}
    (hn : (st.cache.map Prod.fst).Nodup) (h : mapGet st.cache u = some e)
    (hfresh : ¬ (st.now - e.timestamp > VID_CACHE_TTL)) :
    u ∉ cleanupVidKeys st := by
  intro hu
  obtain ⟨p, hp, hpk⟩ := List.mem_map.1 hu
  have hpm : p ∈ st.cache := List.mem_of_mem_filter hp
  have hpf := List.of_mem_filter hp
  have hpe : p.2 = e := by
    refine nodup_values_of_nodup_keys hn ?_ (mem_of_mapGet_eq_some h)
    rw [← hpk]
    simpa using hpm
  rw [hpe] at hpf
  simp only [decide_eq_true_eq] at hpf
  exact hfresh hpf

theorem cleanupVid_removes_expired {st : VideoState} {u : String} {e : CachedVideo}
    (hn : (st.cache.map Prod.fst).Nodup) (h : mapGet st.cache u = some e)
    (hexp : st.now - e.timestamp > VID_CACHE_TTL) :
    mapGet (cleanupVid st).cache u = none ∧ e.blobUrl ∈ (cleanupVid st).revoked := by
  have hmemk : u ∈ cleanupVidKeys st := mem_cleanupVidKeys (mem_of_mapGet_eq_some h) hexp
  have hndk : (cleanupVidKeys st).Nodup := cleanupVidKeys_nodup hn
  obtain ⟨l1, l2, hdec⟩ := List.append_of_mem hmemk
  rw [hdec] at hndk
  have hu1 : u ∉ l1 := by
    have hdisj := (List.nodup_append.1 hndk).2.2
    intro hin
    exact hdisj hin (List.mem_cons_self _ _)
  have hu2 : u ∉ l2 := (List.nodup_cons.1 (List.nodup_append.1 hndk).2.1).1
  rw [cleanupVid_eq_foldl, hdec, List.foldl_append, List.foldl_cons]
  have hget1 : mapGet (l1.foldl (fun s k => removeFromCache k s) st).cache u = some e := by
    rw [foldl_removeFromCache_get_notin l1 st hu1]
    exact h
  constructor
  · rw [foldl_removeFromCache_get_notin l2 _ hu2]
    exact mapGet_removeFromCache_self u _
  · refine foldl_removeFromCache_revoked_mono l2 _ ?_
    rw [removeFromCache_revoked hget1]
    simp

theorem cleanupVid_keeps_fresh {st : VideoState} {u : String} {e : CachedVideo}
    (hn : (st.cache.map Prod.fst).Nodup) (h : mapGet st.cache u = some e)
    (hfresh : ¬ (st.now - e.timestamp > VID_CACHE_TTL)) :
    mapGet (cleanupVid st).cache u = some e := by
  rw [cleanupVid_eq_foldl,
    foldl_removeFromCache_get_notin _ st (not_mem_cleanupVidKeys hn h hfresh)]
  exact h

-- ==================== Video reachable-state invariant ====================

/-- Decomposition of a list at the first element satisfying `q`, tying
`find?` and `eraseP` together. -/
theorem find?_eraseP_decomp {α : Type} (q : α → Bool) :
    ∀ (l : List α) (a : α), l.find? q = some a →
    ∃ l1 l2, l = l1 ++ a :: l2 ∧ (∀ x ∈ l1, q x = false) ∧ q a = true ∧
      l.eraseP q = l1 ++ l2
  | [], a, h => by simp at h
  | x :: xs, a, h => by
    cases hq : q x with
    | true =>
      have hxa : x = a := by
        rw [List.find?_cons_of_pos _ hq] at h
        exact Option.some_injective _ h
      refine ⟨[], xs, by simp [hxa], by simp, hxa ▸ hq, ?_⟩
      simp [List.eraseP_cons_of_pos, hq]
    | false =>
      rw [List.find?_cons_of_neg _ (by simp [hq])] at h
      obtain ⟨l1, l2, hdec, hl1, hqa, herase⟩ := find?_eraseP_decomp q xs a h
      refine ⟨x :: l1, l2, by simp [hdec], ?_, hqa, ?_⟩
      · intro y hy
        rcases List.mem_cons.1 hy with h1 | h1
        · rw [h1]; exact hq
        · exact hl1 y h1
      · rw [List.eraseP_cons_of_neg (by simp [hq]), herase]
        simp

/-- Core inductive invariant of the video cache, true in every reachable
state of a `clear`-free trace and restored by every queue drain. -/
structure VInvCore (st : VideoState) : Prop where
  sizeEq : st.currentCacheSize = vidSum st.cache
  cacheNodup : (st.cache.map Prod.fst).Nodup
  queueNodup : (st.preloadQueue.map QItem.url).Nodup
  inflightNodup : (st.inflight.map Prod.snd).Nodup
  promIff : ∀ u, (mapGet st.loadPromises u).isSome ↔ u ∈ st.inflight.map Prod.snd
  inflightNotQueued : ∀ u ∈ st.inflight.map Prod.snd, u ∉ st.preloadQueue.map QItem.url
  inflightNotCached : ∀ u ∈ st.inflight.map Prod.snd, u ∉ st.cache.map Prod.fst
  noProc : st.isProcessing = false

/-- Full invariant: the core plus "a non-empty pending queue means the
concurrency slots are saturated". -/
structure VInv (st : VideoState) extends VInvCore st : Prop where
  queueFull : st.preloadQueue ≠ [] → ¬ (st.activeLoads < VID_MAX_CONCURRENT_LOADS)

theorem vinvcore_init : VInvCore initVid := by
  refine ⟨rfl, ?_, ?_, ?_, ?_, ?_, ?_, rfl⟩ <;> simp [initVid, mapGet]

theorem vinv_init : VInv initVid :=
  ⟨vinvcore_init, by intro h; exact absurd rfl h⟩

theorem vinvcore_removeFromCache {st : VideoState} (h : VInvCore st) (u : String) :
    VInvCore (removeFromCache u st) := by
  refine ⟨removeFromCache_sizeEq u h.cacheNodup h.sizeEq,
    removeFromCache_nodup u h.cacheNodup, ?_, ?_, ?_, ?_, ?_, ?_⟩
  · rw [removeFromCache_queue]
    exact h.queueNodup
  · rw [removeFromCache_inflight]
    exact h.inflightNodup
  · intro v
    rw [removeFromCache_promises, removeFromCache_inflight]
    exact h.promIff v
  · intro v hv
    rw [removeFromCache_inflight] at hv
    rw [removeFromCache_queue]
    exact h.inflightNotQueued v hv
  · intro v hv
    rw [removeFromCache_inflight] at hv
    intro hc
    exact h.inflightNotCached v hv
      (List.Sublist.mem hc (List.Sublist.map _ (removeFromCache_cache_sublist u st)))
  · rw [removeFromCache_isProcessing]
    exact h.noProc

theorem vinvcore_ensureSpaceAux (fuel needed : Nat) {st : VideoState} (h : VInvCore st) :
    VInvCore (ensureSpaceAux fuel needed st).1 := by
  induction fuel generalizing st with
  | zero => exact h
  | succ n ih =>
    unfold ensureSpaceAux
    by_cases hc : st.currentCacheSize + (needed : Int) > VID_MAX_CACHE_SIZE ∧ 0 < st.cache.length
    · rw [if_pos hc]
      cases ho : oldestVid st.cache with
      | none => exact h
      | some ut =>
        dsimp only
        by_cases hu : ut.1 = ""
        · rw [if_pos hu]
          exact h
        · rw [if_neg hu]
          exact ih (vinvcore_removeFromCache h ut.1)
    · rw [if_neg hc]
      exact h

theorem vinvcore_ensureSpace (needed : Nat) {st : VideoState} (h : VInvCore st) :
    VInvCore (ensureSpace needed st) :=
  vinvcore_ensureSpaceAux _ needed h

theorem isCachedVid_snd (u : String) (st : VideoState) :
    (isCachedVid u st).2 = st ∨ (isCachedVid u st).2 = removeFromCache u st := by
  unfold isCachedVid
  cases h : mapGet st.cache u with
  | none => exact Or.inl rfl
  | some c =>
    dsimp only
    by_cases ht : st.now - c.timestamp > VID_CACHE_TTL
    · rw [if_pos ht]
      exact Or.inr rfl
    · rw [if_neg ht]
      exact Or.inl rfl

theorem vinvcore_isCachedVid (u : String) {st : VideoState} (h : VInvCore st) :
    VInvCore (isCachedVid u st).2 := by
  rcases isCachedVid_snd u st with he | he
  · rw [he]
    exact h
  · rw [he]
    exact vinvcore_removeFromCache h u

theorem isCachedVid_queue (u : String) (st : VideoState) :
    (isCachedVid u st).2.preloadQueue = st.preloadQueue := by
  rcases isCachedVid_snd u st with he | he
  · rw [he]
  · rw [he, removeFromCache_queue]

theorem isCachedVid_activeLoads (u : String) (st : VideoState) :
    (isCachedVid u st).2.activeLoads = st.activeLoads := by
  rcases isCachedVid_snd u st with he | he
  · rw [he]
  · rw [he, removeFromCache_activeLoads]

theorem isCachedVid_inflight (u : String) (st : VideoState) :
    (isCachedVid u st).2.inflight = st.inflight := by
  rcases isCachedVid_snd u st with he | he
  · rw [he]
  · rw [he, removeFromCache_inflight]

theorem isCachedVid_promises (u : String) (st : VideoState) :
    (isCachedVid u st).2.loadPromises = st.loadPromises := by
  rcases isCachedVid_snd u st with he | he
  · rw [he]
  · rw [he, removeFromCache_promises]

theorem isCachedVid_nextId (u : String) (st : VideoState) :
    (isCachedVid u st).2.nextId = st.nextId := by
  rcases isCachedVid_snd u st with he | he
  · rw [he]
  · rw [he, removeFromCache_nextId]

theorem isCachedVid_nextSeq (u : String) (st : VideoState) :
    (isCachedVid u st).2.nextSeq = st.nextSeq := by
  rcases isCachedVid_snd u st with he | he
  · rw [he]
  · rw [he, removeFromCache_nextSeq]

theorem isCachedVid_now (u : String) (st : VideoState) :
    (isCachedVid u st).2.now = st.now := by
  rcases isCachedVid_snd u st with he | he
  · rw [he]
  · rw [he, removeFromCache_now]

theorem isCachedVid_isProcessing (u : String) (st : VideoState) :
    (isCachedVid u st).2.isProcessing = st.isProcessing := by
  rcases isCachedVid_snd u st with he | he
  · rw [he]
  · rw [he, removeFromCache_isProcessing]

theorem isCachedVid_cache_sublist (u : String) (st : VideoState) :
    (isCachedVid u st).2.cache.Sublist st.cache := by
  rcases isCachedVid_snd u st with he | he
  · rw [he]
  · rw [he]
    exact removeFromCache_cache_sublist u st

theorem isCachedVid_false_get {u : String} {st : VideoState}
    (h : (isCachedVid u st).1 = false) :
    mapGet (isCachedVid u st).2.cache u = none := by
  unfold isCachedVid at h ⊢
  cases hg : mapGet st.cache u with
  | none => exact hg
  | some c =>
    rw [hg] at h
    dsimp only at h ⊢
    by_cases ht : st.now - c.timestamp > VID_CACHE_TTL
    · rw [if_pos ht]
      exact mapGet_removeFromCache_self u st
    · rw [if_neg ht] at h
      simp at h

theorem vinv_getCachedUrlVid (u : String) {st : VideoState} (h : VInv st) :
    VInv (getCachedUrlVid u st).2 := by
  unfold getCachedUrlVid
  cases hg : mapGet st.cache u with
  | none => exact h
  | some c =>
    dsimp only
    have hkeys : ((mapSet st.cache u { c with timestamp := st.now }).map Prod.fst)
        = st.cache.map Prod.fst := keys_mapSet_of_some hg _
    refine ⟨⟨?_, ?_, h.queueNodup, h.inflightNodup, h.promIff, h.inflightNotQueued,
      ?_, h.noProc⟩, h.queueFull⟩
    · show st.currentCacheSize = vidSum (mapSet st.cache u { c with timestamp := st.now })
      rw [vidSum_mapSet_same st.cache { c with timestamp := st.now } hg rfl]
      exact h.sizeEq
    · show ((mapSet st.cache u { c with timestamp := st.now }).map Prod.fst).Nodup
      rw [hkeys]
      exact h.cacheNodup
    · intro v hv
      show v ∉ (mapSet st.cache u { c with timestamp := st.now }).map Prod.fst
      rw [hkeys]
      exact h.inflightNotCached v hv

theorem vinvcore_loadVideo {st : VideoState} (u : String) (h : VInvCore st)
    (hnin : u ∉ st.inflight.map Prod.snd)
    (hnq : u ∉ st.preloadQueue.map QItem.url)
    (hnc : u ∉ st.cache.map Prod.fst) :
    VInvCore (loadVideo u st) := by
  refine ⟨h.sizeEq, h.cacheNodup, h.queueNodup, ?_, ?_, ?_, ?_, h.noProc⟩
  · show ((st.inflight ++ [(st.nextId, u)]).map Prod.snd).Nodup
    rw [List.map_append, List.nodup_append]
    refine ⟨h.inflightNodup, by simp, ?_⟩
    intro a ha hb
    simp only [List.map_cons, List.map_nil, List.mem_singleton] at hb
    rw [hb] at ha
    exact hnin ha
  · intro v
    show (mapGet (mapSet st.loadPromises u st.nextId) v).isSome ↔
      v ∈ (st.inflight ++ [(st.nextId, u)]).map Prod.snd
    rw [List.map_append]
    by_cases hv : v = u
    · subst hv
      rw [mapGet_mapSet_self]
      simp
    · rw [mapGet_mapSet_ne _ _ hv, List.mem_append]
      constructor
      · intro hs
        exact Or.inl ((h.promIff v).1 hs)
      · intro hm
        rcases hm with hm | hm
        · exact (h.promIff v).2 hm
        · simp at hm
          exact absurd hm hv
  · intro v hv
    have hv2 : v ∈ (st.inflight ++ [(st.nextId, u)]).map Prod.snd := hv
    rw [List.map_append, List.mem_append] at hv2
    show v ∉ st.preloadQueue.map QItem.url
    rcases hv2 with hv2 | hv2
    · exact h.inflightNotQueued v hv2
    · simp only [List.map_cons, List.map_nil, List.mem_singleton] at hv2
      rw [hv2]
      exact hnq
  · intro v hv
    have hv2 : v ∈ (st.inflight ++ [(st.nextId, u)]).map Prod.snd := hv
    rw [List.map_append, List.mem_append] at hv2
    show v ∉ st.cache.map Prod.fst
    rcases hv2 with hv2 | hv2
    · exact h.inflightNotCached v hv2
    · simp only [List.map_cons, List.map_nil, List.mem_singleton] at hv2
      rw [hv2]
      exact hnc

theorem vinv_not_in_inflight_of_promise_none {st : VideoState} (h : VInvCore st)
    {u : String} (hp : mapGet st.loadPromises u = none) :
    u ∉ st.inflight.map Prod.snd := by
  intro hmem
  have := (h.promIff u).2 hmem
  rw [hp] at this
  simp at this

/-- The queue drain restores the full invariant from the core invariant. -/
theorem drainVid_pres : ∀ (q : List QItem) (st : VideoState), st.preloadQueue = q →
    VInvCore st → VInv (drainVid q st)
  | [], st, _, h => by
    unfold drainVid
    refine ⟨⟨h.sizeEq, h.cacheNodup, by simp, h.inflightNodup, h.promIff, ?_,
      h.inflightNotCached, h.noProc⟩, ?_⟩
    · intro v _
      simp
    · intro hne
      exact absurd rfl hne
  | it :: rest, st, hq, h => by
    unfold drainVid
    by_cases hact : st.activeLoads < VID_MAX_CONCURRENT_LOADS
    · rw [if_pos hact]
      dsimp only
      have hqn : ((it :: rest).map QItem.url).Nodup := by
        rw [← hq]
        exact h.queueNodup
      have hnotin : it.url ∉ rest.map QItem.url := (List.nodup_cons.1 hqn).1
      have hrestnodup : (rest.map QItem.url).Nodup := (List.nodup_cons.1 hqn).2
      have hcore1 : VInvCore { st with preloadQueue := rest } := by
        refine ⟨h.sizeEq, h.cacheNodup, hrestnodup, h.inflightNodup, h.promIff, ?_,
          h.inflightNotCached, h.noProc⟩
        intro v hv
        have hvq := h.inflightNotQueued v hv
        rw [hq] at hvq
        intro hvrest
        exact hvq (List.mem_cons_of_mem _ hvrest)
      have hcore2 : VInvCore (isCachedVid it.url { st with preloadQueue := rest }).2 :=
        vinvcore_isCachedVid it.url hcore1
      have hq2 : (isCachedVid it.url { st with preloadQueue := rest }).2.preloadQueue
          = rest := isCachedVid_queue it.url { st with preloadQueue := rest }
      by_cases hcc : (isCachedVid it.url { st with preloadQueue := rest }).1 = true
      · rw [if_pos hcc]
        exact drainVid_pres rest _ hq2 hcore2
      · rw [if_neg hcc]
        have hget : mapGet (isCachedVid it.url { st with preloadQueue := rest }).2.cache
            it.url = none :=
          isCachedVid_false_get (Bool.eq_false_iff.2 (fun hb => hcc hb))
        have hnc : it.url ∉ (isCachedVid it.url { st with preloadQueue := rest }).2.cache.map
            Prod.fst := (mapGet_eq_none_iff _ _).1 hget
        have hnin : it.url ∉ (isCachedVid it.url { st with preloadQueue := rest }).2.inflight.map
            Prod.snd := by
          rw [isCachedVid_inflight]
          show it.url ∉ st.inflight.map Prod.snd
          intro hmem
          have hvq := h.inflightNotQueued it.url hmem
          rw [hq] at hvq
          exact hvq (List.mem_map.2 ⟨it, List.mem_cons_self _ _, rfl⟩)
        have hnq : it.url ∉ (isCachedVid it.url { st with preloadQueue := rest }).2.preloadQueue.map
            QItem.url := by
          rw [hq2]
          exact hnotin
        have hcoreL : VInvCore (loadVideo it.url
            (isCachedVid it.url { st with preloadQueue := rest }).2) :=
          vinvcore_loadVideo it.url hcore2 hnin hnq hnc
        have hqL : (loadVideo it.url
            (isCachedVid it.url { st with preloadQueue := rest }).2).preloadQueue = rest := hq2
        exact drainVid_pres rest _ hqL hcoreL
    · rw [if_neg hact]
      have heq : ({ st with preloadQueue := it :: rest } : VideoState) = st := by
        rw [← hq]
      rw [heq]
      refine ⟨h, ?_⟩
      intro _
      exact hact

/-- `processQueue` restores the full invariant. -/
theorem processQueueVid_pres {st : VideoState} (h : VInvCore st) :
    VInv (processQueueVid st) := by
  unfold processQueueVid
  have hcond : ¬ (st.isProcessing = true) := by
    rw [h.noProc]
    simp
  rw [if_neg hcond]
  exact drainVid_pres st.preloadQueue st rfl h

theorem preloadVid_pres (u : String) (hi : Bool) {st : VideoState} (h : VInv st) :
    VInv (preloadVid u hi st).2 := by
  unfold preloadVid
  by_cases hu : u = ""
  · rw [if_pos hu]
    exact h
  · rw [if_neg hu]
    dsimp only
    have hcore2 : VInvCore (isCachedVid u st).2 := vinvcore_isCachedVid u h.toVInvCore
    have hqf2 : (isCachedVid u st).2.preloadQueue ≠ [] →
        ¬ ((isCachedVid u st).2.activeLoads < VID_MAX_CONCURRENT_LOADS) := by
      rw [isCachedVid_queue, isCachedVid_activeLoads]
      exact h.queueFull
    by_cases hc : (isCachedVid u st).1 = true
    · rw [if_pos hc]
      dsimp only
      exact vinv_getCachedUrlVid u ⟨hcore2, hqf2⟩
    · rw [if_neg hc]
      cases hp : mapGet (isCachedVid u st).2.loadPromises u with
      | some pid =>
        dsimp only
        exact ⟨hcore2, hqf2⟩
      | none =>
        dsimp only
        have hnin : u ∉ (isCachedVid u st).2.inflight.map Prod.snd :=
          vinv_not_in_inflight_of_promise_none hcore2 hp
        by_cases hhigh : hi = true ∧
            (isCachedVid u st).2.activeLoads < VID_MAX_CONCURRENT_LOADS
        · rw [if_pos hhigh]
          have hqEmpty : (isCachedVid u st).2.preloadQueue = [] := by
            by_contra hne
            exact hqf2 hne hhigh.2
          have hnq : u ∉ (isCachedVid u st).2.preloadQueue.map QItem.url := by
            rw [hqEmpty]
            simp
          have hnc : u ∉ (isCachedVid u st).2.cache.map Prod.fst :=
            (mapGet_eq_none_iff _ _).1
              (isCachedVid_false_get (Bool.eq_false_iff.2 (fun hb => hc hb)))
          refine ⟨vinvcore_loadVideo u hcore2 hnin hnq hnc, ?_⟩
          intro hne
          exact absurd hqEmpty hne
        · rw [if_neg hhigh]
          by_cases hfound : (((isCachedVid u st).2.preloadQueue.find?
              (fun it => it.url == u)).isSome) = true
          · rw [if_pos hfound]
            exact processQueueVid_pres hcore2
          · rw [if_neg hfound]
            have hnq : u ∉ (isCachedVid u st).2.preloadQueue.map QItem.url := by
              intro hmem
              obtain ⟨it2, hit2, hu2⟩ := List.mem_map.1 hmem
              refine hfound (List.find?_isSome.2 ⟨it2, hit2, ?_⟩)
              simp [hu2]
            by_cases hhi2 : hi = true
            · rw [if_pos hhi2]
              have hcoreE : VInvCore { (isCachedVid u st).2 with
                  preloadQueue := ⟨u, true, (isCachedVid u st).2.nextSeq⟩ ::
                    (isCachedVid u st).2.preloadQueue
                  nextSeq := (isCachedVid u st).2.nextSeq + 1 } := by
                refine ⟨hcore2.sizeEq, hcore2.cacheNodup, ?_,
                  hcore2.inflightNodup, hcore2.promIff, ?_, hcore2.inflightNotCached,
                  hcore2.noProc⟩
                · show ((⟨u, true, (isCachedVid u st).2.nextSeq⟩ ::
                    (isCachedVid u st).2.preloadQueue).map QItem.url).Nodup
                  rw [List.map_cons, List.nodup_cons]
                  exact ⟨hnq, hcore2.queueNodup⟩
                · intro v hv
                  show v ∉ (⟨u, true, (isCachedVid u st).2.nextSeq⟩ ::
                    (isCachedVid u st).2.preloadQueue).map QItem.url
                  rw [List.map_cons, List.mem_cons]
                  rintro (hv2 | hv2)
                  · rw [hv2] at hv
                    exact hnin hv
                  · exact hcore2.inflightNotQueued v hv hv2
              exact processQueueVid_pres hcoreE
            · rw [if_neg hhi2]
              have hcoreE : VInvCore { (isCachedVid u st).2 with
                  preloadQueue := (isCachedVid u st).2.preloadQueue ++
                    [⟨u, false, (isCachedVid u st).2.nextSeq⟩]
                  nextSeq := (isCachedVid u st).2.nextSeq + 1 } := by
                refine ⟨hcore2.sizeEq, hcore2.cacheNodup, ?_,
                  hcore2.inflightNodup, hcore2.promIff, ?_, hcore2.inflightNotCached,
                  hcore2.noProc⟩
                · show (((isCachedVid u st).2.preloadQueue ++
                    [(⟨u, false, (isCachedVid u st).2.nextSeq⟩ : QItem)]).map QItem.url).Nodup
                  rw [List.map_append, List.nodup_append]
                  refine ⟨hcore2.queueNodup, by simp, ?_⟩
                  intro a ha hb
                  simp only [List.map_cons, List.map_nil, List.mem_singleton] at hb
                  rw [hb] at ha
                  exact hnq ha
                · intro v hv
                  show v ∉ ((isCachedVid u st).2.preloadQueue ++
                    [(⟨u, false, (isCachedVid u st).2.nextSeq⟩ : QItem)]).map QItem.url
                  rw [List.map_append, List.mem_append]
                  rintro (hv2 | hv2)
                  · exact hcore2.inflightNotQueued v hv hv2
                  · simp only [List.map_cons, List.map_nil, List.mem_singleton] at hv2
                    rw [hv2] at hv
                    exact hnin hv
              exact processQueueVid_pres hcoreE

/-- The `finally` block of `loadVideo`'s continuation preserves the core
invariant, given the in-flight decomposition at the completed fetch. -/
theorem vinvcore_finally (stB : VideoState)
    {u : String} {q : Nat × String → Bool} (l1 l2 : List (Nat × String))
    (hmap : stB.inflight.map Prod.snd = l1.map Prod.snd ++ u :: l2.map Prod.snd)
    (herase : stB.inflight.eraseP q = l1 ++ l2)
    (hsize : stB.currentCacheSize = vidSum stB.cache)
    (hcn : (stB.cache.map Prod.fst).Nodup)
    (hqn : (stB.preloadQueue.map QItem.url).Nodup)
    (hind : (stB.inflight.map Prod.snd).Nodup)
    (hpi : ∀ v, (mapGet stB.loadPromises v).isSome ↔ v ∈ stB.inflight.map Prod.snd)
    (hinq : ∀ v ∈ stB.inflight.map Prod.snd, v ∉ stB.preloadQueue.map QItem.url)
    (hinc : ∀ v ∈ stB.inflight.map Prod.snd, v ≠ u → v ∉ stB.cache.map Prod.fst)
    (hproc : stB.isProcessing = false) :
    VInvCore { stB with
      activeLoads := stB.activeLoads - 1
      loadPromises := mapDelete stB.loadPromises u
      inflight := stB.inflight.eraseP q } := by
  have hnd := hind
  rw [hmap] at hnd
  have hu1 : u ∉ l1.map Prod.snd := by
    have hdisj := (List.nodup_append.1 hnd).2.2
    intro hin
    exact hdisj hin (List.mem_cons_self _ _)
  have hu2 : u ∉ l2.map Prod.snd :=
    (List.nodup_cons.1 (List.nodup_append.1 hnd).2.1).1
  have hmap2 : (stB.inflight.eraseP q).map Prod.snd
      = l1.map Prod.snd ++ l2.map Prod.snd := by
    rw [herase]
    simp
  have hmemIff : ∀ v, v ≠ u → (v ∈ (stB.inflight.eraseP q).map Prod.snd ↔
      v ∈ stB.inflight.map Prod.snd) := by
    intro v hvne
    rw [hmap2, hmap, List.mem_append, List.mem_append, List.mem_cons]
    constructor
    · rintro (h1 | h1)
      · exact Or.inl h1
      · exact Or.inr (Or.inr h1)
    · rintro (h1 | h1 | h1)
      · exact Or.inl h1
      · exact absurd h1 hvne
      · exact Or.inr h1
  have hunot : u ∉ (stB.inflight.eraseP q).map Prod.snd := by
    rw [hmap2, List.mem_append]
    rintro (h1 | h1)
    · exact hu1 h1
    · exact hu2 h1
  have hsub : (stB.inflight.eraseP q).map Prod.snd ⊆ stB.inflight.map Prod.snd := by
    intro v hv
    exact List.Sublist.mem hv (List.Sublist.map _ (List.eraseP_sublist _))
  refine ⟨hsize, hcn, hqn, ?_, ?_, ?_, ?_, hproc⟩
  · rw [hmap2]
    have hsubl : (l1.map Prod.snd ++ l2.map Prod.snd).Sublist
        (l1.map Prod.snd ++ u :: l2.map Prod.snd) :=
      List.Sublist.append (List.Sublist.refl _) (List.Sublist.cons _ (List.Sublist.refl _))
    exact List.Nodup.sublist hsubl hnd
  · intro v
    by_cases hv : v = u
    · subst hv
      rw [mapGet_mapDelete_self]
      simp only [Option.isSome_none]
      constructor
      · intro hfalse
        exact absurd hfalse (by simp)
      · intro hmem
        exact absurd hmem hunot
    · rw [mapGet_mapDelete_ne _ hv, hmemIff v hv]
      exact hpi v
  · intro v hv
    exact hinq v (hsub hv)
  · intro v hv
    have hvne : v ≠ u := by
      intro he
      rw [he] at hv
      exact hunot hv
    exact hinc v (hsub hv) hvne

theorem completeVid_pres (id : Nat) (res : Option Nat) {st : VideoState} (h : VInv st) :
    VInv (completeVid id res st).2 := by
  unfold completeVid
  cases hf : st.inflight.find? (fun p => p.1 == id) with
  | none => exact h
  | some fl =>
    dsimp only
    obtain ⟨l1, l2, hdec, _, _, herase⟩ := find?_eraseP_decomp _ st.inflight fl hf
    have hmapdec : st.inflight.map Prod.snd
        = l1.map Prod.snd ++ fl.2 :: l2.map Prod.snd := by
      rw [hdec]
      simp
    have hu_mem : fl.2 ∈ st.inflight.map Prod.snd := by
      rw [hmapdec, List.mem_append]
      exact Or.inr (List.mem_cons_self _ _)
    cases res with
    | none =>
      dsimp only
      refine processQueueVid_pres (vinvcore_finally st l1 l2 hmapdec herase h.sizeEq h.cacheNodup
        h.queueNodup h.inflightNodup h.promIff h.inflightNotQueued ?_ h.noProc)
      intro v hv _
      exact h.inflightNotCached v hv
    | some size =>
      dsimp only
      have hst1 : VInvCore (ensureSpace size st) := vinvcore_ensureSpace size h.toVInvCore
      have hinfl1 : (ensureSpace size st).inflight = st.inflight :=
        ensureSpaceAux_inflight _ size st
      have hq1 : (ensureSpace size st).preloadQueue = st.preloadQueue :=
        ensureSpaceAux_queue _ size st
      have hpr1 : (ensureSpace size st).loadPromises = st.loadPromises :=
        ensureSpaceAux_promises _ size st
      have hproc1 : (ensureSpace size st).isProcessing = false :=
        (ensureSpaceAux_isProcessing st.cache.length size st).trans h.noProc
      have hnc1 : fl.2 ∉ (ensureSpace size st).cache.map Prod.fst := by
        intro hmem
        exact h.inflightNotCached fl.2 hu_mem
          (List.Sublist.mem hmem
            (List.Sublist.map _ (ensureSpaceAux_cache_sublist _ size st)))
      have hgnone : mapGet (ensureSpace size st).cache fl.2 = none :=
        (mapGet_eq_none_iff _ _).2 hnc1
      have hkeys : ((mapSet (ensureSpace size st).cache fl.2
          ⟨id, fl.2, (ensureSpace size st).now, size⟩).map Prod.fst)
          = (ensureSpace size st).cache.map Prod.fst ++ [fl.2] :=
        keys_mapSet_of_none hgnone _
      refine processQueueVid_pres (vinvcore_finally
        { ensureSpace size st with
          cache := mapSet (ensureSpace size st).cache fl.2
            ⟨id, fl.2, (ensureSpace size st).now, size⟩
          currentCacheSize := (ensureSpace size st).currentCacheSize + (size : Int) }
        l1 l2 ?_ ?_ ?_ ?_ ?_ ?_ ?_ ?_ ?_ ?_)
      · show (ensureSpace size st).inflight.map Prod.snd
          = l1.map Prod.snd ++ fl.2 :: l2.map Prod.snd
        rw [hinfl1]
        exact hmapdec
      · show (ensureSpace size st).inflight.eraseP (fun p => p.1 == id) = l1 ++ l2
        rw [hinfl1]
        exact herase
      · show (ensureSpace size st).currentCacheSize + (size : Int)
          = vidSum (mapSet (ensureSpace size st).cache fl.2
            ⟨id, fl.2, (ensureSpace size st).now, size⟩)
        rw [vidSum_mapSet_fresh _ _ hgnone, hst1.sizeEq]
      · show ((mapSet (ensureSpace size st).cache fl.2
          ⟨id, fl.2, (ensureSpace size st).now, size⟩).map Prod.fst).Nodup
        rw [hkeys, List.nodup_append]
        refine ⟨hst1.cacheNodup, by simp, ?_⟩
        intro a ha hb
        simp only [List.map_cons, List.map_nil, List.mem_singleton] at hb
        rw [hb] at ha
        exact hnc1 ha
      · show ((ensureSpace size st).preloadQueue.map QItem.url).Nodup
        rw [hq1]
        exact h.queueNodup
      · show ((ensureSpace size st).inflight.map Prod.snd).Nodup
        rw [hinfl1]
        exact h.inflightNodup
      · intro v
        show (mapGet (ensureSpace size st).loadPromises v).isSome
          ↔ v ∈ (ensureSpace size st).inflight.map Prod.snd
        rw [hinfl1, hpr1]
        exact h.promIff v
      · intro v hv
        have hv2 : v ∈ (ensureSpace size st).inflight.map Prod.snd := hv
        rw [hinfl1] at hv2
        show v ∉ (ensureSpace size st).preloadQueue.map QItem.url
        rw [hq1]
        exact h.inflightNotQueued v hv2
      · intro v hv hvne
        have hv2 : v ∈ (ensureSpace size st).inflight.map Prod.snd := hv
        rw [hinfl1] at hv2
        show v ∉ (mapSet (ensureSpace size st).cache fl.2
          ⟨id, fl.2, (ensureSpace size st).now, size⟩).map Prod.fst
        rw [hkeys, List.mem_append]
        rintro (h1 | h1)
        · exact h.inflightNotCached v hv2
            (List.Sublist.mem h1
              (List.Sublist.map _ (ensureSpaceAux_cache_sublist _ size st)))
        · simp only [List.map_cons, List.map_nil, List.mem_singleton] at h1
          exact hvne h1
      · show (ensureSpace size st).isProcessing = false
        exact hproc1

theorem prioritizeVid_pres (u : String) {st : VideoState} (h : VInv st) :
    VInv (prioritizeVid u st) := by
  unfold prioritizeVid
  dsimp only
  by_cases hc : (isCachedVid u st).1 = true
  · rw [if_pos hc]
    refine ⟨vinvcore_isCachedVid u h.toVInvCore, ?_⟩
    rw [isCachedVid_queue, isCachedVid_activeLoads]
    exact h.queueFull
  · rw [if_neg hc]
    have hc2 : VInvCore (isCachedVid u st).2 := vinvcore_isCachedVid u h.toVInvCore
    refine preloadVid_pres u true ⟨⟨hc2.sizeEq, hc2.cacheNodup, ?_, hc2.inflightNodup,
      hc2.promIff, ?_, hc2.inflightNotCached, hc2.noProc⟩, ?_⟩
    · exact List.Nodup.sublist (List.Sublist.map _ (List.eraseP_sublist _)) hc2.queueNodup
    · intro v hv hq
      exact hc2.inflightNotQueued v hv
        (List.Sublist.mem hq (List.Sublist.map _ (List.eraseP_sublist _)))
    · intro hne
      show ¬ ((isCachedVid u st).2.activeLoads < VID_MAX_CONCURRENT_LOADS)
      rw [isCachedVid_activeLoads]
      refine h.queueFull ?_
      intro hq0
      refine hne ?_
      show (isCachedVid u st).2.preloadQueue.eraseP (fun it => it.url == u) = []
      have : (isCachedVid u st).2.preloadQueue = [] := by
        rw [isCachedVid_queue]
        exact hq0
      rw [this]
      rfl

theorem vinv_foldl_removeFromCache (l : List String) :
    ∀ (st : VideoState), VInv st → VInv (l.foldl (fun s k => removeFromCache k s) st) := by
  induction l with
  | nil => intro _ h; exact h
  | cons k rest ih =>
    intro st h
    rw [List.foldl_cons]
    refine ih _ ⟨vinvcore_removeFromCache h.toVInvCore k, ?_⟩
    rw [removeFromCache_queue, removeFromCache_activeLoads]
    exact h.queueFull

theorem cleanupVid_pres {st : VideoState} (h : VInv st) : VInv (cleanupVid st) :=
  vinv_foldl_removeFromCache _ st h

theorem tick_pres (d : Nat) {st : VideoState} (h : VInv st) :
    VInv ({ st with now := st.now + (d : Int) } : VideoState) :=
  ⟨⟨h.sizeEq, h.cacheNodup, h.queueNodup, h.inflightNodup, h.promIff,
    h.inflightNotQueued, h.inflightNotCached, h.noProc⟩, h.queueFull⟩

theorem stepVid_pres {st : VideoState} (h : VInv st) (e : VidEvent)
    (hne : e ≠ VidEvent.clear) : VInv (stepVid st e) := by
  cases e with
  | preload u hi => exact preloadVid_pres u hi h
  | complete id res => exact completeVid_pres id res h
  | prioritize u => exact prioritizeVid_pres u h
  | isCachedQ u =>
    refine ⟨vinvcore_isCachedVid u h.toVInvCore, ?_⟩
    show (isCachedVid u st).2.preloadQueue ≠ [] →
      ¬ ((isCachedVid u st).2.activeLoads < VID_MAX_CONCURRENT_LOADS)
    rw [isCachedVid_queue, isCachedVid_activeLoads]
    exact h.queueFull
  | getUrl u => exact vinv_getCachedUrlVid u h
  | cleanup => exact cleanupVid_pres h
  | clear => exact absurd rfl hne
  | tick d => exact tick_pres d h

theorem vinv_run_aux : ∀ (evs : List VidEvent) (st : VideoState), VInv st →
    (∀ e ∈ evs, e ≠ VidEvent.clear) → VInv (evs.foldl stepVid st)
  | [], _, h, _ => h
  | e :: rest, st, h, hall =>
    vinv_run_aux rest _ (stepVid_pres h e (hall e (List.mem_cons_self _ _)))
      (fun x hx => hall x (List.mem_cons_of_mem _ hx))

/-- Every state reachable without `clear` satisfies the full invariant. -/
theorem vinv_run (evs : List VidEvent) (hnc : ∀ e ∈ evs, e ≠ VidEvent.clear) :
    VInv (runVid evs) :=
  vinv_run_aux evs initVid vinv_init hnc

-- ==================== Image scheduler lemmas ====================

theorem drainImg_act_le : ∀ (q : List String) (st : ImageState),
    st.activeLoads ≤ IMG_CONCURRENT_LOADS →
    (drainImg q st).activeLoads ≤ IMG_CONCURRENT_LOADS
  | [], _, h => h
  | u :: rest, st, h => by
    unfold drainImg
    by_cases hact : st.activeLoads < IMG_CONCURRENT_LOADS
    · rw [if_pos hact]
      by_cases hcond : u ≠ "" ∧ isLoadedImg { st with preloadQueue := rest } u = false
      · rw [if_pos hcond]
        refine drainImg_act_le rest _ ?_
        show st.activeLoads + 1 ≤ IMG_CONCURRENT_LOADS
        have h6 : IMG_CONCURRENT_LOADS = 6 := rfl
        rw [h6] at hact ⊢
        omega
      · rw [if_neg hcond]
        exact drainImg_act_le rest _ h
    · rw [if_neg hact]
      exact h

theorem processQueueImg_act_le {st : ImageState}
    (h : st.activeLoads ≤ IMG_CONCURRENT_LOADS) :
    (processQueueImg st).activeLoads ≤ IMG_CONCURRENT_LOADS := by
  unfold processQueueImg
  by_cases hp : st.isProcessing = true
  · rw [if_pos hp]
    exact h
  · rw [if_neg hp]
    exact drainImg_act_le st.preloadQueue st h

/-- An image-cache event that neither is a high-priority preload nor a
`prioritize` call (which preloads at high priority). -/
def ImgEvent.lowOnly : ImgEvent → Bool
  | .preload _ high => !high
  | .prioritize _ => false
  | _ => true

theorem preloadImg_low_act_le (u : String) {st : ImageState}
    (h : st.activeLoads ≤ IMG_CONCURRENT_LOADS) :
    (preloadImg u false st).2.activeLoads ≤ IMG_CONCURRENT_LOADS := by
  unfold preloadImg
  by_cases hu : u = ""
  · rw [if_pos hu]
    exact h
  · rw [if_neg hu]
    by_cases hl : isLoadedImg st u = true
    · rw [if_pos hl]
      exact h
    · rw [if_neg hl]
      cases hp : mapGet st.loadPromises u with
      | some pid => exact h
      | none =>
        dsimp only
        rw [if_neg (by simp)]
        by_cases hq : ({ st with
            cache := mapSet st.cache u ⟨false, true, false, st.now⟩ } :
            ImageState).preloadQueue.contains u
        · rw [if_pos hq]
          exact processQueueImg_act_le h
        · rw [if_neg hq]
          exact processQueueImg_act_le h

theorem completeImg_act_le (id : Nat) (ok : Bool) {st : ImageState}
    (h : st.activeLoads ≤ IMG_CONCURRENT_LOADS) :
    (completeImg id ok st).2.activeLoads ≤ IMG_CONCURRENT_LOADS := by
  unfold completeImg
  cases hf : st.inflight.find? (fun p => p.1 == id) with
  | none => exact h
  | some fl =>
    dsimp only
    refine processQueueImg_act_le ?_
    show st.activeLoads - 1 ≤ IMG_CONCURRENT_LOADS
    have h6 : IMG_CONCURRENT_LOADS = 6 := rfl
    rw [h6] at h ⊢
    omega

theorem stepImg_low_act_le {st : ImageState} (e : ImgEvent) (he : e.lowOnly = true)
    (h : st.activeLoads ≤ IMG_CONCURRENT_LOADS) :
    (stepImg st e).activeLoads ≤ IMG_CONCURRENT_LOADS := by
  cases e with
  | preload u high =>
    have hh : high = false := by
      cases high
      · rfl
      · simp [ImgEvent.lowOnly] at he
    rw [hh]
    exact preloadImg_low_act_le u h
  | complete id ok => exact completeImg_act_le id ok h
  | prioritize u => simp [ImgEvent.lowOnly] at he
  | cleanup => exact h
  | clear => exact h
  | tick d => exact h

theorem actImg_run_aux : ∀ (evs : List ImgEvent) (st : ImageState),
    st.activeLoads ≤ IMG_CONCURRENT_LOADS → (∀ e ∈ evs, e.lowOnly = true) →
    (evs.foldl stepImg st).activeLoads ≤ IMG_CONCURRENT_LOADS
  | [], _, h, _ => h
  | e :: rest, st, h, hall =>
    actImg_run_aux rest _ (stepImg_low_act_le e (hall e (List.mem_cons_self _ _)) h)
      (fun x hx => hall x (List.mem_cons_of_mem _ hx))

-- ==================== Video concurrency bound (all traces) ====================

theorem drainVid_act_le : ∀ (q : List QItem) (st : VideoState),
    st.activeLoads ≤ VID_MAX_CONCURRENT_LOADS →
    (drainVid q st).activeLoads ≤ VID_MAX_CONCURRENT_LOADS
  | [], _, h => h
  | it :: rest, st, h => by
    unfold drainVid
    by_cases hact : st.activeLoads < VID_MAX_CONCURRENT_LOADS
    · rw [if_pos hact]
      dsimp only
      by_cases hcc : (isCachedVid it.url { st with preloadQueue := rest }).1 = true
      · rw [if_pos hcc]
        refine drainVid_act_le rest _ ?_
        rw [isCachedVid_activeLoads]
        exact h
      · rw [if_neg hcc]
        refine drainVid_act_le rest _ ?_
        show (isCachedVid it.url { st with preloadQueue := rest }).2.activeLoads + 1
          ≤ VID_MAX_CONCURRENT_LOADS
        rw [isCachedVid_activeLoads]
        show st.activeLoads + 1 ≤ VID_MAX_CONCURRENT_LOADS
        have h2 : VID_MAX_CONCURRENT_LOADS = 2 := rfl
        rw [h2] at hact ⊢
        omega
    · rw [if_neg hact]
      exact h

theorem processQueueVid_act_le {st : VideoState}
    (h : st.activeLoads ≤ VID_MAX_CONCURRENT_LOADS) :
    (processQueueVid st).activeLoads ≤ VID_MAX_CONCURRENT_LOADS := by
  unfold processQueueVid
  by_cases hp : st.isProcessing = true
  · rw [if_pos hp]
    exact h
  · rw [if_neg hp]
    exact drainVid_act_le st.preloadQueue st h

theorem preloadVid_act_le (u : String) (hi : Bool) {st : VideoState}
    (h : st.activeLoads ≤ VID_MAX_CONCURRENT_LOADS) :
    (preloadVid u hi st).2.activeLoads ≤ VID_MAX_CONCURRENT_LOADS := by
  unfold preloadVid
  by_cases hu : u = ""
  · rw [if_pos hu]
    exact h
  · rw [if_neg hu]
    dsimp only
    have hc2 : (isCachedVid u st).2.activeLoads ≤ VID_MAX_CONCURRENT_LOADS := by
      rw [isCachedVid_activeLoads]
      exact h
    by_cases hc : (isCachedVid u st).1 = true
    · rw [if_pos hc]
      dsimp only
      unfold getCachedUrlVid
      cases mapGet (isCachedVid u st).2.cache u with
      | none => exact hc2
      | some c => exact hc2
    · rw [if_neg hc]
      cases hp : mapGet (isCachedVid u st).2.loadPromises u with
      | some pid => exact hc2
      | none =>
        dsimp only
        by_cases hhigh : hi = true ∧
            (isCachedVid u st).2.activeLoads < VID_MAX_CONCURRENT_LOADS
        · rw [if_pos hhigh]
          show (isCachedVid u st).2.activeLoads + 1 ≤ VID_MAX_CONCURRENT_LOADS
          have h2 : VID_MAX_CONCURRENT_LOADS = 2 := rfl
          have := hhigh.2
          rw [h2] at this ⊢
          omega
        · rw [if_neg hhigh]
          by_cases hfound : (((isCachedVid u st).2.preloadQueue.find?
              (fun it => it.url == u)).isSome) = true
          · rw [if_pos hfound]
            exact processQueueVid_act_le hc2
          · rw [if_neg hfound]
            by_cases hhi2 : hi = true
            · rw [if_pos hhi2]
              exact processQueueVid_act_le hc2
            · rw [if_neg hhi2]
              exact processQueueVid_act_le hc2

theorem completeVid_act_le (id : Nat) (res : Option Nat) {st : VideoState}
    (h : st.activeLoads ≤ VID_MAX_CONCURRENT_LOADS) :
    (completeVid id res st).2.activeLoads ≤ VID_MAX_CONCURRENT_LOADS := by
  unfold completeVid
  cases hf : st.inflight.find? (fun p => p.1 == id) with
  | none => exact h
  | some fl =>
    dsimp only
    cases res with
    | none =>
      dsimp only
      refine processQueueVid_act_le ?_
      show st.activeLoads - 1 ≤ VID_MAX_CONCURRENT_LOADS
      have h2 : VID_MAX_CONCURRENT_LOADS = 2 := rfl
      rw [h2] at h ⊢
      omega
    | some size =>
      dsimp only
      refine processQueueVid_act_le ?_
      show (ensureSpace size st).activeLoads - 1 ≤ VID_MAX_CONCURRENT_LOADS
      have hact := ensureSpaceAux_activeLoads st.cache.length size st
      have h2 : VID_MAX_CONCURRENT_LOADS = 2 := rfl
      rw [show (ensureSpace size st).activeLoads
        = (ensureSpaceAux st.cache.length size st).1.activeLoads from rfl, hact]
      rw [h2] at h ⊢
      omega

theorem prioritizeVid_act_le (u : String) {st : VideoState}
    (h : st.activeLoads ≤ VID_MAX_CONCURRENT_LOADS) :
    (prioritizeVid u st).activeLoads ≤ VID_MAX_CONCURRENT_LOADS := by
  unfold prioritizeVid
  dsimp only
  have hc2 : (isCachedVid u st).2.activeLoads ≤ VID_MAX_CONCURRENT_LOADS := by
    rw [isCachedVid_activeLoads]
    exact h
  by_cases hc : (isCachedVid u st).1 = true
  · rw [if_pos hc]
    exact hc2
  · rw [if_neg hc]
    exact preloadVid_act_le u true hc2

theorem foldl_removeFromCache_act (l : List String) :
    ∀ (st : VideoState),
    (l.foldl (fun s k => removeFromCache k s) st).activeLoads = st.activeLoads := by
  induction l with
  | nil => intro _; rfl
  | cons k rest ih =>
    intro st
    rw [List.foldl_cons, ih, removeFromCache_activeLoads]

theorem stepVid_act_le {st : VideoState} (e : VidEvent)
    (h : st.activeLoads ≤ VID_MAX_CONCURRENT_LOADS) :
    (stepVid st e).activeLoads ≤ VID_MAX_CONCURRENT_LOADS := by
  cases e with
  | preload u hi => exact preloadVid_act_le u hi h
  | complete id res => exact completeVid_act_le id res h
  | prioritize u => exact prioritizeVid_act_le u h
  | isCachedQ u =>
    show (isCachedVid u st).2.activeLoads ≤ VID_MAX_CONCURRENT_LOADS
    rw [isCachedVid_activeLoads]
    exact h
  | getUrl u =>
    show (getCachedUrlVid u st).2.activeLoads ≤ VID_MAX_CONCURRENT_LOADS
    unfold getCachedUrlVid
    cases mapGet st.cache u with
    | none => exact h
    | some c => exact h
  | cleanup =>
    show (cleanupVid st).activeLoads ≤ VID_MAX_CONCURRENT_LOADS
    unfold cleanupVid
    rw [foldl_removeFromCache_act]
    exact h
  | clear => exact h
  | tick d => exact h

theorem actVid_run_aux : ∀ (evs : List VidEvent) (st : VideoState),
    st.activeLoads ≤ VID_MAX_CONCURRENT_LOADS →
    (evs.foldl stepVid st).activeLoads ≤ VID_MAX_CONCURRENT_LOADS
  | [], _, h => h
  | e :: rest, st, h => actVid_run_aux rest _ (stepVid_act_le e h)

-- ==================== Video queue ordering invariant ====================

/-- Ordering relation maintained between any two queue nodes `a` before `b`:
no Low ever precedes a High; Lows keep ascending enqueue order (FIFO); Highs
keep descending enqueue order (LIFO, because `unshift` puts the newest High
at the front). -/
def qRel (a b : QItem) : Prop :=
  (b.high = true → a.high = true) ∧
  (a.high = false → b.high = false → a.seq < b.seq) ∧
  (a.high = true → b.high = true → b.seq < a.seq)

/-- Queue-ordering invariant of the video cache. -/
structure QInv (st : VideoState) : Prop where
  ordered : st.preloadQueue.Pairwise qRel
  seqLt : ∀ it ∈ st.preloadQueue, it.seq < st.nextSeq

theorem getCachedUrlVid_queue (u : String) (st : VideoState) :
    (getCachedUrlVid u st).2.preloadQueue = st.preloadQueue := by
  unfold getCachedUrlVid
  cases mapGet st.cache u <;> rfl

theorem getCachedUrlVid_nextSeq (u : String) (st : VideoState) :
    (getCachedUrlVid u st).2.nextSeq = st.nextSeq := by
  unfold getCachedUrlVid
  cases mapGet st.cache u <;> rfl

theorem foldl_removeFromCache_queue (l : List String) :
    ∀ (st : VideoState),
    (l.foldl (fun s k => removeFromCache k s) st).preloadQueue = st.preloadQueue := by
  induction l with
  | nil => intro _; rfl
  | cons k rest ih =>
    intro st
    rw [List.foldl_cons, ih, removeFromCache_queue]

theorem foldl_removeFromCache_nextSeq (l : List String) :
    ∀ (st : VideoState),
    (l.foldl (fun s k => removeFromCache k s) st).nextSeq = st.nextSeq := by
  induction l with
  | nil => intro _; rfl
  | cons k rest ih =>
    intro st
    rw [List.foldl_cons, ih, removeFromCache_nextSeq]

theorem drainVid_qinv : ∀ (q : List QItem) (st : VideoState), st.preloadQueue = q →
    q.Pairwise qRel → (∀ it ∈ q, it.seq < st.nextSeq) → QInv (drainVid q st)
  | [], _, _, _, _ => by
    unfold drainVid
    exact ⟨List.Pairwise.nil, by simp⟩
  | it :: rest, st, hq, hord, hseq => by
    unfold drainVid
    by_cases hact : st.activeLoads < VID_MAX_CONCURRENT_LOADS
    · rw [if_pos hact]
      dsimp only
      have hord2 : rest.Pairwise qRel := (List.pairwise_cons.1 hord).2
      have hseq2 : ∀ j ∈ rest, j.seq
          < (isCachedVid it.url { st with preloadQueue := rest }).2.nextSeq := by
        rw [isCachedVid_nextSeq]
        intro j hj
        exact hseq j (List.mem_cons_of_mem _ hj)
      have hq2 : (isCachedVid it.url { st with preloadQueue := rest }).2.preloadQueue
          = rest := isCachedVid_queue it.url _
      by_cases hcc : (isCachedVid it.url { st with preloadQueue := rest }).1 = true
      · rw [if_pos hcc]
        exact drainVid_qinv rest _ hq2 hord2 hseq2
      · rw [if_neg hcc]
        exact drainVid_qinv rest _ hq2 hord2 hseq2
    · rw [if_neg hact]
      exact ⟨hord, hseq⟩

theorem processQueueVid_qinv {st : VideoState} (h : QInv st) :
    QInv (processQueueVid st) := by
  unfold processQueueVid
  by_cases hp : st.isProcessing = true
  · rw [if_pos hp]
    exact h
  · rw [if_neg hp]
    exact drainVid_qinv st.preloadQueue st rfl h.ordered h.seqLt

theorem qinv_isCachedVid (u : String) {st : VideoState} (h : QInv st) :
    QInv (isCachedVid u st).2 := by
  refine ⟨?_, ?_⟩
  · rw [isCachedVid_queue]
    exact h.ordered
  · intro it hit
    rw [isCachedVid_nextSeq]
    rw [isCachedVid_queue] at hit
    exact h.seqLt it hit

theorem preloadVid_qinv (u : String) (hi : Bool) {st : VideoState} (h : QInv st) :
    QInv (preloadVid u hi st).2 := by
  unfold preloadVid
  by_cases hu : u = ""
  · rw [if_pos hu]
    exact h
  · rw [if_neg hu]
    dsimp only
    have hc2 : QInv (isCachedVid u st).2 := qinv_isCachedVid u h
    by_cases hc : (isCachedVid u st).1 = true
    · rw [if_pos hc]
      dsimp only
      refine ⟨?_, ?_⟩
      · rw [getCachedUrlVid_queue]
        exact hc2.ordered
      · intro it hit
        rw [getCachedUrlVid_nextSeq]
        rw [getCachedUrlVid_queue] at hit
        exact hc2.seqLt it hit
    · rw [if_neg hc]
      cases hp : mapGet (isCachedVid u st).2.loadPromises u with
      | some pid =>
        dsimp only
        exact hc2
      | none =>
        dsimp only
        by_cases hhigh : hi = true ∧
            (isCachedVid u st).2.activeLoads < VID_MAX_CONCURRENT_LOADS
        · rw [if_pos hhigh]
          exact ⟨hc2.ordered, hc2.seqLt⟩
        · rw [if_neg hhigh]
          by_cases hfound : (((isCachedVid u st).2.preloadQueue.find?
              (fun it => it.url == u)).isSome) = true
          · rw [if_pos hfound]
            exact processQueueVid_qinv hc2
          · rw [if_neg hfound]
            by_cases hhi2 : hi = true
            · rw [if_pos hhi2]
              refine processQueueVid_qinv ⟨?_, ?_⟩
              · show ((⟨u, true, (isCachedVid u st).2.nextSeq⟩ : QItem) ::
                  (isCachedVid u st).2.preloadQueue).Pairwise qRel
                rw [List.pairwise_cons]
                refine ⟨?_, hc2.ordered⟩
                intro b hb
                refine ⟨fun _ => rfl, ?_, ?_⟩
                · intro hfalse
                  simp at hfalse
                · intro _ hbh
                  exact hc2.seqLt b hb
              · intro it hit
                show it.seq < (isCachedVid u st).2.nextSeq + 1
                rcases List.mem_cons.1 hit with h1 | h1
                · rw [h1]
                  show (isCachedVid u st).2.nextSeq < (isCachedVid u st).2.nextSeq + 1
                  omega
                · have := hc2.seqLt it h1
                  omega
            · rw [if_neg hhi2]
              refine processQueueVid_qinv ⟨?_, ?_⟩
              · show ((isCachedVid u st).2.preloadQueue ++
                  [(⟨u, false, (isCachedVid u st).2.nextSeq⟩ : QItem)]).Pairwise qRel
                rw [List.pairwise_append]
                refine ⟨hc2.ordered, by simp [qRel], ?_⟩
                intro a ha b hb
                simp only [List.mem_singleton] at hb
                refine ⟨?_, ?_, ?_⟩
                · intro hbh
                  rw [hb] at hbh
                  simp at hbh
                · intro _ _
                  rw [hb]
                  exact hc2.seqLt a ha
                · intro _ hbh
                  rw [hb] at hbh
                  simp at hbh
              · intro it hit
                show it.seq < (isCachedVid u st).2.nextSeq + 1
                rcases List.mem_append.1 hit with h1 | h1
                · have := hc2.seqLt it h1
                  omega
                · simp only [List.mem_singleton] at h1
                  rw [h1]
                  show (isCachedVid u st).2.nextSeq < (isCachedVid u st).2.nextSeq + 1
                  omega

theorem completeVid_qinv (id : Nat) (res : Option Nat) {st : VideoState} (h : QInv st) :
    QInv (completeVid id res st).2 := by
  unfold completeVid
  cases hf : st.inflight.find? (fun p => p.1 == id) with
  | none => exact h
  | some fl =>
    dsimp only
    cases res with
    | none =>
      dsimp only
      exact processQueueVid_qinv ⟨h.ordered, h.seqLt⟩
    | some size =>
      dsimp only
      refine processQueueVid_qinv ⟨?_, ?_⟩
      · show (ensureSpace size st).preloadQueue.Pairwise qRel
        rw [show (ensureSpace size st).preloadQueue
          = (ensureSpaceAux st.cache.length size st).1.preloadQueue from rfl,
          ensureSpaceAux_queue]
        exact h.ordered
      · intro it hit
        show it.seq < (ensureSpace size st).nextSeq
        have hq := ensureSpaceAux_queue st.cache.length size st
        have hs := ensureSpaceAux_nextSeq st.cache.length size st
        rw [show (ensureSpace size st).nextSeq
          = (ensureSpaceAux st.cache.length size st).1.nextSeq from rfl, hs]
        have hit2 : it ∈ (ensureSpace size st).preloadQueue := hit
        rw [show (ensureSpace size st).preloadQueue
          = (ensureSpaceAux st.cache.length size st).1.preloadQueue from rfl, hq] at hit2
        exact h.seqLt it hit2

theorem prioritizeVid_qinv (u : String) {st : VideoState} (h : QInv st) :
    QInv (prioritizeVid u st) := by
  unfold prioritizeVid
  dsimp only
  have hc2 : QInv (isCachedVid u st).2 := qinv_isCachedVid u h
  by_cases hc : (isCachedVid u st).1 = true
  · rw [if_pos hc]
    exact hc2
  · rw [if_neg hc]
    refine preloadVid_qinv u true ⟨?_, ?_⟩
    · exact List.Pairwise.sublist (List.eraseP_sublist _) hc2.ordered
    · intro it hit
      exact hc2.seqLt it (List.Sublist.mem hit (List.eraseP_sublist _))

theorem stepVid_qinv {st : VideoState} (e : VidEvent) (h : QInv st) :
    QInv (stepVid st e) := by
  cases e with
  | preload u hi => exact preloadVid_qinv u hi h
  | complete id res => exact completeVid_qinv id res h
  | prioritize u => exact prioritizeVid_qinv u h
  | isCachedQ u => exact qinv_isCachedVid u h
  | getUrl u =>
    refine ⟨?_, ?_⟩
    · show (getCachedUrlVid u st).2.preloadQueue.Pairwise qRel
      rw [getCachedUrlVid_queue]
      exact h.ordered
    · intro it hit
      show it.seq < (getCachedUrlVid u st).2.nextSeq
      rw [getCachedUrlVid_nextSeq]
      have hit2 : it ∈ (getCachedUrlVid u st).2.preloadQueue := hit
      rw [getCachedUrlVid_queue] at hit2
      exact h.seqLt it hit2
  | cleanup =>
    refine ⟨?_, ?_⟩
    · show ((cleanupVidKeys st).foldl
        (fun s k => removeFromCache k s) st).preloadQueue.Pairwise qRel
      rw [foldl_removeFromCache_queue]
      exact h.ordered
    · intro it hit
      have hit2 : it ∈ ((cleanupVidKeys st).foldl
          (fun s k => removeFromCache k s) st).preloadQueue := hit
      rw [foldl_removeFromCache_queue] at hit2
      show it.seq < ((cleanupVidKeys st).foldl
        (fun s k => removeFromCache k s) st).nextSeq
      rw [foldl_removeFromCache_nextSeq]
      exact h.seqLt it hit2
  | clear =>
    exact ⟨List.Pairwise.nil, fun it hit => absurd hit (by simp [stepVid, clearVid])⟩
  | tick d => exact ⟨h.ordered, h.seqLt⟩

theorem qinv_run_aux : ∀ (evs : List VidEvent) (st : VideoState), QInv st →
    QInv (evs.foldl stepVid st)
  | [], _, h => h
  | e :: rest, st, h => qinv_run_aux rest _ (stepVid_qinv e h)

theorem qinv_run (evs : List VidEvent) : QInv (runVid evs) :=
  qinv_run_aux evs initVid ⟨List.Pairwise.nil, by simp [initVid]⟩

/-- With the queue invariant, the front of a queue containing any High node
is itself High. -/
theorem qinv_front_high {q : List QItem} (h : q.Pairwise qRel)
    {it : QItem} {rest : List QItem} (hq : q = it :: rest)
    (hex : ∃ j ∈ q, j.high = true) : it.high = true := by
  obtain ⟨j, hj, hjh⟩ := hex
  rw [hq] at hj h
  rcases List.mem_cons.1 hj with h1 | h1
  · rw [← h1]
    exact hjh
  · exact ((List.pairwise_cons.1 h).1 j h1).1 hjh

-- no-cancellation: started fetches are never removed by new requests

theorem drainVid_inflight_sublist : ∀ (q : List QItem) (st : VideoState),
    st.inflight.Sublist (drainVid q st).inflight
  | [], st => by
    unfold drainVid
    exact List.Sublist.refl _
  | it :: rest, st => by
    unfold drainVid
    by_cases hact : st.activeLoads < VID_MAX_CONCURRENT_LOADS
    · rw [if_pos hact]
      dsimp only
      by_cases hcc : (isCachedVid it.url { st with preloadQueue := rest }).1 = true
      · rw [if_pos hcc]
        have h1 := drainVid_inflight_sublist rest
          (isCachedVid it.url { st with preloadQueue := rest }).2
        rw [isCachedVid_inflight] at h1
        exact h1
      · rw [if_neg hcc]
        have h1 := drainVid_inflight_sublist rest
          (loadVideo it.url (isCachedVid it.url { st with preloadQueue := rest }).2)
        refine List.Sublist.trans ?_ h1
        show st.inflight.Sublist
          ((isCachedVid it.url { st with preloadQueue := rest }).2.inflight ++ _)
        rw [isCachedVid_inflight]
        exact List.sublist_append_left _ _
    · rw [if_neg hact]

theorem processQueueVid_inflight_sublist (st : VideoState) :
    st.inflight.Sublist (processQueueVid st).inflight := by
  unfold processQueueVid
  by_cases hp : st.isProcessing = true
  · rw [if_pos hp]
  · rw [if_neg hp]
    exact drainVid_inflight_sublist st.preloadQueue st

theorem preloadVid_inflight_sublist (u : String) (hi : Bool) (st : VideoState) :
    st.inflight.Sublist (preloadVid u hi st).2.inflight := by
  unfold preloadVid
  by_cases hu : u = ""
  · rw [if_pos hu]
  · rw [if_neg hu]
    dsimp only
    have hinfl : (isCachedVid u st).2.inflight = st.inflight := isCachedVid_inflight u st
    by_cases hc : (isCachedVid u st).1 = true
    · rw [if_pos hc]
      dsimp only
      unfold getCachedUrlVid
      cases mapGet (isCachedVid u st).2.cache u with
      | none =>
        rw [← hinfl]
      | some c =>
        rw [← hinfl]
    · rw [if_neg hc]
      cases hp : mapGet (isCachedVid u st).2.loadPromises u with
      | some pid =>
        rw [← hinfl]
      | none =>
        dsimp only
        by_cases hhigh : hi = true ∧
            (isCachedVid u st).2.activeLoads < VID_MAX_CONCURRENT_LOADS
        · rw [if_pos hhigh]
          show st.inflight.Sublist ((isCachedVid u st).2.inflight ++ _)
          rw [hinfl]
          exact List.sublist_append_left _ _
        · rw [if_neg hhigh]
          by_cases hfound : (((isCachedVid u st).2.preloadQueue.find?
              (fun it => it.url == u)).isSome) = true
          · rw [if_pos hfound]
            have h1 := processQueueVid_inflight_sublist (isCachedVid u st).2
            rw [hinfl] at h1
            exact h1
          · rw [if_neg hfound]
            by_cases hhi2 : hi = true
            · rw [if_pos hhi2]
              have h1 := processQueueVid_inflight_sublist
                { (isCachedVid u st).2 with
                  preloadQueue := ⟨u, true, (isCachedVid u st).2.nextSeq⟩ ::
                    (isCachedVid u st).2.preloadQueue
                  nextSeq := (isCachedVid u st).2.nextSeq + 1 }
              rw [show ({ (isCachedVid u st).2 with
                  preloadQueue := ⟨u, true, (isCachedVid u st).2.nextSeq⟩ ::
                    (isCachedVid u st).2.preloadQueue
                  nextSeq := (isCachedVid u st).2.nextSeq + 1 } :
                    VideoState).inflight = st.inflight from hinfl] at h1
              exact h1
            · rw [if_neg hhi2]
              have h1 := processQueueVid_inflight_sublist
                { (isCachedVid u st).2 with
                  preloadQueue := (isCachedVid u st).2.preloadQueue ++
                    [(⟨u, false, (isCachedVid u st).2.nextSeq⟩ : QItem)]
                  nextSeq := (isCachedVid u st).2.nextSeq + 1 }
              rw [show ({ (isCachedVid u st).2 with
                  preloadQueue := (isCachedVid u st).2.preloadQueue ++
                    [(⟨u, false, (isCachedVid u st).2.nextSeq⟩ : QItem)]
                  nextSeq := (isCachedVid u st).2.nextSeq + 1 } :
                    VideoState).inflight = st.inflight from hinfl] at h1
              exact h1

theorem prioritizeVid_inflight_sublist (u : String) (st : VideoState) :
    st.inflight.Sublist (prioritizeVid u st).inflight := by
  unfold prioritizeVid
  dsimp only
  have hinfl : (isCachedVid u st).2.inflight = st.inflight := isCachedVid_inflight u st
  by_cases hc : (isCachedVid u st).1 = true
  · rw [if_pos hc, ← hinfl]
  · rw [if_neg hc]
    have h1 := preloadVid_inflight_sublist u true
      { (isCachedVid u st).2 with
        preloadQueue := (isCachedVid u st).2.preloadQueue.eraseP (fun it => it.url == u) }
    rw [show ({ (isCachedVid u st).2 with
        preloadQueue := (isCachedVid u st).2.preloadQueue.eraseP (fun it => it.url == u) } :
        VideoState).inflight = st.inflight from hinfl] at h1
    exact h1

-- ==================== Drain bookkeeping lemmas ====================

theorem drainImg_cache : ∀ (q : List String) (st : ImageState),
    (drainImg q st).cache = st.cache
  | [], _ => rfl
  | u :: rest, st => by
    unfold drainImg
    by_cases hact : st.activeLoads < IMG_CONCURRENT_LOADS
    · rw [if_pos hact]
      by_cases hcond : u ≠ "" ∧ isLoadedImg { st with preloadQueue := rest } u = false
      · rw [if_pos hcond]
        exact drainImg_cache rest _
      · rw [if_neg hcond]
        exact drainImg_cache rest _
    · rw [if_neg hact]

theorem drainImg_now : ∀ (q : List String) (st : ImageState),
    (drainImg q st).now = st.now
  | [], _ => rfl
  | u :: rest, st => by
    unfold drainImg
    by_cases hact : st.activeLoads < IMG_CONCURRENT_LOADS
    · rw [if_pos hact]
      by_cases hcond : u ≠ "" ∧ isLoadedImg { st with preloadQueue := rest } u = false
      · rw [if_pos hcond]
        exact drainImg_now rest _
      · rw [if_neg hcond]
        exact drainImg_now rest _
    · rw [if_neg hact]

theorem drainImg_promises_notin : ∀ (q : List String) (st : ImageState) {u : String},
    u ∉ q → mapGet (drainImg q st).loadPromises u = mapGet st.loadPromises u
  | [], _, _, _ => rfl
  | w :: rest, st, u, hu => by
    have hwu : u ≠ w := fun he => hu (by rw [he]; exact List.mem_cons_self _ _)
    have hrest : u ∉ rest := fun he => hu (List.mem_cons_of_mem _ he)
    unfold drainImg
    by_cases hact : st.activeLoads < IMG_CONCURRENT_LOADS
    · rw [if_pos hact]
      by_cases hcond : w ≠ "" ∧ isLoadedImg { st with preloadQueue := rest } w = false
      · rw [if_pos hcond]
        rw [drainImg_promises_notin rest _ hrest]
        show mapGet (mapSet st.loadPromises w st.nextId) u = mapGet st.loadPromises u
        exact mapGet_mapSet_ne _ _ hwu
      · rw [if_neg hcond]
        exact drainImg_promises_notin rest _ hrest
    · rw [if_neg hact]

theorem drainImg_inflight_notin : ∀ (q : List String) (st : ImageState) {u : String},
    u ∉ q → u ∉ st.inflight.map Prod.snd →
    u ∉ (drainImg q st).inflight.map Prod.snd
  | [], _, _, _, hin => hin
  | w :: rest, st, u, hu, hin => by
    have hwu : u ≠ w := fun he => hu (by rw [he]; exact List.mem_cons_self _ _)
    have hrest : u ∉ rest := fun he => hu (List.mem_cons_of_mem _ he)
    unfold drainImg
    by_cases hact : st.activeLoads < IMG_CONCURRENT_LOADS
    · rw [if_pos hact]
      by_cases hcond : w ≠ "" ∧ isLoadedImg { st with preloadQueue := rest } w = false
      · rw [if_pos hcond]
        refine drainImg_inflight_notin rest _ hrest ?_
        show u ∉ (st.inflight ++ [(st.nextId, w)]).map Prod.snd
        rw [List.map_append, List.mem_append]
        rintro (h1 | h1)
        · exact hin h1
        · simp only [List.map_cons, List.map_nil, List.mem_singleton] at h1
          exact hwu h1
      · rw [if_neg hcond]
        exact drainImg_inflight_notin rest _ hrest hin
    · rw [if_neg hact]
      exact hin

theorem drainImg_queue_notin : ∀ (q : List String) (st : ImageState) {u : String},
    u ∉ q → u ∉ (drainImg q st).preloadQueue
  | [], _, _, _ => by
    unfold drainImg
    simp
  | w :: rest, st, u, hu => by
    have hrest : u ∉ rest := fun he => hu (List.mem_cons_of_mem _ he)
    unfold drainImg
    by_cases hact : st.activeLoads < IMG_CONCURRENT_LOADS
    · rw [if_pos hact]
      by_cases hcond : w ≠ "" ∧ isLoadedImg { st with preloadQueue := rest } w = false
      · rw [if_pos hcond]
        exact drainImg_queue_notin rest _ hrest
      · rw [if_neg hcond]
        exact drainImg_queue_notin rest _ hrest
    · rw [if_neg hact]
      exact hu

theorem drainImg_at_capacity (q : List String) (st : ImageState)
    (h : ¬ (st.activeLoads < IMG_CONCURRENT_LOADS)) :
    drainImg q st = { st with preloadQueue := q } := by
  cases q with
  | nil => rfl
  | cons w rest =>
    unfold drainImg
    rw [if_neg h]

theorem drainVid_at_capacity (q : List QItem) (st : VideoState)
    (h : ¬ (st.activeLoads < VID_MAX_CONCURRENT_LOADS)) :
    drainVid q st = { st with preloadQueue := q } := by
  cases q with
  | nil => rfl
  | cons w rest =>
    unfold drainVid
    rw [if_neg h]

theorem removeFromCache_cache_none {st : VideoState} {u w : String}
    (h : mapGet st.cache u = none) :
    mapGet (removeFromCache w st).cache u = none := by
  unfold removeFromCache
  cases hg : mapGet st.cache w with
  | none => exact h
  | some c =>
    show mapGet (mapDelete st.cache w) u = none
    by_cases huw : u = w
    · rw [huw]
      exact mapGet_mapDelete_self _ _
    · rw [mapGet_mapDelete_ne _ huw]
      exact h

theorem isCachedVid_cache_none {st : VideoState} {u w : String}
    (h : mapGet st.cache u = none) :
    mapGet (isCachedVid w st).2.cache u = none := by
  rcases isCachedVid_snd w st with he | he
  · rw [he]
    exact h
  · rw [he]
    exact removeFromCache_cache_none h

theorem drainVid_cache_none : ∀ (q : List QItem) (st : VideoState) {u : String},
    mapGet st.cache u = none → mapGet (drainVid q st).cache u = none
  | [], _, _, h => h
  | it :: rest, st, u, h => by
    unfold drainVid
    by_cases hact : st.activeLoads < VID_MAX_CONCURRENT_LOADS
    · rw [if_pos hact]
      dsimp only
      by_cases hcc : (isCachedVid it.url { st with preloadQueue := rest }).1 = true
      · rw [if_pos hcc]
        exact drainVid_cache_none rest _ (isCachedVid_cache_none h)
      · rw [if_neg hcc]
        exact drainVid_cache_none rest _ (isCachedVid_cache_none h)
    · rw [if_neg hact]
      exact h

theorem drainVid_promises_notin : ∀ (q : List QItem) (st : VideoState) {u : String},
    u ∉ q.map QItem.url → mapGet (drainVid q st).loadPromises u = mapGet st.loadPromises u
  | [], _, _, _ => rfl
  | it :: rest, st, u, hu => by
    have hwu : u ≠ it.url := fun he => hu (by rw [he]; exact List.mem_map.2 ⟨it, List.mem_cons_self _ _, rfl⟩)
    have hrest : u ∉ rest.map QItem.url := by
      intro he
      obtain ⟨j, hj, hju⟩ := List.mem_map.1 he
      exact hu (List.mem_map.2 ⟨j, List.mem_cons_of_mem _ hj, hju⟩)
    unfold drainVid
    by_cases hact : st.activeLoads < VID_MAX_CONCURRENT_LOADS
    · rw [if_pos hact]
      dsimp only
      by_cases hcc : (isCachedVid it.url { st with preloadQueue := rest }).1 = true
      · rw [if_pos hcc]
        rw [drainVid_promises_notin rest _ hrest, isCachedVid_promises]
      · rw [if_neg hcc]
        rw [drainVid_promises_notin rest _ hrest]
        show mapGet (mapSet (isCachedVid it.url { st with preloadQueue := rest }).2.loadPromises
          it.url _) u = _
        rw [mapGet_mapSet_ne _ _ hwu, isCachedVid_promises]
    · rw [if_neg hact]

-- ==================== Preload dispatch characterizations ====================

theorem isCachedVid_none {st : VideoState} {u : String}
    (hc : mapGet st.cache u = none) : isCachedVid u st = (false, st) := by
  unfold isCachedVid
  rw [hc]

theorem isLoadedImg_false_of_get {st : ImageState} {u : String} {e : CachedImage}
    (h : mapGet st.cache u = some e) (hl : e.loaded = false) :
    isLoadedImg st u = false := by
  unfold isLoadedImg
  rw [h]
  exact hl

theorem preloadImg_attach {st : ImageState} {u : String} (hi : Bool) {pid : Nat}
    (hu : u ≠ "") (hl : isLoadedImg st u = false)
    (hp : mapGet st.loadPromises u = some pid) :
    preloadImg u hi st = (.attachedP pid, st) := by
  unfold preloadImg
  rw [if_neg hu, hl]
  simp only [Bool.false_eq_true, if_false]
  rw [hp]

theorem preloadImg_miss_high (st : ImageState) (u : String)
    (hu : u ≠ "") (hl : isLoadedImg st u = false)
    (hp : mapGet st.loadPromises u = none) :
    preloadImg u true st = (.attachedP st.nextId,
      loadImage u { st with cache := mapSet st.cache u ⟨false, true, false, st.now⟩ }) := by
  unfold preloadImg
  rw [if_neg hu, hl]
  simp only [Bool.false_eq_true, if_false]
  rw [hp]
  all_goals rfl

theorem preloadImg_miss_low_queue (st : ImageState) (u : String)
    (hu : u ≠ "") (hl : isLoadedImg st u = false)
    (hp : mapGet st.loadPromises u = none) (hq : st.preloadQueue.contains u = false) :
    preloadImg u false st = (.resolvedB false, processQueueImg
      { st with
        cache := mapSet st.cache u ⟨false, true, false, st.now⟩
        preloadQueue := st.preloadQueue ++ [u] }) := by
  unfold preloadImg
  rw [if_neg hu, hl]
  simp only [Bool.false_eq_true, if_false]
  rw [hp]
  all_goals dsimp only
  all_goals rw [hq]
  all_goals simp only [Bool.false_eq_true, if_false]
  all_goals rfl

theorem preloadImg_miss_low_fst (st : ImageState) (u : String)
    (hu : u ≠ "") (hl : isLoadedImg st u = false)
    (hp : mapGet st.loadPromises u = none) :
    (preloadImg u false st).1 = .resolvedB false := by
  unfold preloadImg
  rw [if_neg hu, hl]
  simp only [Bool.false_eq_true, if_false]
  rw [hp]
  all_goals dsimp only
  all_goals simp only [Bool.false_eq_true, if_false]
  all_goals rfl

theorem preloadVid_attach {st : VideoState} {u : String} (hi : Bool) {pid : Nat}
    (hu : u ≠ "") (hc : mapGet st.cache u = none)
    (hp : mapGet st.loadPromises u = some pid) :
    preloadVid u hi st = (.attachedP pid, st) := by
  unfold preloadVid
  rw [if_neg hu]
  dsimp only
  rw [isCachedVid_none hc]
  dsimp only
  simp only [Bool.false_eq_true, if_false]
  rw [hp]

theorem preloadVid_miss_high_cap (st : VideoState) (u : String)
    (hu : u ≠ "") (hc : mapGet st.cache u = none)
    (hp : mapGet st.loadPromises u = none)
    (hact : st.activeLoads < VID_MAX_CONCURRENT_LOADS) :
    preloadVid u true st = (.attachedP st.nextId, loadVideo u st) := by
  unfold preloadVid
  rw [if_neg hu]
  dsimp only
  rw [isCachedVid_none hc]
  dsimp only
  simp only [Bool.false_eq_true, if_false]
  rw [hp]
  all_goals dsimp only
  all_goals rw [if_pos ⟨trivial, hact⟩]

theorem preloadVid_miss_high_full (st : VideoState) (u : String)
    (hu : u ≠ "") (hc : mapGet st.cache u = none)
    (hp : mapGet st.loadPromises u = none)
    (hqf : (st.preloadQueue.find? (fun it => it.url == u)).isSome = false)
    (hact : ¬ (st.activeLoads < VID_MAX_CONCURRENT_LOADS)) :
    preloadVid u true st = (.resolvedU none, processQueueVid
      { st with
        preloadQueue := ⟨u, true, st.nextSeq⟩ :: st.preloadQueue
        nextSeq := st.nextSeq + 1 }) := by
  unfold preloadVid
  rw [if_neg hu]
  dsimp only
  rw [isCachedVid_none hc]
  dsimp only
  simp only [Bool.false_eq_true, if_false]
  rw [hp]
  all_goals dsimp only
  all_goals rw [if_neg (fun hh => hact hh.2)]
  all_goals rw [hqf]
  all_goals simp only [Bool.false_eq_true, if_false, if_true]
  all_goals rfl

theorem preloadVid_miss_low (st : VideoState) (u : String)
    (hu : u ≠ "") (hc : mapGet st.cache u = none)
    (hp : mapGet st.loadPromises u = none)
    (hqf : (st.preloadQueue.find? (fun it => it.url == u)).isSome = false) :
    preloadVid u false st = (.resolvedU none, processQueueVid
      { st with
        preloadQueue := st.preloadQueue ++ [⟨u, false, st.nextSeq⟩]
        nextSeq := st.nextSeq + 1 }) := by
  unfold preloadVid
  rw [if_neg hu]
  dsimp only
  rw [isCachedVid_none hc]
  dsimp only
  simp only [Bool.false_eq_true, if_false]
  rw [hp]
  all_goals dsimp only
  all_goals rw [if_neg (by simp)]
  all_goals rw [hqf]
  all_goals simp only [Bool.false_eq_true, if_false]
  all_goals rfl

theorem preloadVid_miss_low_fst (st : VideoState) (u : String)
    (hu : u ≠ "") (hc : mapGet st.cache u = none)
    (hp : mapGet st.loadPromises u = none) :
    (preloadVid u false st).1 = .resolvedU none := by
  unfold preloadVid
  rw [if_neg hu]
  dsimp only
  rw [isCachedVid_none hc]
  dsimp only
  simp only [Bool.false_eq_true, if_false]
  rw [hp]
  all_goals dsimp only
  all_goals rw [if_neg (by simp)]

theorem processQueueImg_no (st : ImageState) (h : st.isProcessing = false) :
    processQueueImg st = drainImg st.preloadQueue st := by
  unfold processQueueImg
  rw [h]
  simp only [Bool.false_eq_true, if_false]

theorem processQueueVid_no (st : VideoState) (h : st.isProcessing = false) :
    processQueueVid st = drainVid st.preloadQueue st := by
  unfold processQueueVid
  rw [h]
  simp only [Bool.false_eq_true, if_false]

theorem drainVid_singleton_dispatch (it : QItem) (st : VideoState)
    (hact : st.activeLoads < VID_MAX_CONCURRENT_LOADS)
    (hc : mapGet st.cache it.url = none) :
    drainVid [it] st = { st with
      preloadQueue := []
      activeLoads := st.activeLoads + 1
      inflight := st.inflight ++ [(st.nextId, it.url)]
      loadPromises := mapSet st.loadPromises it.url st.nextId
      nextId := st.nextId + 1 } := by
  have hc1 : mapGet ({ st with preloadQueue := ([] : List QItem) } : VideoState).cache it.url
      = none := hc
  unfold drainVid
  rw [if_pos hact]
  dsimp only
  rw [isCachedVid_none hc1]
  dsimp only
  simp only [Bool.false_eq_true, if_false]
  unfold drainVid
  rfl

-- ==================== Claim C1 ====================

/-- Claim C1, counterexample.  Request de-duplication / fan-in fails in two
ways for `ImageCacheService.preload`: (i) the first Low-priority caller for a
fresh URL gets an already-resolved `false` — not a future tied to the fetch —
so when the fetch succeeds (its completion resolves `true` for the attached
callers), the N callers have observed different outcomes; (ii) a URL queued
at Low priority while the limit is saturated has no registered promise, so a
concurrent High-priority `preload` starts a second fetch and the drain later
starts a third-party duplicate: after the trace below, two fetches for `"u"`
are simultaneously in flight. -/
theorem C1_counterexample :
    (preloadImg "u" false initImg).1 = ImgRes.resolvedB false ∧
    (preloadImg "u" false (preloadImg "u" false initImg).2).1 = ImgRes.attachedP 0 ∧
    (completeImg 0 true (preloadImg "u" false initImg).2).1 = some true ∧
    ((runImg [ImgEvent.preload "a" true, ImgEvent.preload "b" true,
      ImgEvent.preload "c" true, ImgEvent.preload "d" true,
      ImgEvent.preload "e" true, ImgEvent.preload "f" true,
      ImgEvent.preload "u" false, ImgEvent.preload "u" true,
      ImgEvent.complete 0 true, ImgEvent.complete 1 true]).inflight.filter
        (fun p => p.2 == "u")).length = 2 :=
  ⟨by decide, by decide, by decide, by decide⟩

/-- Claim C1 (amended): de-duplication holds exactly for requests that find a
registered promise.  While a promise for the URL is registered (`Loading`
with an in-flight fetch), a second `preload` at either priority attaches to
that same promise and changes nothing, for both services; but a request that
finds no promise does not fan in: at Low priority it returns an
already-resolved `false` (images) or `null` (videos) rather than a future of
the fetch outcome. -/
theorem C1_dedup_amended :
    (∀ (st : ImageState) (u : String) (hi : Bool) (pid : Nat), u ≠ "" →
      isLoadedImg st u = false → mapGet st.loadPromises u = some pid →
      preloadImg u hi st = (ImgRes.attachedP pid, st)) ∧
    (∀ (st : VideoState) (u : String) (hi : Bool) (pid : Nat), u ≠ "" →
      mapGet st.cache u = none → mapGet st.loadPromises u = some pid →
      preloadVid u hi st = (VidRes.attachedP pid, st)) ∧
    (∀ (st : ImageState) (u : String), u ≠ "" → isLoadedImg st u = false →
      mapGet st.loadPromises u = none →
      (preloadImg u false st).1 = ImgRes.resolvedB false) ∧
    (∀ (st : VideoState) (u : String), u ≠ "" → mapGet st.cache u = none →
      mapGet st.loadPromises u = none →
      (preloadVid u false st).1 = VidRes.resolvedU none) := by
  refine ⟨?_, ?_, ?_, ?_⟩
  · intro st u hi pid hu hl hp
    exact preloadImg_attach hi hu hl hp
  · intro st u hi pid hu hc hp
    exact preloadVid_attach hi hu hc hp
  · intro st u hu hl hp
    exact preloadImg_miss_low_fst st u hu hl hp
  · intro st u hu hc hp
    exact preloadVid_miss_low_fst st u hu hc hp

/-- Claim C1, witness: the amended theorem applied at concrete states — a
second request while a promise is registered attaches to the registered
promise for both services, and first Low-priority requests resolve
immediately. -/
theorem C1_witness :
    preloadImg "u" true (preloadImg "u" true initImg).2
      = (ImgRes.attachedP 0, (preloadImg "u" true initImg).2) ∧
    preloadVid "u" true (preloadVid "u" true initVid).2
      = (VidRes.attachedP 0, (preloadVid "u" true initVid).2) ∧
    (preloadImg "u" false initImg).1 = ImgRes.resolvedB false ∧
    (preloadVid "u" false initVid).1 = VidRes.resolvedU none :=
  ⟨C1_dedup_amended.1 _ "u" true 0 (by decide) (by decide) (by decide),
   C1_dedup_amended.2.1 _ "u" true 0 (by decide) (by decide) (by decide),
   C1_dedup_amended.2.2.1 initImg "u" (by decide) (by decide) (by decide),
   C1_dedup_amended.2.2.2 initVid "u" (by decide) (by decide) (by decide)⟩

-- ==================== Claim C2 ====================

/-- Claim C2, counterexample.  `ImageCacheService.preload` at High priority
never consults `activeLoads`: seven simultaneous High preloads of distinct
URLs put seven entries in `Loading` (`activeLoads = 7 > CONCURRENT_LOADS`)
with an empty pending queue — no request waited for capacity. -/
theorem C2_counterexample :
    (runImg [ImgEvent.preload "a" true, ImgEvent.preload "b" true,
      ImgEvent.preload "c" true, ImgEvent.preload "d" true,
      ImgEvent.preload "e" true, ImgEvent.preload "f" true,
      ImgEvent.preload "g" true]).activeLoads = 7 ∧
    ¬ ((runImg [ImgEvent.preload "a" true, ImgEvent.preload "b" true,
      ImgEvent.preload "c" true, ImgEvent.preload "d" true,
      ImgEvent.preload "e" true, ImgEvent.preload "f" true,
      ImgEvent.preload "g" true]).activeLoads ≤ IMG_CONCURRENT_LOADS) ∧
    (runImg [ImgEvent.preload "a" true, ImgEvent.preload "b" true,
      ImgEvent.preload "c" true, ImgEvent.preload "d" true,
      ImgEvent.preload "e" true, ImgEvent.preload "f" true,
      ImgEvent.preload "g" true]).preloadQueue = [] :=
  ⟨by decide, by decide, by decide⟩

/-- Claim C2 (amended): the video cache obeys its concurrency bound on every
event trace (`activeLoads ≤ MAX_CONCURRENT_LOADS = 2`); the image cache obeys
`activeLoads ≤ CONCURRENT_LOADS = 6` only on traces whose events stay at Low
priority (no High `preload`, no `prioritize`), because the High path
dispatches unconditionally. -/
theorem C2_bound_amended :
    (∀ evs : List VidEvent,
      (runVid evs).activeLoads ≤ VID_MAX_CONCURRENT_LOADS) ∧
    (∀ evs : List ImgEvent, (∀ e ∈ evs, e.lowOnly = true) →
      (runImg evs).activeLoads ≤ IMG_CONCURRENT_LOADS) := by
  constructor
  · intro evs
    exact actVid_run_aux evs initVid (by decide)
  · intro evs h
    exact actImg_run_aux evs initImg (by decide) h

/-- Claim C2, witness: the amended bound applied to a trace of three High
video preloads and a trace of two Low image preloads. -/
theorem C2_witness :
    (runVid [VidEvent.preload "a" true, VidEvent.preload "b" true,
      VidEvent.preload "c" true]).activeLoads ≤ VID_MAX_CONCURRENT_LOADS ∧
    (runImg [ImgEvent.preload "a" false, ImgEvent.preload "b" false]).activeLoads
      ≤ IMG_CONCURRENT_LOADS :=
  ⟨C2_bound_amended.1 _, C2_bound_amended.2 _ (by decide)⟩

-- ==================== Claim C3 ====================

/-- Claim C3, counterexample.  With the image service already at its
concurrency limit (six fetches in flight), a seventh High-priority `preload`
is not appended to the queue: it is dispatched immediately (the seventh fetch
is in flight and the queue stays empty). -/
theorem C3_counterexample :
    (runImg [ImgEvent.preload "a" true, ImgEvent.preload "b" true,
      ImgEvent.preload "c" true, ImgEvent.preload "d" true,
      ImgEvent.preload "e" true, ImgEvent.preload "f" true]).activeLoads
      = IMG_CONCURRENT_LOADS ∧
    ((runImg [ImgEvent.preload "a" true, ImgEvent.preload "b" true,
      ImgEvent.preload "c" true, ImgEvent.preload "d" true,
      ImgEvent.preload "e" true, ImgEvent.preload "f" true,
      ImgEvent.preload "g" true]).inflight.filter (fun p => p.2 == "g")).length = 1 ∧
    (runImg [ImgEvent.preload "a" true, ImgEvent.preload "b" true,
      ImgEvent.preload "c" true, ImgEvent.preload "d" true,
      ImgEvent.preload "e" true, ImgEvent.preload "f" true,
      ImgEvent.preload "g" true]).preloadQueue = [] :=
  ⟨by decide, by decide, by decide⟩

/-- Claim C3 (amended): dispatch against the limit is priority-dependent.
Image: a High request for an absent/Idle URL always starts the fetch
immediately (even at the limit — the counterexample above), while a Low
request at the limit is appended to the queue, returns an already-resolved
`false`, and starts no fetch.  Video: a High request under the limit starts
immediately; at the limit it is pushed at the *front* of the queue, returns
an already-resolved `null`, and starts no fetch; a Low request under the
limit with an empty queue is dispatched by the ensuing queue drain. -/
theorem C3_dispatch_amended :
    (∀ (st : ImageState) (u : String), u ≠ "" → isLoadedImg st u = false →
      mapGet st.loadPromises u = none →
      (preloadImg u true st).1 = ImgRes.attachedP st.nextId ∧
      (st.nextId, u) ∈ (preloadImg u true st).2.inflight) ∧
    (∀ (st : ImageState) (u : String), u ≠ "" → isLoadedImg st u = false →
      mapGet st.loadPromises u = none → st.preloadQueue.contains u = false →
      st.isProcessing = false → ¬ (st.activeLoads < IMG_CONCURRENT_LOADS) →
      (preloadImg u false st).1 = ImgRes.resolvedB false ∧
      (preloadImg u false st).2.preloadQueue = st.preloadQueue ++ [u] ∧
      (preloadImg u false st).2.inflight = st.inflight) ∧
    (∀ (st : VideoState) (u : String), u ≠ "" → mapGet st.cache u = none →
      mapGet st.loadPromises u = none → st.activeLoads < VID_MAX_CONCURRENT_LOADS →
      (preloadVid u true st).1 = VidRes.attachedP st.nextId ∧
      (st.nextId, u) ∈ (preloadVid u true st).2.inflight) ∧
    (∀ (st : VideoState) (u : String), u ≠ "" → mapGet st.cache u = none →
      mapGet st.loadPromises u = none →
      (st.preloadQueue.find? (fun it => it.url == u)).isSome = false →
      st.isProcessing = false → ¬ (st.activeLoads < VID_MAX_CONCURRENT_LOADS) →
      (preloadVid u true st).1 = VidRes.resolvedU none ∧
      (preloadVid u true st).2.preloadQueue = ⟨u, true, st.nextSeq⟩ :: st.preloadQueue ∧
      (preloadVid u true st).2.inflight = st.inflight) ∧
    (∀ (st : VideoState) (u : String), u ≠ "" → mapGet st.cache u = none →
      mapGet st.loadPromises u = none → st.preloadQueue = [] →
      st.isProcessing = false → st.activeLoads < VID_MAX_CONCURRENT_LOADS →
      (preloadVid u false st).1 = VidRes.resolvedU none ∧
      (st.nextId, u) ∈ (preloadVid u false st).2.inflight) := by
  refine ⟨?_, ?_, ?_, ?_, ?_⟩
  · intro st u hu hl hp
    rw [preloadImg_miss_high st u hu hl hp]
    refine ⟨rfl, ?_⟩
    show (st.nextId, u) ∈ st.inflight ++ [(st.nextId, u)]
    exact List.mem_append.2 (Or.inr (List.mem_singleton.2 rfl))
  · intro st u hu hl hp hq hip hact
    rw [preloadImg_miss_low_queue st u hu hl hp hq, processQueueImg_no, drainImg_at_capacity]
    · exact ⟨rfl, rfl, rfl⟩
    · exact hact
    · exact hip
  · intro st u hu hc hp hact
    rw [preloadVid_miss_high_cap st u hu hc hp hact]
    refine ⟨rfl, ?_⟩
    show (st.nextId, u) ∈ st.inflight ++ [(st.nextId, u)]
    exact List.mem_append.2 (Or.inr (List.mem_singleton.2 rfl))
  · intro st u hu hc hp hqf hip hact
    rw [preloadVid_miss_high_full st u hu hc hp hqf hact, processQueueVid_no,
      drainVid_at_capacity]
    · exact ⟨rfl, rfl, rfl⟩
    · exact hact
    · exact hip
  · intro st u hu hc hp hqe hip hact
    have hqf : (st.preloadQueue.find? (fun it => it.url == u)).isSome = false := by
      rw [hqe]
      rfl
    rw [preloadVid_miss_low st u hu hc hp hqf, processQueueVid_no, hqe]
    · simp only [List.nil_append]
      rw [drainVid_singleton_dispatch]
      · refine ⟨trivial, ?_⟩
        show (st.nextId, u) ∈ st.inflight ++ [(st.nextId, u)]
        exact List.mem_append.2 (Or.inr (List.mem_singleton.2 rfl))
      · exact hact
      · exact hc
    · exact hip

/-- Claim C3, witness: the amended dispatch rules applied at concrete
states — a fresh service, a saturated image service (six in flight), a
saturated video service (two in flight), and a fresh video service at Low
priority. -/
theorem C3_witness :
    ((preloadImg "z" true initImg).1 = ImgRes.attachedP initImg.nextId ∧
      (initImg.nextId, "z") ∈ (preloadImg "z" true initImg).2.inflight) ∧
    ((preloadImg "g" false (runImg [ImgEvent.preload "a" true, ImgEvent.preload "b" true,
        ImgEvent.preload "c" true, ImgEvent.preload "d" true,
        ImgEvent.preload "e" true, ImgEvent.preload "f" true])).1
        = ImgRes.resolvedB false ∧
      (preloadImg "g" false (runImg [ImgEvent.preload "a" true, ImgEvent.preload "b" true,
        ImgEvent.preload "c" true, ImgEvent.preload "d" true,
        ImgEvent.preload "e" true, ImgEvent.preload "f" true])).2.preloadQueue
        = (runImg [ImgEvent.preload "a" true, ImgEvent.preload "b" true,
        ImgEvent.preload "c" true, ImgEvent.preload "d" true,
        ImgEvent.preload "e" true, ImgEvent.preload "f" true]).preloadQueue ++ ["g"] ∧
      (preloadImg "g" false (runImg [ImgEvent.preload "a" true, ImgEvent.preload "b" true,
        ImgEvent.preload "c" true, ImgEvent.preload "d" true,
        ImgEvent.preload "e" true, ImgEvent.preload "f" true])).2.inflight
        = (runImg [ImgEvent.preload "a" true, ImgEvent.preload "b" true,
        ImgEvent.preload "c" true, ImgEvent.preload "d" true,
        ImgEvent.preload "e" true, ImgEvent.preload "f" true]).inflight) ∧
    ((preloadVid "z" true initVid).1 = VidRes.attachedP initVid.nextId ∧
      (initVid.nextId, "z") ∈ (preloadVid "z" true initVid).2.inflight) ∧
    ((preloadVid "c" true (runVid [VidEvent.preload "a" true, VidEvent.preload "b" true])).1
        = VidRes.resolvedU none ∧
      (preloadVid "c" true (runVid [VidEvent.preload "a" true,
        VidEvent.preload "b" true])).2.preloadQueue
        = ⟨"c", true, (runVid [VidEvent.preload "a" true, VidEvent.preload "b" true]).nextSeq⟩
          :: (runVid [VidEvent.preload "a" true, VidEvent.preload "b" true]).preloadQueue ∧
      (preloadVid "c" true (runVid [VidEvent.preload "a" true,
        VidEvent.preload "b" true])).2.inflight
        = (runVid [VidEvent.preload "a" true, VidEvent.preload "b" true]).inflight) ∧
    ((preloadVid "z" false initVid).1 = VidRes.resolvedU none ∧
      (initVid.nextId, "z") ∈ (preloadVid "z" false initVid).2.inflight) :=
  ⟨C3_dispatch_amended.1 initImg "z" (by decide) (by decide) (by decide),
   C3_dispatch_amended.2.1 _ "g" (by decide) (by decide) (by decide) (by decide)
     (by decide) (by decide),
   C3_dispatch_amended.2.2.1 initVid "z" (by decide) (by decide) (by decide) (by decide),
   C3_dispatch_amended.2.2.2.1 _ "c" (by decide) (by decide) (by decide) (by decide)
     (by decide) (by decide),
   C3_dispatch_amended.2.2.2.2 initVid "z" (by decide) (by decide) (by decide) (by decide)
     (by decide) (by decide)⟩

-- ==================== Claim C4 ====================

/-- Claim C4, counterexample.  `VideoCacheService.preload` pushes High
requests with `unshift`, so queued Highs are dispatched LIFO, not FIFO: with
both slots busy, queueing `"h1"` then `"h2"` (both High) and freeing one slot
dispatches `"h2"` while the earlier-enqueued `"h1"` is still queued. -/
theorem C4_counterexample :
    ((runVid [VidEvent.preload "v1" true, VidEvent.preload "v2" true,
      VidEvent.preload "h1" true, VidEvent.preload "h2" true,
      VidEvent.complete 0 (some 10)]).inflight.map Prod.snd) = ["v2", "h2"] ∧
    ((runVid [VidEvent.preload "v1" true, VidEvent.preload "v2" true,
      VidEvent.preload "h1" true, VidEvent.preload "h2" true,
      VidEvent.complete 0 (some 10)]).preloadQueue.map QItem.url) = ["h1"] :=
  ⟨by decide, by decide⟩

/-- Claim C4 (amended): on every reachable video-cache state the pending
queue is ordered by `qRel` — no Low precedes a High (so every High is
dispatched before any Low, and in particular a queue containing a High has a
High at its dispatch front), Lows are FIFO by enqueue order, but Highs are
LIFO (newest first, refuting strict FIFO within the High level); and no
`preload` or `prioritize` call removes an in-flight fetch (requests already
`Loading` are never preempted). -/
theorem C4_order_amended :
    (∀ evs : List VidEvent,
      (runVid evs).preloadQueue.Pairwise qRel ∧
      ∀ it ∈ (runVid evs).preloadQueue, it.seq < (runVid evs).nextSeq) ∧
    (∀ (evs : List VidEvent) (it : QItem) (rest : List QItem),
      (runVid evs).preloadQueue = it :: rest →
      (∃ j ∈ (runVid evs).preloadQueue, j.high = true) → it.high = true) ∧
    (∀ (u : String) (hi : Bool) (st : VideoState),
      st.inflight.Sublist (preloadVid u hi st).2.inflight) ∧
    (∀ (u : String) (st : VideoState),
      st.inflight.Sublist (prioritizeVid u st).inflight) :=
  ⟨fun evs => ⟨(qinv_run evs).ordered, (qinv_run evs).seqLt⟩,
   fun evs it rest hq hex => qinv_front_high (qinv_run evs).ordered hq hex,
   preloadVid_inflight_sublist,
   prioritizeVid_inflight_sublist⟩

/-- Claim C4, witness: the amended ordering applied to a trace that leaves a
High request queued behind two in-flight fetches. -/
theorem C4_witness :
    ((runVid [VidEvent.preload "a" true, VidEvent.preload "b" true,
        VidEvent.preload "c" true]).preloadQueue.Pairwise qRel ∧
      ∀ it ∈ (runVid [VidEvent.preload "a" true, VidEvent.preload "b" true,
        VidEvent.preload "c" true]).preloadQueue,
        it.seq < (runVid [VidEvent.preload "a" true, VidEvent.preload "b" true,
          VidEvent.preload "c" true]).nextSeq) ∧
    (⟨"c", true, 0⟩ : QItem).high = true ∧
    initVid.inflight.Sublist (preloadVid "a" true initVid).2.inflight ∧
    initVid.inflight.Sublist (prioritizeVid "a" initVid).inflight :=
  ⟨C4_order_amended.1 _,
   C4_order_amended.2.1 [VidEvent.preload "a" true, VidEvent.preload "b" true,
     VidEvent.preload "c" true] ⟨"c", true, 0⟩ [] (by decide)
     ⟨⟨"c", true, 0⟩, by decide, rfl⟩,
   C4_order_amended.2.2.1 "a" true initVid,
   C4_order_amended.2.2.2 "a" initVid⟩

-- ==================== Claim C6 ====================

/-- Claim C6, counterexample.  `ImageCacheService.cleanup` never checks the
`loading` flag: an entry in the `Loading` state whose timestamp has aged past
the TTL is deleted by the sweep while its fetch is still in flight. -/
theorem C6_counterexample :
    mapGet (cleanupImgState { initImg with
      cache := [("u", ⟨false, true, false, 0⟩)]
      now := IMG_CACHE_TTL + 1 }).cache "u" = none ∧
    (⟨false, true, false, 0⟩ : CachedImage).loading = true :=
  ⟨by decide, rfl⟩

/-- Claim C6 (amended): image cleanup preserves every `Loading` entry only
when the entry is within the TTL and the cache is within the size bound (the
sweep and the trim are both blind to `loading`); the video services cannot
evict a `Loading` entry for a structural reason — on every clear-free
reachable state an in-flight URL has no cache entry at all (entries are
inserted only on completion). -/
theorem C6_eviction_amended :
    (∀ (now : Int) (c : List (String × CachedImage)) (u : String) (e : CachedImage),
      (c.map Prod.fst).Nodup → mapGet c u = some e → e.loading = true →
      now - e.timestamp ≤ IMG_CACHE_TTL → c.length ≤ IMG_MAX_CACHE_SIZE →
      mapGet (cleanupImg now c) u = some e) ∧
    (∀ evs : List VidEvent, (∀ e ∈ evs, e ≠ VidEvent.clear) →
      ∀ u ∈ (runVid evs).inflight.map Prod.snd, u ∉ (runVid evs).cache.map Prod.fst) := by
  constructor
  · intro now c u e hn h hload hts hc
    exact cleanupImg_keeps_fresh hn h hts hc
  · intro evs hnc
    exact (vinv_run evs hnc).inflightNotCached

/-- Claim C6, witness: a fresh `Loading` image entry survives cleanup, and
after one video preload the in-flight URL is indeed absent from the cache
map. -/
theorem C6_witness :
    mapGet (cleanupImg 0 [("u", ⟨false, true, false, 0⟩)]) "u"
      = some ⟨false, true, false, 0⟩ ∧
    (∀ u ∈ (runVid [VidEvent.preload "a" true]).inflight.map Prod.snd,
      u ∉ (runVid [VidEvent.preload "a" true]).cache.map Prod.fst) :=
  ⟨C6_eviction_amended.1 0 [("u", ⟨false, true, false, 0⟩)] "u" ⟨false, true, false, 0⟩
    (by decide) (by decide) rfl (by decide) (by decide),
   C6_eviction_amended.2 [VidEvent.preload "a" true] (by decide)⟩

-- ==================== Claim C10 ====================

/-- Claim C10, counterexample.  `VideoCacheService.clear` resets
`currentCacheSize` to `0` but does not touch the in-flight fetches, whose
completions still add their sizes: after a preload, a `clear`, a second
preload and both completions, `currentCacheSize` is `30` while the resident
entry's sizes sum to `20` — the equality is broken by a public operation
sequence. -/
theorem C10_counterexample :
    (runVid [VidEvent.preload "u" true, VidEvent.clear, VidEvent.preload "u" true,
      VidEvent.complete 0 (some 10), VidEvent.complete 1 (some 20)]).currentCacheSize
      = 30 ∧
    vidSum (runVid [VidEvent.preload "u" true, VidEvent.clear,
      VidEvent.preload "u" true, VidEvent.complete 0 (some 10),
      VidEvent.complete 1 (some 20)]).cache = 20 :=
  ⟨by decide, by decide⟩

/-- Claim C10 (amended): `currentCacheSize = Σ size` holds on every reachable
state of traces without `clear` (every other public operation preserves the
equality), and `clear` itself re-establishes it instantaneously (`0` on an
empty map) — the equality can only break later, when a fetch that was in
flight across the `clear` completes. -/
theorem C10_size_accounting_amended :
    (∀ evs : List VidEvent, (∀ e ∈ evs, e ≠ VidEvent.clear) →
      (runVid evs).currentCacheSize = vidSum (runVid evs).cache) ∧
    (∀ st : VideoState, (clearVid st).currentCacheSize = vidSum (clearVid st).cache) :=
  ⟨fun evs h => (vinv_run evs h).sizeEq, fun st => rfl⟩

/-- Claim C10, witness: the size accounting on a clear-free trace with one
completed load, and after a `clear`. -/
theorem C10_witness :
    (runVid [VidEvent.preload "u" true,
      VidEvent.complete 0 (some 10)]).currentCacheSize
      = vidSum (runVid [VidEvent.preload "u" true,
        VidEvent.complete 0 (some 10)]).cache ∧
    (clearVid initVid).currentCacheSize = vidSum (clearVid initVid).cache :=
  ⟨C10_size_accounting_amended.1 _ (by decide), C10_size_accounting_amended.2 initVid⟩

-- ==================== Claim C5 ====================

/-- A video cache holding two 45MB entries with equal timestamps (consistent
with its `currentCacheSize`): the `ensureSpace` loop must evict both to admit
a 10MB entry. -/
def c5State : VideoState :=
  { initVid with
    cache := [("a", ⟨1, "a", 0, 45 * 1024 * 1024⟩), ("b", ⟨2, "b", 0, 45 * 1024 * 1024⟩)]
    currentCacheSize := 90 * 1024 * 1024 }

/-- Claim C5, counterexample.  The trim's removal order is not *strictly*
increasing in timestamp: evicting two equal-timestamp entries (here both `0`)
removes them in timestamp order `[0, 0]`, which is nondecreasing but not
strictly increasing.  (The bound itself is re-established: the cache is
emptied.) -/
theorem C5_counterexample :
    (ensureSpaceAux c5State.cache.length (10 * 1024 * 1024) c5State).2 = [0, 0] ∧
    (ensureSpace (10 * 1024 * 1024) c5State).cache = [] ∧
    ¬ ((ensureSpaceAux c5State.cache.length (10 * 1024 * 1024) c5State).2.Pairwise
        (· < ·)) :=
  ⟨by decide, by decide, by decide⟩

/-- Claim C5 (amended): after an eviction pass the bound holds — image
`cleanup` leaves at most `MAX_CACHE_SIZE` entries (for a well-formed map),
and `ensureSpace n` leaves `currentCacheSize + n ≤ MAX_CACHE_SIZE` unless it
emptied the cache (each removed entry is the oldest resident one, found by a
strict-minimum scan) — and the removal order of both trims is *nondecreasing*
(oldest first), not strictly increasing, since equal timestamps tie. -/
theorem C5_trim_amended :
    (∀ (now : Int) (c : List (String × CachedImage)), (c.map Prod.fst).Nodup →
      (cleanupImg now c).length ≤ IMG_MAX_CACHE_SIZE) ∧
    (∀ (now : Int) (c : List (String × CachedImage)),
      ((cleanupImgAux now c).2.map (fun p => p.2.timestamp)).Sorted (· ≤ ·)) ∧
    (∀ (needed : Nat) (st : VideoState),
      (st.cache.map Prod.fst).Nodup → "" ∉ st.cache.map Prod.fst →
      (ensureSpace needed st).currentCacheSize + (needed : Int) ≤ VID_MAX_CACHE_SIZE ∨
        (ensureSpace needed st).cache = []) ∧
    (∀ (fuel needed : Nat) (st : VideoState),
      ((ensureSpaceAux fuel needed st).2).Sorted (· ≤ ·)) := by
  refine ⟨?_, ?_, ?_, ?_⟩
  · intro now c hn
    exact cleanupImg_length_le hn
  · intro now c
    exact cleanupImg_removed_sorted now c
  · intro needed st hn hne
    exact ensureSpaceAux_post st.cache.length needed st hn hne (le_refl _)
  · intro fuel needed st
    exact (ensureSpaceAux_removed_sorted fuel needed st).1

/-- Claim C5, witness: the amended bounds applied to a one-entry image cache
and to the tied two-entry video cache of the counterexample. -/
theorem C5_witness :
    (cleanupImg 0 [("u", ⟨true, false, false, 0⟩)]).length ≤ IMG_MAX_CACHE_SIZE ∧
    ((cleanupImgAux 0 [("u", ⟨true, false, false, 0⟩)]).2.map
      (fun p => p.2.timestamp)).Sorted (· ≤ ·) ∧
    ((ensureSpace (10 * 1024 * 1024) c5State).currentCacheSize
        + ((10 * 1024 * 1024 : Nat) : Int) ≤ VID_MAX_CACHE_SIZE ∨
      (ensureSpace (10 * 1024 * 1024) c5State).cache = []) ∧
    ((ensureSpaceAux c5State.cache.length (10 * 1024 * 1024) c5State).2).Sorted (· ≤ ·) :=
  ⟨C5_trim_amended.1 0 [("u", ⟨true, false, false, 0⟩)] (by decide),
   C5_trim_amended.2.1 0 [("u", ⟨true, false, false, 0⟩)],
   C5_trim_amended.2.2.1 (10 * 1024 * 1024) c5State (by decide) (by decide),
   C5_trim_amended.2.2.2 c5State.cache.length (10 * 1024 * 1024) c5State⟩

-- ==================== Claim C8 ====================

/-- Pairwise-distinct nonempty keys (`"k"`, `"kk"`, …). -/
def imgKey (i : Nat) : String := ⟨List.replicate (i + 1) 'k'⟩

theorem imgKey_inj : Function.Injective imgKey := by
  intro a b h
  have hd : List.replicate (a + 1) 'k' = List.replicate (b + 1) 'k' :=
    congrArg String.data h
  have hl := congrArg List.length hd
  simp only [List.length_replicate] at hl
  omega

/-- An image cache of 301 `Loaded` entries with distinct timestamps
`0, 1, …, 300`, all well within the TTL at time `400`. -/
def big301 : List (String × CachedImage) :=
  (List.range 301).map (fun i => (imgKey i, ⟨true, false, false, (i : Int)⟩))

theorem big301_mem {p : String × CachedImage} (hp : p ∈ big301) :
    ∃ i : Nat, i < 301 ∧ p = (imgKey i, ⟨true, false, false, (i : Int)⟩) := by
  have hp' : p ∈ (List.range 301).map
      (fun i => (imgKey i, (⟨true, false, false, (i : Int)⟩ : CachedImage))) := hp
  obtain ⟨i, hi, he⟩ := List.mem_map.1 hp'
  exact ⟨i, List.mem_range.1 hi, he.symm⟩

theorem big301_length : big301.length = 301 := by
  have h : big301.length = ((List.range 301).map
      (fun i => (imgKey i, (⟨true, false, false, (i : Int)⟩ : CachedImage)))).length := rfl
  rw [h, List.length_map, List.length_range]

theorem big301_nodup : (big301.map Prod.fst).Nodup := by
  have he : big301.map Prod.fst = (List.range 301).map (fun i => imgKey i) := by
    show ((List.range 301).map
      (fun i => (imgKey i, (⟨true, false, false, (i : Int)⟩ : CachedImage)))).map Prod.fst
      = (List.range 301).map (fun i => imgKey i)
    rw [List.map_map]
    rfl
  rw [he]
  exact List.Nodup.map imgKey_inj (List.nodup_range 301)

theorem big301_fresh : ∀ p ∈ big301, ¬ ((400 : Int) - p.2.timestamp > IMG_CACHE_TTL) := by
  intro p hp
  obtain ⟨i, hi, he⟩ := big301_mem hp
  subst he
  show ¬ ((400 : Int) - (i : Int) > IMG_CACHE_TTL)
  rw [show IMG_CACHE_TTL = 1800000 from rfl]
  omega

theorem big301_sweep : imgSweep 400 big301 = big301 := by
  unfold imgSweep
  apply List.filter_eq_self.2
  intro p hp
  have h := big301_fresh p hp
  simp [h]

/-- Claim C8, counterexample.  The image `cleanup` does not remove exactly
the entries with `now − timestamp > TTL`: with 301 resident entries all
within the TTL, the size trim that follows the sweep deletes the oldest
entry (timestamp `0`, age `400 ≪ TTL`), so a fresh entry does not survive
`cleanup`. -/
theorem C8_counterexample :
    mapGet big301 (imgKey 0) = some ⟨true, false, false, 0⟩ ∧
    ((400 : Int) - (⟨true, false, false, 0⟩ : CachedImage).timestamp ≤ IMG_CACHE_TTL) ∧
    mapGet (cleanupImg 400 big301) (imgKey 0) = none := by
  refine ⟨by decide, by decide, ?_⟩
  have hn := big301_nodup
  have hlen : (imgSweep 400 big301).length > IMG_MAX_CACHE_SIZE := by
    rw [big301_sweep, big301_length]
    decide
  have hres : cleanupImg 400 big301 =
      ((List.insertionSort tsLe
        (big301.filter (fun p => (mapGet (imgSweep 400 big301) p.1).isSome))).take
        ((imgSweep 400 big301).length - IMG_MAX_CACHE_SIZE)).foldl
        (fun m p => mapDelete m p.1) (imgSweep 400 big301) := by
    simp only [cleanupImg, cleanupImgAux]
    rw [if_pos hlen]
  have hfil : big301.filter (fun p => (mapGet (imgSweep 400 big301) p.1).isSome)
      = imgSweep 400 big301 := filter_isSome_eq_imgSweep hn
  have htake : (imgSweep 400 big301).length - IMG_MAX_CACHE_SIZE = 1 := by
    rw [big301_sweep, big301_length]
    decide
  rw [hres, htake, hfil, big301_sweep]
  have hperm : List.Perm (List.insertionSort tsLe big301) big301 :=
    List.perm_insertionSort tsLe big301
  have hsort : List.Sorted tsLe (List.insertionSort tsLe big301) :=
    List.sorted_insertionSort tsLe big301
  cases hs : List.insertionSort tsLe big301 with
  | nil =>
    exfalso
    have hl := hperm.length_eq
    rw [hs, big301_length] at hl
    simp at hl
  | cons hd tl =>
    have hhd_mem : hd ∈ big301 :=
      hperm.mem_iff.1 (by rw [hs]; exact List.mem_cons_self _ _)
    obtain ⟨i, hi, hhd⟩ := big301_mem hhd_mem
    have h0mem : (imgKey 0, (⟨true, false, false, (0 : Int)⟩ : CachedImage))
        ∈ List.insertionSort tsLe big301 := by
      refine hperm.mem_iff.2 ?_
      show _ ∈ (List.range 301).map
        (fun i => (imgKey i, (⟨true, false, false, (i : Int)⟩ : CachedImage)))
      exact List.mem_map.2 ⟨0, List.mem_range.2 (by norm_num), rfl⟩
    rw [hs] at h0mem hsort
    have hts_le : hd.2.timestamp ≤ 0 := by
      rcases List.mem_cons.1 h0mem with he | he
      · rw [← he]
      · exact (List.pairwise_cons.1 hsort).1 _ he
    have hi0 : i = 0 := by
      rw [hhd] at hts_le
      have h2 : (i : Int) ≤ 0 := hts_le
      omega
    rw [hi0] at hhd
    have htk : (hd :: tl).take 1 = [hd] := rfl
    rw [htk, List.foldl_cons, List.foldl_nil, hhd]
    show mapGet (mapDelete big301 (imgKey 0)) (imgKey 0) = none
    exact mapGet_mapDelete_self _ _

/-- Claim C8 (amended): the TTL sweep itself removes exactly the expired
entries — for a well-formed cache, an entry with age `> TTL` is absent after
cleanup (video: with its blob handle revoked) and an entry with age `≤ TTL`
survives image cleanup *provided* the cache holds at most `MAX_CACHE_SIZE`
entries (otherwise the size trim can delete fresh entries — the
counterexample above); video cleanup has no size trim, so there freshness
alone guarantees survival. -/
theorem C8_sweep_amended :
    (∀ (now : Int) (c : List (String × CachedImage)) (u : String) (e : CachedImage),
      (c.map Prod.fst).Nodup → mapGet c u = some e →
      now - e.timestamp > IMG_CACHE_TTL →
      mapGet (cleanupImg now c) u = none) ∧
    (∀ (now : Int) (c : List (String × CachedImage)) (u : String) (e : CachedImage),
      (c.map Prod.fst).Nodup → mapGet c u = some e →
      now - e.timestamp ≤ IMG_CACHE_TTL → c.length ≤ IMG_MAX_CACHE_SIZE →
      mapGet (cleanupImg now c) u = some e) ∧
    (∀ (st : VideoState) (u : String) (e : CachedVideo),
      (st.cache.map Prod.fst).Nodup → mapGet st.cache u = some e →
      st.now - e.timestamp > VID_CACHE_TTL →
      mapGet (cleanupVid st).cache u = none ∧ e.blobUrl ∈ (cleanupVid st).revoked) ∧
    (∀ (st : VideoState) (u : String) (e : CachedVideo),
      (st.cache.map Prod.fst).Nodup → mapGet st.cache u = some e →
      ¬ (st.now - e.timestamp > VID_CACHE_TTL) →
      mapGet (cleanupVid st).cache u = some e) := by
  refine ⟨?_, ?_, ?_, ?_⟩
  · intro now c u e hn h ht
    exact cleanupImg_removes_expired hn h ht
  · intro now c u e hn h ht hc
    exact cleanupImg_keeps_fresh hn h ht hc
  · intro st u e hn h ht
    exact cleanupVid_removes_expired hn h ht
  · intro st u e hn h ht
    exact cleanupVid_keeps_fresh hn h ht

/-- Claim C8, witness: the amended sweep semantics applied to concrete
one-entry caches on both sides of the TTL, for both services. -/
theorem C8_witness :
    mapGet (cleanupImg (IMG_CACHE_TTL + 1) [("u", ⟨true, false, false, 0⟩)]) "u" = none ∧
    mapGet (cleanupImg IMG_CACHE_TTL [("u", ⟨true, false, false, 0⟩)]) "u"
      = some ⟨true, false, false, 0⟩ ∧
    (mapGet (cleanupVid { initVid with
        cache := [("v", ⟨5, "v", 0, 3⟩)]
        currentCacheSize := 3
        now := VID_CACHE_TTL + 1 }).cache "v" = none ∧
      (5 : Nat) ∈ (cleanupVid { initVid with
        cache := [("v", ⟨5, "v", 0, 3⟩)]
        currentCacheSize := 3
        now := VID_CACHE_TTL + 1 }).revoked) ∧
    mapGet (cleanupVid { initVid with
        cache := [("v", ⟨5, "v", 0, 3⟩)]
        currentCacheSize := 3 }).cache "v" = some ⟨5, "v", 0, 3⟩ :=
  ⟨C8_sweep_amended.1 (IMG_CACHE_TTL + 1) [("u", ⟨true, false, false, 0⟩)] "u"
      ⟨true, false, false, 0⟩ (by decide) (by decide) (by decide),
   C8_sweep_amended.2.1 IMG_CACHE_TTL [("u", ⟨true, false, false, 0⟩)] "u"
      ⟨true, false, false, 0⟩ (by decide) (by decide) (by decide) (by decide),
   C8_sweep_amended.2.2.1 { initVid with
        cache := [("v", ⟨5, "v", 0, 3⟩)]
        currentCacheSize := 3
        now := VID_CACHE_TTL + 1 } "v" ⟨5, "v", 0, 3⟩ (by decide) (by decide) (by decide),
   C8_sweep_amended.2.2.2 { initVid with
        cache := [("v", ⟨5, "v", 0, 3⟩)]
        currentCacheSize := 3 } "v" ⟨5, "v", 0, 3⟩ (by decide) (by decide) (by decide)⟩

-- ==================== Claim C9 ====================

theorem processQueueImg_cache (st : ImageState) :
    (processQueueImg st).cache = st.cache := by
  unfold processQueueImg
  by_cases h : st.isProcessing = true
  · rw [if_pos h]
  · rw [if_neg h]
    exact drainImg_cache _ _

theorem processQueueImg_promises_notin {st : ImageState} {u : String}
    (hq : u ∉ st.preloadQueue) :
    mapGet (processQueueImg st).loadPromises u = mapGet st.loadPromises u := by
  unfold processQueueImg
  by_cases h : st.isProcessing = true
  · rw [if_pos h]
  · rw [if_neg h]
    exact drainImg_promises_notin _ _ hq

theorem processQueueImg_inflight_notin {st : ImageState} {u : String}
    (hq : u ∉ st.preloadQueue) (hin : u ∉ st.inflight.map Prod.snd) :
    u ∉ (processQueueImg st).inflight.map Prod.snd := by
  unfold processQueueImg
  by_cases h : st.isProcessing = true
  · rw [if_pos h]
    exact hin
  · rw [if_neg h]
    exact drainImg_inflight_notin _ _ hq hin

theorem processQueueImg_queue_notin {st : ImageState} {u : String}
    (hq : u ∉ st.preloadQueue) : u ∉ (processQueueImg st).preloadQueue := by
  unfold processQueueImg
  by_cases h : st.isProcessing = true
  · rw [if_pos h]
    exact hq
  · rw [if_neg h]
    exact drainImg_queue_notin _ _ hq

theorem processQueueVid_cache_none {st : VideoState} {u : String}
    (hc : mapGet st.cache u = none) :
    mapGet (processQueueVid st).cache u = none := by
  unfold processQueueVid
  by_cases h : st.isProcessing = true
  · rw [if_pos h]
    exact hc
  · rw [if_neg h]
    exact drainVid_cache_none _ _ hc

theorem processQueueVid_promises_notin {st : VideoState} {u : String}
    (hq : u ∉ st.preloadQueue.map QItem.url) :
    mapGet (processQueueVid st).loadPromises u = mapGet st.loadPromises u := by
  unfold processQueueVid
  by_cases h : st.isProcessing = true
  · rw [if_pos h]
  · rw [if_neg h]
    exact drainVid_promises_notin _ _ hq

/-- The `onerror` continuation of an image fetch: mark the entry
`error := true, loading := false`, run the bookkeeping, resolve `false`. -/
theorem completeImg_err (st : ImageState) (id : Nat) (fl : Nat × String) (e : CachedImage)
    (hfind : st.inflight.find? (fun p => p.1 == id) = some fl)
    (hce : mapGet st.cache fl.2 = some e) :
    completeImg id false st = (some false, processQueueImg
      { st with
        cache := mapSet st.cache fl.2 { e with error := true, loading := false }
        activeLoads := st.activeLoads - 1
        loadPromises := mapDelete st.loadPromises fl.2
        inflight := st.inflight.eraseP (fun p => p.1 == id) }) := by
  unfold completeImg
  rw [hfind]
  dsimp only
  rw [hce]
  dsimp only
  simp only [Bool.false_eq_true, if_false]

/-- The `catch`/`finally` path of a video fetch: no cache insertion, promise
dropped, resolve `null`. -/
theorem completeVid_err (st : VideoState) (id : Nat) (fl : Nat × String)
    (hfind : st.inflight.find? (fun p => p.1 == id) = some fl) :
    completeVid id none st = (some none, processQueueVid
      { st with
        activeLoads := st.activeLoads - 1
        loadPromises := mapDelete st.loadPromises fl.2
        inflight := st.inflight.eraseP (fun p => p.1 == id) }) := by
  unfold completeVid
  rw [hfind]
  all_goals rfl

/-- Claim C9: failure semantics.  Image: the `onerror` continuation of the
fetch for a URL marks its entry `Errored` (`error := true`,
`loading := false`), resolves the promise with `false` (no exception reaches
the caller), drops the promise, and leaves no fetch, promise or queue entry
for the URL — the scheduler does not retry; yet a later `preload` (High) or
`prioritize` that finds the `Errored` (not `Loaded`) entry and no promise
starts a fresh fetch, so `Errored` does not block a retry the way `Loading`
(registered promise) or `Loaded` do.  Video: a failed fetch resolves `null`,
leaves no cache entry and no promise for the URL (the conceptual `Errored`
state: absent, not loading), is not retried by the scheduler, and a later
`preload` starts a fresh fetch. -/
theorem C9_error_semantics :
    (∀ (st : ImageState) (id : Nat) (fl : Nat × String) (e : CachedImage),
      st.inflight.find? (fun p => p.1 == id) = some fl →
      mapGet st.cache fl.2 = some e →
      fl.2 ∉ st.preloadQueue →
      (st.inflight.map Prod.snd).Nodup →
      (completeImg id false st).1 = some false ∧
      mapGet (completeImg id false st).2.cache fl.2
        = some { e with error := true, loading := false } ∧
      mapGet (completeImg id false st).2.loadPromises fl.2 = none ∧
      fl.2 ∉ (completeImg id false st).2.inflight.map Prod.snd ∧
      fl.2 ∉ (completeImg id false st).2.preloadQueue) ∧
    (∀ (st : ImageState) (u : String) (e : CachedImage), u ≠ "" →
      mapGet st.cache u = some e → e.error = true → e.loaded = false →
      mapGet st.loadPromises u = none →
      (preloadImg u true st).1 = ImgRes.attachedP st.nextId ∧
      (st.nextId, u) ∈ (preloadImg u true st).2.inflight) ∧
    (∀ (st : ImageState) (u : String) (e : CachedImage), u ≠ "" →
      mapGet st.cache u = some e → e.loaded = false →
      mapGet st.loadPromises u = none →
      (st.nextId, u) ∈ (prioritizeImg u st).inflight) ∧
    (∀ (st : VideoState) (id : Nat) (fl : Nat × String),
      st.inflight.find? (fun p => p.1 == id) = some fl →
      mapGet st.cache fl.2 = none →
      fl.2 ∉ st.preloadQueue.map QItem.url →
      (completeVid id none st).1 = some none ∧
      mapGet (completeVid id none st).2.cache fl.2 = none ∧
      mapGet (completeVid id none st).2.loadPromises fl.2 = none) ∧
    (∀ (st : VideoState) (u : String), u ≠ "" → mapGet st.cache u = none →
      mapGet st.loadPromises u = none →
      st.activeLoads < VID_MAX_CONCURRENT_LOADS →
      (preloadVid u true st).1 = VidRes.attachedP st.nextId ∧
      (st.nextId, u) ∈ (preloadVid u true st).2.inflight) := by
  refine ⟨?_, ?_, ?_, ?_, ?_⟩
  · intro st id fl e hfind hce hq hnodup
    obtain ⟨l1, l2, hdec, hl1, hflq, herase⟩ := find?_eraseP_decomp _ st.inflight fl hfind
    have hnotin : fl.2 ∉ (st.inflight.eraseP (fun p => p.1 == id)).map Prod.snd := by
      rw [herase]
      rw [hdec] at hnodup
      rw [List.map_append] at hnodup ⊢
      rw [List.map_cons] at hnodup
      intro hmem
      rcases List.mem_append.1 hmem with h1 | h1
      · exact absurd (List.mem_cons_self _ _) ((List.disjoint_of_nodup_append hnodup) h1)
      · have h2 := (List.nodup_append.1 hnodup).2.1
        exact (List.nodup_cons.1 h2).1 h1
    rw [completeImg_err st id fl e hfind hce]
    generalize hX : ({ st with
        cache := mapSet st.cache fl.2 { e with error := true, loading := false }
        activeLoads := st.activeLoads - 1
        loadPromises := mapDelete st.loadPromises fl.2
        inflight := st.inflight.eraseP (fun p => p.1 == id) } : ImageState) = stX
    have hqX : fl.2 ∉ stX.preloadQueue := by
      rw [← hX]
      exact hq
    have hpX : mapGet stX.loadPromises fl.2 = none := by
      rw [← hX]
      show mapGet (mapDelete st.loadPromises fl.2) fl.2 = none
      exact mapGet_mapDelete_self _ _
    have hinX : fl.2 ∉ stX.inflight.map Prod.snd := by
      rw [← hX]
      exact hnotin
    have hcX : mapGet stX.cache fl.2 = some { e with error := true, loading := false } := by
      rw [← hX]
      show mapGet (mapSet st.cache fl.2 { e with error := true, loading := false }) fl.2 = _
      exact mapGet_mapSet_self _ _ _
    refine ⟨rfl, ?_, ?_, ?_, ?_⟩
    · show mapGet (processQueueImg stX).cache fl.2 = _
      rw [processQueueImg_cache]
      exact hcX
    · show mapGet (processQueueImg stX).loadPromises fl.2 = none
      rw [processQueueImg_promises_notin hqX]
      exact hpX
    · show fl.2 ∉ (processQueueImg stX).inflight.map Prod.snd
      exact processQueueImg_inflight_notin hqX hinX
    · show fl.2 ∉ (processQueueImg stX).preloadQueue
      exact processQueueImg_queue_notin hqX
  · intro st u e hu hce herr hload hp
    have hl : isLoadedImg st u = false := isLoadedImg_false_of_get hce hload
    rw [preloadImg_miss_high st u hu hl hp]
    refine ⟨rfl, ?_⟩
    show (st.nextId, u) ∈ st.inflight ++ [(st.nextId, u)]
    exact List.mem_append.2 (Or.inr (List.mem_singleton.2 rfl))
  · intro st u e hu hce hload hp
    have hl : isLoadedImg st u = false := isLoadedImg_false_of_get hce hload
    unfold prioritizeImg
    rw [hl]
    simp only [Bool.false_eq_true, if_false]
    rw [preloadImg_miss_high]
    · show (st.nextId, u) ∈ st.inflight ++ [(st.nextId, u)]
      exact List.mem_append.2 (Or.inr (List.mem_singleton.2 rfl))
    · exact hu
    · exact hl
    · exact hp
  · intro st id fl hfind hc hq
    rw [completeVid_err st id fl hfind]
    generalize hX : ({ st with
        activeLoads := st.activeLoads - 1
        loadPromises := mapDelete st.loadPromises fl.2
        inflight := st.inflight.eraseP (fun p => p.1 == id) } : VideoState) = stX
    have hcX : mapGet stX.cache fl.2 = none := by
      rw [← hX]
      exact hc
    have hqX : fl.2 ∉ stX.preloadQueue.map QItem.url := by
      rw [← hX]
      exact hq
    have hpX : mapGet stX.loadPromises fl.2 = none := by
      rw [← hX]
      show mapGet (mapDelete st.loadPromises fl.2) fl.2 = none
      exact mapGet_mapDelete_self _ _
    refine ⟨rfl, ?_, ?_⟩
    · show mapGet (processQueueVid stX).cache fl.2 = none
      exact processQueueVid_cache_none hcX
    · show mapGet (processQueueVid stX).loadPromises fl.2 = none
      rw [processQueueVid_promises_notin hqX]
      exact hpX
  · intro st u hu hc hp hact
    rw [preloadVid_miss_high_cap st u hu hc hp hact]
    refine ⟨rfl, ?_⟩
    show (st.nextId, u) ∈ st.inflight ++ [(st.nextId, u)]
    exact List.mem_append.2 (Or.inr (List.mem_singleton.2 rfl))

/-- Claim C9, witness: the failure semantics applied to a concrete run — one
image preload whose fetch errors, then a retry by `preload` and by
`prioritize`; one video preload whose fetch fails, then a retry. -/
theorem C9_witness :
    ((completeImg 0 false (preloadImg "u" true initImg).2).1 = some false ∧
      mapGet (completeImg 0 false (preloadImg "u" true initImg).2).2.cache "u"
        = some ⟨false, false, true, 0⟩ ∧
      mapGet (completeImg 0 false (preloadImg "u" true initImg).2).2.loadPromises "u"
        = none ∧
      "u" ∉ (completeImg 0 false (preloadImg "u" true initImg).2).2.inflight.map Prod.snd ∧
      "u" ∉ (completeImg 0 false (preloadImg "u" true initImg).2).2.preloadQueue) ∧
    ((preloadImg "u" true (completeImg 0 false (preloadImg "u" true initImg).2).2).1
        = ImgRes.attachedP (completeImg 0 false (preloadImg "u" true initImg).2).2.nextId ∧
      ((completeImg 0 false (preloadImg "u" true initImg).2).2.nextId, "u")
        ∈ (preloadImg "u" true
            (completeImg 0 false (preloadImg "u" true initImg).2).2).2.inflight) ∧
    (((completeImg 0 false (preloadImg "u" true initImg).2).2.nextId, "u")
      ∈ (prioritizeImg "u" (completeImg 0 false (preloadImg "u" true initImg).2).2).inflight) ∧
    ((completeVid 0 none (preloadVid "u" true initVid).2).1 = some none ∧
      mapGet (completeVid 0 none (preloadVid "u" true initVid).2).2.cache "u" = none ∧
      mapGet (completeVid 0 none (preloadVid "u" true initVid).2).2.loadPromises "u"
        = none) ∧
    ((preloadVid "u" true (completeVid 0 none (preloadVid "u" true initVid).2).2).1
        = VidRes.attachedP (completeVid 0 none (preloadVid "u" true initVid).2).2.nextId ∧
      ((completeVid 0 none (preloadVid "u" true initVid).2).2.nextId, "u")
        ∈ (preloadVid "u" true
            (completeVid 0 none (preloadVid "u" true initVid).2).2).2.inflight) :=
  ⟨C9_error_semantics.1 _ 0 (0, "u") ⟨false, true, false, 0⟩ (by decide) (by decide)
      (by decide) (by decide),
   C9_error_semantics.2.1 _ "u" ⟨false, false, true, 0⟩ (by decide) (by decide) rfl rfl
      (by decide),
   C9_error_semantics.2.2.1 _ "u" ⟨false, false, true, 0⟩ (by decide) (by decide) rfl
      (by decide),
   C9_error_semantics.2.2.2.1 _ 0 (0, "u") (by decide) (by decide) (by decide),
   C9_error_semantics.2.2.2.2 _ "u" (by decide) (by decide) (by decide) (by decide)⟩

end Spec2Proof